import Mathlib

/-!
Verification of `src/binary_parser.py` (class `BinaryParser`).

This file gives a shallow embedding of the three core operations of the
source file — the layout grammar parser `parse_layout`, the binary reader
`parse_file` and the binary writer `write_back` — together with proofs of
the specification's claims about them.

Modelling conventions:

* Machine bytes are `Nat` values; a binary file is a `List Nat` whose
  members are `< 256` (stated as a hypothesis where it matters).
* Python's `open(path, 'rb')` file object is a `FileH` structure holding
  the byte list and the current position.  `f.read(n)` returns the next
  `min n (length - pos)` bytes and advances the position by the number of
  bytes actually returned (it silently returns a short span at EOF, and
  never raises).  `f.seek(p)` may move beyond EOF; `f.write` at a position
  past EOF zero-fills the gap, exactly as POSIX files do.
* Fallible Python code is modelled in `Except Err`.  The `Err`
  constructors record which Python exception the source raises:
  `typeError` is the bare `TypeError` of the decoder/encoder (the spec's
  `UnsupportedType`), `overflow` is the `OverflowError` of `int.to_bytes`
  (the spec's `EncodingError`), `decodeError` is `UnicodeDecodeError`,
  `valueError` is the `ValueError` of `int(...)`, `indexError` is
  `IndexError`, and `dbError` stands for an error raised by the sqlite3
  store.
* The sqlite3 store is the spec's external "Store Adapter" (§6).  It is
  modelled at the interface level: a table is its ordered column list
  plus its ordered rows; `CREATE TABLE IF NOT EXISTS` is a no-op when the
  table exists and otherwise fails when the column list (together with
  the implicit `id` column) has duplicates; `INSERT` appends whole rows
  in the given column order (the core only ever inserts with exactly the
  table's column list); `SELECT c1,...,ck` resolves each requested column
  name to its position in the table's column list and projects each row
  accordingly.  sqlite quirks not exercised by the core (case-insensitive
  table names, SQL keywords in unquoted column names) are not modelled.
* The text codec is the default `utf-8` of the source; a decoded Python
  string is represented by its UTF-8 code units (`List Nat`), which is
  faithful because UTF-8 decoding is a bijection between valid byte
  spans and strings.  `utf8Valid` is the strict UTF-8 validity check
  that `bytes.decode('utf-8')` performs.
* `int(s)` / `int(s, 0)` are modelled for plain decimal and `0x`
  hexadecimal literals (the forms the layout grammar uses); the signs,
  underscores and `0o`/`0b` forms accepted by Python are not modelled.
-/

namespace BinaryParser

/-- Errors of the embedded operations; each constructor names the Python
exception the source raises at the corresponding place. -/
inductive Err
  | invalidLayout (msg : String) (lineno : Nat)
  | typeError
  | overflow
  | decodeError
  | valueError
  | dbError
  | indexError
deriving DecidableEq

/-- Decidable equality of results, used to evaluate the embedding on
concrete inputs. -/
instance {ε α : Type} [DecidableEq ε] [DecidableEq α] : DecidableEq (Except ε α) := fun x y =>
  match x, y with
  | .error a, .error b =>
    if h : a = b then .isTrue (h ▸ rfl) else .isFalse (fun hc => h (Except.error.inj hc))
  | .error _, .ok _ => .isFalse (fun hc => Except.noConfusion hc)
  | .ok _, .error _ => .isFalse (fun hc => Except.noConfusion hc)
  | .ok a, .ok b =>
    if h : a = b then .isTrue (h ▸ rfl) else .isFalse (fun hc => h (Except.ok.inj hc))

/-- Byte order of the codec: the `byteorder` constructor argument of
`BinaryParser.__init__` (`'little'` by default, `'big'` the only other
value `int.from_bytes` accepts). -/
inductive ByteOrder
  | little
  | big
deriving DecidableEq

/-- Values produced by the reader and consumed by the writer: Python
`int` (always non-negative here, `int.from_bytes` is unsigned) and
Python `str` represented by its UTF-8 code units. -/
inductive Value
  | vint (n : Nat)
  | vstr (bs : List Nat)
deriving DecidableEq

/-- Little-endian value of a byte list (first byte least significant),
as computed by `int.from_bytes(bytes, 'little')`. -/
def fromBytesLE : List Nat → Nat
  | [] => 0
  | b :: bs => b + 256 * fromBytesLE bs

/-- Value of a byte list under a byte order: `int.from_bytes(bytes, byteorder)`. -/
def intFromBytes (bo : ByteOrder) (bs : List Nat) : Nat :=
  match bo with
  | .little => fromBytesLE bs
  | .big => fromBytesLE bs.reverse

/-- Little-endian byte list of width `l` for the value `v` (low byte first). -/
def natToLE : Nat → Nat → List Nat
  | 0, _ => []
  | l + 1, v => v % 256 :: natToLE l (v / 256)

/-- Encoding of `v` into exactly `l` bytes: `v.to_bytes(l, byteorder)`.
Python raises `OverflowError` when the value does not fit. -/
def intToBytes (bo : ByteOrder) (v l : Nat) : Except Err (List Nat) :=
  if v < 2 ^ (8 * l) then
    .ok (match bo with
      | .little => natToLE l v
      | .big => (natToLE l v).reverse)
  else
    .error .overflow

/-- Continuation byte of UTF-8 (`0x80 ≤ b ≤ 0xBF`). -/
def isCont (b : Nat) : Bool :=
  decide (0x80 ≤ b) && decide (b ≤ 0xBF)

/-- Strict UTF-8 validity of a byte list, the check performed by
`bytes.decode('utf-8')`: rejects overlong forms, surrogates and
code points beyond `U+10FFFF`. -/
def utf8Valid : List Nat → Bool
  | [] => true
  | c :: r =>
    if c ≤ 0x7F then utf8Valid r
    else if 0xC2 ≤ c ∧ c ≤ 0xDF then
      match r with
      | c1 :: r1 => isCont c1 && utf8Valid r1
      | [] => false
    else if c = 0xE0 then
      match r with
      | c1 :: c2 :: r2 =>
        (decide (0xA0 ≤ c1) && decide (c1 ≤ 0xBF)) && (isCont c2 && utf8Valid r2)
      | _ => false
    else if (0xE1 ≤ c ∧ c ≤ 0xEC) ∨ c = 0xEE ∨ c = 0xEF then
      match r with
      | c1 :: c2 :: r2 => isCont c1 && (isCont c2 && utf8Valid r2)
      | _ => false
    else if c = 0xED then
      match r with
      | c1 :: c2 :: r2 =>
        (decide (0x80 ≤ c1) && decide (c1 ≤ 0x9F)) && (isCont c2 && utf8Valid r2)
      | _ => false
    else if c = 0xF0 then
      match r with
      | c1 :: c2 :: c3 :: r3 =>
        (decide (0x90 ≤ c1) && decide (c1 ≤ 0xBF)) &&
          (isCont c2 && (isCont c3 && utf8Valid r3))
      | _ => false
    else if 0xF1 ≤ c ∧ c ≤ 0xF3 then
      match r with
      | c1 :: c2 :: c3 :: r3 => isCont c1 && (isCont c2 && (isCont c3 && utf8Valid r3))
      | _ => false
    else if c = 0xF4 then
      match r with
      | c1 :: c2 :: c3 :: r3 =>
        (decide (0x80 ≤ c1) && decide (c1 ≤ 0x8F)) &&
          (isCont c2 && (isCont c3 && utf8Valid r3))
      | _ => false
    else false

/-- Decoding of a byte span into a string (`bytes.decode('utf-8')`):
fails with `UnicodeDecodeError` on invalid UTF-8, otherwise the decoded
string is represented by the byte span itself (UTF-8 decode/encode is a
bijection on valid spans). -/
def decodeText (bs : List Nat) : Except Err (List Nat) :=
  if utf8Valid bs then .ok bs else .error .decodeError

/-- Encoding of a string for a `str` field of declared length `len`
(`write_back` lines 190–195): encode, compute `padding_len = length -
len(byteobj)` and append that many zero bytes.  In Python a negative
`padding_len` makes `b'\x00' * padding_len` empty, so an over-long
string is emitted unchecked — `Nat` subtraction models this exactly. -/
def encodeText (s : List Nat) (len : Nat) : List Nat :=
  s ++ List.replicate (len - s.length) 0

/-- Field of a section exactly as `parse_layout` stores it: the tuple
`(columnname, datatype, datalen)`; padding is stored as the tuple
`('padding', 'int', datalen)`. -/
abbrev Field := String × String × Nat

/-- Section of a table: `{'offset': baseoffset, 'data': section}`. -/
structure Section where
  offset : Nat
  data : List Field
deriving DecidableEq

/-- Table layout: `{'sections': [...], 'count': counts}`. -/
structure TableLayout where
  count : Nat
  sections : List Section
deriving DecidableEq

/-- The `self.data` dictionary of the parser: table name to table
layout, in insertion order (Python dicts preserve insertion order).
Distinctness of the names is inherent to a dict and is stated as a
hypothesis where needed. -/
abbrev Layout := List (String × TableLayout)

/-- Open binary file: the byte list plus the current position. -/
structure FileH where
  bytes : List Nat
  pos : Nat
deriving DecidableEq

/-- Bytes of a file after writing `buf` at position `p`: the prefix up
to `p` (zero-filled if the file was shorter than `p`), then `buf`, then
the old suffix beyond the written range. -/
def writeAt (bytes : List Nat) (p : Nat) (buf : List Nat) : List Nat :=
  bytes.take p ++ List.replicate (p - bytes.length) 0 ++ buf ++ bytes.drop (p + buf.length)

/-- Python `f.read(n)`: returns the next at-most-`n` bytes and advances
the position by the number of bytes actually returned (short or empty at
EOF, never an error). -/
def fread (h : FileH) (n : Nat) : List Nat × FileH :=
  let r := (h.bytes.drop h.pos).take n
  (r, ⟨h.bytes, h.pos + r.length⟩)

/-- Python `f.seek(p)` (absolute; may move beyond EOF). -/
def fseek (h : FileH) (p : Nat) : FileH :=
  ⟨h.bytes, p⟩

/-- Python `f.write(buf)` on a file opened `'rb+'`. -/
def fwrite (h : FileH) (buf : List Nat) : FileH :=
  ⟨writeAt h.bytes h.pos buf, h.pos + buf.length⟩

/-- Store Adapter (§6): a table is its ordered column list (without the
implicit `id` primary key) and its ordered rows. -/
structure DTable where
  cols : List String
  rows : List (List Value)
deriving DecidableEq

/-- Store Adapter state: tables by name, in creation order. -/
abbrev DB := List (String × DTable)

/-- Lookup of a table by name. -/
def dbLookup (db : DB) (name : String) : Option DTable :=
  match db with
  | [] => none
  | (n, t) :: rest => if n = name then some t else dbLookup rest name

/-- Effect of executing `create_query` (CREATE TABLE IF NOT EXISTS with
an `id INTEGER PRIMARY KEY AUTOINCREMENT` column followed by the given
columns): a no-op when the table exists; otherwise sqlite rejects an
empty column list (the query would end `...AUTOINCREMENT,);`) and
duplicate column names, and else creates the empty table. -/
def createTable (db : DB) (name : String) (cols : List String) : Except Err DB :=
  match dbLookup db name with
  | some _ => .ok db
  | none =>
    if cols = [] then .error .dbError
    else if ("id" :: cols).Nodup then .ok (db ++ [(name, ⟨cols, []⟩)])
    else .error .dbError

/-- Effect of `conn.executemany(insert_query ..., rows)`: appends the
rows to the table.  The core always passes exactly the table's column
list (built from the same flattened field list as the CREATE), which is
the only case modelled; any other call is treated as a store error. -/
def insertRows (db : DB) (name : String) (cols : List String) (rows : List (List Value)) :
    Except Err DB :=
  match db with
  | [] => .error .dbError
  | (n, t) :: rest =>
    if n = name then
      if cols = t.cols then .ok ((n, ⟨t.cols, t.rows ++ rows⟩) :: rest)
      else .error .dbError
    else
      match insertRows rest name cols rows with
      | .ok rest1 => .ok ((n, t) :: rest1)
      | .error e => .error e

/-- Effect of executing `select_query` and `fetchall`: resolve each
requested column name to its position in the table's column list and
project every row through those positions, in the requested order. -/
def selectRows (db : DB) (name : String) (cols : List String) :
    Except Err (List (List Value)) :=
  match dbLookup db name with
  | none => .error .dbError
  | some t =>
    match cols.mapM (fun c => t.cols.findIdx? (· = c)) with
    | none => .error .dbError
    | some idxs => .ok (t.rows.map (fun r => idxs.map (fun i => r.getD i (.vint 0))))

/-- Decoding of one field's byte span (`parse_file` lines 146–151):
`int` → `int.from_bytes`, `str` → `bytes.decode`, anything else raises
the bare `TypeError` (the spec's `UnsupportedType`). -/
def decodeField (bo : ByteOrder) (ty : String) (bs : List Nat) : Except Err Value :=
  if ty = "int" then .ok (.vint (intFromBytes bo bs))
  else if ty = "str" then
    match decodeText bs with
    | .ok s => .ok (.vstr s)
    | .error e => .error e
  else .error .typeError

/-- Inner loop of `parse_file` over one record's fields (lines 140–152):
padding is read and discarded, every other field is read, decoded and
appended to the row. -/
def readFields (bo : ByteOrder) : List Field → FileH → List Value →
    Except Err (List Value × FileH)
  | [], h, row => .ok (row, h)
  | (name, ty, len) :: fs, h, row =>
    let r := fread h len
    if name = "padding" then readFields bo fs r.2 row
    else
      match decodeField bo ty r.1 with
      | .error e => .error e
      | .ok v => readFields bo fs r.2 (row ++ [v])

/-- Loop of `parse_file` over the record slots of one section (line
139): each row of `tabledata` in order reads the section's fields
sequentially from the stream. -/
def readSectionRows (bo : ByteOrder) : List (List Value) → List Field → FileH →
    Except Err (List (List Value) × FileH)
  | [], _, h => .ok ([], h)
  | row :: rest, fs, h =>
    match readFields bo fs h row with
    | .error e => .error e
    | .ok (row1, h1) =>
      match readSectionRows bo rest fs h1 with
      | .error e => .error e
      | .ok (rest1, h2) => .ok (row1 :: rest1, h2)

/-- Loop of `parse_file` over the sections of one table (lines
136–152): seek to `offset + file_offset`, then fill every record slot. -/
def readSections (bo : ByteOrder) (off : Nat) : List Section → List (List Value) → FileH →
    Except Err (List (List Value) × FileH)
  | [], rows, h => .ok (rows, h)
  | s :: ss, rows, h =>
    match readSectionRows bo rows s.data (fseek h (s.offset + off)) with
    | .error e => .error e
    | .ok (rows1, h1) => readSections bo off ss rows1 h1

/-- The flattened non-padding field list of a table (`parse_file` lines
121–127): every section's fields in declared order, padding removed. -/
def tableColumns (t : TableLayout) : List Field :=
  ((t.sections.map Section.data).flatten).filter (fun c => c.1 ≠ "padding")

/-- Column names of the flattened field list: `list(zip(*columns))[0]`
raises `IndexError` when `columns` is empty. -/
def tableColumnNames (cols : List Field) : Except Err (List String) :=
  if cols = [] then .error .indexError else .ok (cols.map (fun c => c.1))

/-- Body of `parse_file` for one table (lines 121–155): build the
flattened column list, execute the CREATE, project the column names,
allocate `count` empty rows, read every section, then INSERT the rows. -/
def parseTable (bo : ByteOrder) (off : Nat) (name : String) (t : TableLayout)
    (h : FileH) (db : DB) : Except Err (FileH × DB) :=
  let columns := tableColumns t
  match createTable db name (columns.map (fun c => c.1)) with
  | .error e => .error e
  | .ok db1 =>
    match tableColumnNames columns with
    | .error e => .error e
    | .ok colnames =>
      match readSections bo off t.sections (List.replicate t.count []) h with
      | .error e => .error e
      | .ok (rows, h1) =>
        match insertRows db1 name colnames rows with
        | .error e => .error e
        | .ok db2 => .ok (h1, db2)

/-- Loop of `parse_file` over `self.data.items()`. -/
def parseFileLoop (bo : ByteOrder) (off : Nat) : Layout → FileH → DB → Except Err DB
  | [], _, db => .ok db
  | (name, t) :: rest, h, db =>
    match parseTable bo off name t h db with
    | .error e => .error e
    | .ok (h1, db1) => parseFileLoop bo off rest h1 db1

/-- `parse_file(binary_path, db_path)`: the file is opened at position
0 and every table of the layout is read into the store. -/
def parseFile (bo : ByteOrder) (off : Nat) (L : Layout) (file : List Nat) (db : DB) :
    Except Err DB :=
  parseFileLoop bo off L ⟨file, 0⟩ db

/-- Column names of one section as `select_query` builds them (lines
161–166): `list(zip(*section['data']))[0]` filtered of `'padding'`;
the `zip` raises `IndexError` on an empty section. -/
def selectColumnNamesCore (s : Section) : List String :=
  (s.data.map (fun c => c.1)).filter (fun c => c ≠ "padding")

/-- Column names of one section, with the `IndexError` of
`list(zip(*[]))[0]` on an empty section. -/
def selectColumnNames (s : Section) : Except Err (List String) :=
  if s.data = [] then .error .indexError else .ok (selectColumnNamesCore s)

/-- Encoding of one field's value (`write_back` lines 190–200): `str` →
encode and zero-pad (unchecked when over-long), `int` → `to_bytes`
(raises `OverflowError` when too wide), anything else raises
`TypeError`.  A value of the wrong Python type for the declared field
type raises in Python as well (`bytearray(int, encoding=...)` /
`str.to_bytes` do not exist); both are mapped to `typeError`. -/
def encodeField (bo : ByteOrder) (ty : String) (v : Value) (len : Nat) :
    Except Err (List Nat) :=
  if ty = "str" then
    match v with
    | .vstr s => .ok (encodeText s len)
    | .vint _ => .error .typeError
  else if ty = "int" then
    match v with
    | .vint n => intToBytes bo n len
    | .vstr _ => .error .typeError
  else .error .typeError

/-- Inner loop of `write_back` over one record's fields (lines
183–203): padding contributes `length` zero bytes, every other field
consumes `entry[idx]` (the per-row cursor `idx` advances only on
non-padding fields) and contributes its encoding. -/
def encodeRowFields (bo : ByteOrder) : List Field → List Value → Nat →
    Except Err (List Nat)
  | [], _, _ => .ok []
  | (name, ty, len) :: fs, entry, idx =>
    if name = "padding" then
      match encodeRowFields bo fs entry idx with
      | .error e => .error e
      | .ok rest => .ok (List.replicate len 0 ++ rest)
    else
      match entry.get? idx with
      | none => .error .indexError
      | some v =>
        match encodeField bo ty v len with
        | .error e => .error e
        | .ok bs =>
          match encodeRowFields bo fs entry (idx + 1) with
          | .error e => .error e
          | .ok rest => .ok (bs ++ rest)

/-- Loop of `write_back` over the fetched rows of one section (line
182): the per-row buffers are concatenated into one `bytearray`. -/
def encodeSection (bo : ByteOrder) (fields : List Field) : List (List Value) →
    Except Err (List Nat)
  | [] => .ok []
  | entry :: rest =>
    match encodeRowFields bo fields entry 0 with
    | .error e => .error e
    | .ok bs =>
      match encodeSection bo fields rest with
      | .error e => .error e
      | .ok rest1 => .ok (bs ++ rest1)

/-- Body of `write_back` for one section (lines 177–206): SELECT the
section's columns, encode all rows into one buffer, seek to
`offset + file_offset` and write the buffer. -/
def writeSection (bo : ByteOrder) (off : Nat) (name : String) (s : Section)
    (db : DB) (h : FileH) : Except Err FileH :=
  match selectColumnNames s with
  | .error e => .error e
  | .ok cols =>
    match selectRows db name cols with
    | .error e => .error e
    | .ok data =>
      match encodeSection bo s.data data with
      | .error e => .error e
      | .ok buf => .ok (fwrite (fseek h (s.offset + off)) buf)

/-- Loop of `write_back` over the sections of one table. -/
def writeTable (bo : ByteOrder) (off : Nat) (name : String) :
    List Section → DB → FileH → Except Err FileH
  | [], _, h => .ok h
  | s :: ss, db, h =>
    match writeSection bo off name s db h with
    | .error e => .error e
    | .ok h1 => writeTable bo off name ss db h1

/-- Loop of `write_back` over `self.data.items()`. -/
def writeBackLoop (bo : ByteOrder) (off : Nat) : Layout → DB → FileH → Except Err FileH
  | [], _, h => .ok h
  | (name, t) :: rest, db, h =>
    match writeTable bo off name t.sections db h with
    | .error e => .error e
    | .ok h1 => writeBackLoop bo off rest db h1

/-- `write_back(binary_path, db_path)`: the file is opened `'rb+'` and
every section of every table is overwritten from the store. -/
def writeBack (bo : ByteOrder) (off : Nat) (L : Layout) (db : DB) (file : List Nat) :
    Except Err (List Nat) :=
  match writeBackLoop bo off L db ⟨file, 0⟩ with
  | .error e => .error e
  | .ok h => .ok h.bytes

/-! ### The layout grammar parser (`parse_layout`)

The layout stream is modelled as the list of its lines (each without its
trailing newline); `readline` pops the next line and returns the empty
line forever once the stream is exhausted, exactly like Python's
`file.readline` at EOF.  Both loops of `parse_layout` run on fuel: a
`none` result means the fuel ran out, which is how the non-termination
of the source loops is made observable. -/

/-- Characters of one line. -/
abbrev Chars := List Char

/-- Whitespace characters stripped by Python's `str.strip()` (the ASCII
ones; `Char.ofNat 11` and `Char.ofNat 12` are `\v` and `\f`). -/
def isPySpace (c : Char) : Bool :=
  c = ' ' || c = '\t' || c = '\n' || c = '\r' || c = Char.ofNat 11 || c = Char.ofNat 12

/-- Python `line.strip()`. -/
def stripChars (s : Chars) : Chars :=
  ((s.dropWhile isPySpace).reverse.dropWhile isPySpace).reverse

/-- Python `line.split(' ')`: split at every single space, keeping
empty parts (`''.split(' ') == ['']`). -/
def splitSp : Chars → List Chars
  | [] => [[]]
  | c :: r =>
    match splitSp r with
    | [] => [[]]
    | g :: gs => if c = ' ' then [] :: g :: gs else (c :: g) :: gs

/-- Python `readline` on a line list: returns the empty string forever
once the stream is exhausted. -/
def readline : List Chars → Chars × List Chars
  | [] => ([], [])
  | l :: ls => (l, ls)

/-- Python `line.startswith(pat)` on character lists. -/
def startsWithChars : Chars → Chars → Bool
  | [], _ => true
  | _ :: _, [] => false
  | p :: ps, c :: cs => p = c && startsWithChars ps cs

/-- Decimal digit value. -/
def digitVal (c : Char) : Option Nat :=
  if '0' ≤ c ∧ c ≤ '9' then some (c.toNat - '0'.toNat) else none

/-- Hexadecimal digit value. -/
def hexDigitVal (c : Char) : Option Nat :=
  if '0' ≤ c ∧ c ≤ '9' then some (c.toNat - '0'.toNat)
  else if 'a' ≤ c ∧ c ≤ 'f' then some (c.toNat - 'a'.toNat + 10)
  else if 'A' ≤ c ∧ c ≤ 'F' then some (c.toNat - 'A'.toNat + 10)
  else none

/-- Digit-sequence accumulator for a given digit reader and base. -/
def parseDigits (dv : Char → Option Nat) (base : Nat) : Chars → Nat → Option Nat
  | [], acc => some acc
  | c :: r, acc =>
    match dv c with
    | some d => parseDigits dv base r (base * acc + d)
    | none => none

/-- Python `int(s)` for the forms the grammar uses (plain decimal);
`none` models the `ValueError` on anything else. -/
def pyIntDec (s : Chars) : Option Nat :=
  if s = [] then none else parseDigits digitVal 10 s 0

/-- Python `int(s, 0)` for the forms the grammar uses: `0x`/`0X`
hexadecimal or plain decimal. -/
def pyIntBase0 (s : Chars) : Option Nat :=
  match s with
  | c0 :: x :: r =>
    if c0 = '0' ∧ (x = 'x' ∨ x = 'X') then
      if r = [] then none else parseDigits hexDigitVal 16 r 0
    else pyIntDec (c0 :: x :: r)
  | _ => pyIntDec s

/-- Lookup in the `self.data` dict. -/
def layoutFind (data : Layout) (tn : String) : Option TableLayout :=
  match data with
  | [] => none
  | (n, t) :: rest => if n = tn then some t else layoutFind rest tn

/-- `self.data[tablename]['sections'].append(...)`. -/
def layoutAppendSection (data : Layout) (tn : String) (s : Section) : Layout :=
  data.map (fun nt =>
    if nt.1 = tn then (nt.1, ⟨nt.2.count, nt.2.sections ++ [s]⟩) else nt)

/-- Inner `while line != 'end'` loop of `parse_layout` (lines 62–91).
`line` is the current (already stripped) line and `lineno` its 1-based
number.  Returns the parsed field list, the accumulated `subtotal`, the
remaining stream and the line number of the `end` line; `none` means
the fuel ran out. -/
def parseFields : Nat → Chars → List Chars → Nat → Nat → List Field →
    Option (Except Err (List Field × Nat × List Chars × Nat))
  | 0, _, _, _, _, _ => none
  | fuel + 1, line, stream, lineno, subtotal, acc =>
    if line = "end".toList then some (.ok (acc, subtotal, stream, lineno))
    else if startsWithChars "padding".toList line then
      match splitSp line with
      | [_, lenS] =>
        match pyIntDec lenS with
        | none => some (.error .valueError)
        | some dl =>
          let r := readline stream
          parseFields fuel (stripChars r.1) r.2 (lineno + 1) (subtotal + dl)
            (acc ++ [("padding", "int", dl)])
      | _ => some (.error (.invalidLayout "padding must have one argument" lineno))
    else
      match splitSp line with
      | [nameS, tyS, lenS] =>
        match pyIntDec lenS with
        | none => some (.error .valueError)
        | some dl =>
          let r := readline stream
          parseFields fuel (stripChars r.1) r.2 (lineno + 1) (subtotal + dl)
            (acc ++ [(String.mk nameS, String.mk tyS, dl)])
      | _ => some (.error (.invalidLayout "column must have three arguments" lineno))

/-- Outer `while line != 'endfile'` loop of `parse_layout` (lines
32–100).  On a `begin` line the header is read (its number is
`lineno + 1`, the `section_lineno` of the source), the table is
initialised or checked for a consistent count, the block body is parsed
by `parseFields`, and the subtotal is checked against the declared
total with `section_lineno` as the reported line. -/
def parseOuter : Nat → Chars → List Chars → Nat → Layout → Option (Except Err Layout)
  | 0, _, _, _, _ => none
  | fuel + 1, line, stream, lineno, data =>
    if line = "endfile".toList then some (.ok data)
    else if startsWithChars "begin".toList line then
      let r1 := readline stream
      let header := stripChars r1.1
      let s1 := r1.2
      let hlineno := lineno + 1
      match splitSp header with
      | [tnS, offS, totS, cntS] =>
        match pyIntBase0 offS, pyIntDec totS, pyIntDec cntS with
        | some off, some tot, some cnt =>
          let tn := String.mk tnS
          let data1 :=
            if (layoutFind data tn).isSome then data else data ++ [(tn, ⟨cnt, []⟩)]
          if cnt ≠ ((layoutFind data1 tn).getD ⟨cnt, []⟩).count then
            some (.error (.invalidLayout
              ("Counts for table " ++ tn ++ " must be equal for all sections of table "
                ++ tn ++ ".") hlineno))
          else
            let r2 := readline s1
            match parseFields fuel (stripChars r2.1) r2.2 (hlineno + 1) 0 [] with
            | none => none
            | some (.error e) => some (.error e)
            | some (.ok (secFields, subtotal, s3, endLineno)) =>
              if subtotal ≠ tot then
                some (.error (.invalidLayout
                  ("lengths of section " ++ tn ++ " do not add up to " ++ toString tot)
                  hlineno))
              else
                let data2 := layoutAppendSection data1 tn ⟨off, secFields⟩
                let r3 := readline s3
                parseOuter fuel (stripChars r3.1) r3.2 (endLineno + 1) data2
        | _, _, _ => some (.error .valueError)
      | _ => some (.error (.invalidLayout "table must have four arguments" hlineno))
    else
      let r := readline stream
      parseOuter fuel (stripChars r.1) r.2 (lineno + 1) data

/-- `parse_layout()`: the loop starts with `line = ''` and `lineno = 0`
on the full stream and the empty `self.data`. -/
def parseLayout (fuel : Nat) (input : List Chars) : Option (Except Err Layout) :=
  parseOuter fuel [] input 0 []

/-! ### Rendered layout inputs

To quantify over families of concrete layout texts, a section body line
is either a field declaration or a padding declaration, rendered as the
grammar's single-space-separated line.  The hygiene side conditions
(`cleanTok`, no `padding` name prefix, numeric tokens) say exactly that
the rendered text means what the abstract line says. -/

/-- Abstract line of a section body, remembering the numeric value of
its length token.  A `pad` line carries its first token, which only
needs to START with `padding` (the source tests `line.startswith`); the
token itself is discarded by the unpacking `_, datalen = line.split`. -/
inductive BodyLine
  | field (nameS tyS lenS : Chars) (len : Nat)
  | pad (nameS lenS : Chars) (len : Nat)
deriving DecidableEq

/-- Rendered text of a body line. -/
def renderBody : BodyLine → Chars
  | .field n t l _ => n ++ (' ' :: (t ++ (' ' :: l)))
  | .pad n l _ => n ++ (' ' :: l)

/-- Token without whitespace characters (hence in particular without
the separator space) and nonempty. -/
abbrev cleanTok (s : Chars) : Prop :=
  s ≠ [] ∧ ∀ c ∈ s, isPySpace c = false

/-- Hygiene of a body line: tokens clean, the field name not starting
with `padding`, and the length token the decimal rendering of the
remembered value. -/
def bodyLineOk : BodyLine → Prop
  | .field n t l v =>
    cleanTok n ∧ cleanTok t ∧ startsWithChars "padding".toList n = false ∧ pyIntDec l = some v
  | .pad n l v =>
    cleanTok n ∧ startsWithChars "padding".toList n = true ∧ pyIntDec l = some v

instance : DecidablePred bodyLineOk := fun b => by
  cases b <;> (unfold bodyLineOk; infer_instance)

/-- Field tuple that `parse_layout` stores for a body line. -/
def bodyField : BodyLine → Field
  | .field n t _ v => (String.mk n, String.mk t, v)
  | .pad _ _ v => ("padding", "int", v)

/-- Byte length contributed by a body line to the section subtotal. -/
def bodyLen : BodyLine → Nat
  | .field _ _ _ v => v
  | .pad _ _ v => v

/-- Rendered header line of a `begin` block. -/
def renderHeader (tnS offS totS cntS : Chars) : Chars :=
  tnS ++ (' ' :: (offS ++ (' ' :: (totS ++ (' ' :: cntS)))))

/-- Rendered lines of one full `begin`/`end` block. -/
def renderBlock (tnS offS totS cntS : Chars) (body : List BodyLine) : List Chars :=
  "begin".toList :: renderHeader tnS offS totS cntS :: body.map renderBody
    ++ ["end".toList]

/-! ### Positional view of a layout over a file

These definitions are the proof vehicle for the round-trip claim: the
byte at a file position, the relative position of padding inside a
record, the absolute byte ranges of all section occurrences, and a
positional (seek-free) restatement of the reader's decoding loops. -/

/-- Byte of a file at a position, 0 beyond EOF (reads past EOF return
nothing and writes past EOF zero-fill, so 0 is the consistent value). -/
def byteAt (F : List Nat) (j : Nat) : Nat :=
  F.getD j 0

/-- Byte width of one record of a section: the sum of its field lengths. -/
def sectionWidth (fields : List Field) : Nat :=
  (fields.map (fun f => f.2.2)).sum

/-- Whether relative position `q` inside one record falls in a padding
field. -/
def relPadding : List Field → Nat → Bool
  | [], _ => false
  | (name, _, len) :: fs, q =>
    if q < len then decide (name = "padding") else relPadding fs (q - len)

/-- All section occurrences of a layout: absolute start (with the
`file_offset` bias), record count and field list, for every section of
every table in declared order. -/
def occList (L : Layout) (o : Nat) : List (Nat × Nat × List Field) :=
  L.flatMap (fun nt => nt.2.sections.map (fun s => (s.offset + o, nt.2.count, s.data)))

/-- Total byte length of a section occurrence (`count` records). -/
def occLen (e : Nat × Nat × List Field) : Nat :=
  e.2.1 * sectionWidth e.2.2

/-- Position `j` of the file lies in a padding field of some section
occurrence of the layout. -/
def paddingPos (L : Layout) (o : Nat) (j : Nat) : Prop :=
  ∃ e ∈ occList L o, e.1 ≤ j ∧ j < e.1 + occLen e ∧
    relPadding e.2.2 ((j - e.1) % sectionWidth e.2.2) = true

/-- Disjointness of two byte ranges given as (start, length). -/
def rangesDisjoint (a b : Nat × Nat) : Prop :=
  a.1 + a.2 ≤ b.1 ∨ b.1 + b.2 ≤ a.1

/-- Pairwise disjointness of the byte ranges of all section
occurrences of a layout. -/
def layoutDisjoint (L : Layout) (o : Nat) : Prop :=
  ((occList L o).map (fun e => (e.1, occLen e))).Pairwise rangesDisjoint

instance (a b : Nat × Nat) : Decidable (rangesDisjoint a b) := by
  unfold rangesDisjoint
  infer_instance

instance (L : Layout) (o : Nat) : Decidable (layoutDisjoint L o) := by
  unfold layoutDisjoint
  infer_instance

instance (L : Layout) (o j : Nat) : Decidable (paddingPos L o j) := by
  unfold paddingPos
  infer_instance

/-- Relation between the actual stream position and the ideal position
of a sequence of sequential reads: they agree, or both are at/past EOF
(a short read pins the actual position at EOF while the ideal position
keeps advancing). -/
def posEquiv (bytes : List Nat) (a i : Nat) : Prop :=
  a = i ∨ (bytes.length ≤ a ∧ bytes.length ≤ i)

/-- Positional restatement of `readFields`: the values of one record
of a section, each field decoded from the span at its ideal position. -/
def rowVals (bo : ByteOrder) (G : List Nat) : List Field → Nat → Except Err (List Value)
  | [], _ => .ok []
  | (name, ty, len) :: fs, pos =>
    if name = "padding" then rowVals bo G fs (pos + len)
    else
      match decodeField bo ty ((G.drop pos).take len) with
      | .error e => .error e
      | .ok v =>
        match rowVals bo G fs (pos + len) with
        | .error e => .error e
        | .ok vs => .ok (v :: vs)

/-- Positional restatement of `readSectionRows`: record `k` of the
section starts `k` record-widths after the section start. -/
def sectionVals (bo : ByteOrder) (G : List Nat) (fields : List Field) :
    List (List Value) → Nat → Except Err (List (List Value))
  | [], _ => .ok []
  | row :: rest, pos =>
    match rowVals bo G fields pos with
    | .error e => .error e
    | .ok vs =>
      match sectionVals bo G fields rest (pos + sectionWidth fields) with
      | .error e => .error e
      | .ok rs => .ok ((row ++ vs) :: rs)

/-- Positional restatement of `readSections`. -/
def tableVals (bo : ByteOrder) (G : List Nat) (o : Nat) :
    List Section → List (List Value) → Except Err (List (List Value))
  | [], rows => .ok rows
  | s :: ss, rows =>
    match sectionVals bo G s.data rows (s.offset + o) with
    | .error e => .error e
    | .ok rows1 => tableVals bo G o ss rows1

/-- Values of one record under success (empty list on failure; only
used where success is known). -/
def rowValsD (bo : ByteOrder) (G : List Nat) (fs : List Field) (pos : Nat) :
    List Value :=
  match rowVals bo G fs pos with
  | .ok vs => vs
  | .error _ => []

/-- Absolute start of record `j` of a section. -/
def recordStart (s : Section) (o j : Nat) : Nat :=
  s.offset + o + j * sectionWidth s.data

/-- Canonical rows of one table: record `j` is the concatenation, over
the sections in declared order, of the decoded non-padding values of
record `j`. -/
def tableRowsC (bo : ByteOrder) (G : List Nat) (o : Nat) (t : TableLayout) :
    List (List Value) :=
  (List.range t.count).map (fun j =>
    (t.sections.map (fun s => rowValsD bo G s.data (recordStart s o j))).flatten)

/-- The reads of one table, exactly as `parse_file` performs them. -/
def tableRowsE (bo : ByteOrder) (G : List Nat) (off : Nat) (t : TableLayout) :
    Except Err (List (List Value)) :=
  tableVals bo G off t.sections (List.replicate t.count [])

/-- Side conditions the store operations of one table need: a nonempty
column list without duplicates (and no clash with the implicit `id`). -/
def tableColsOk (t : TableLayout) : Prop :=
  tableColumns t ≠ [] ∧ ("id" :: (tableColumns t).map (fun c => c.1)).Nodup

/-- Canonical store contents after a successful read pass. -/
def dbC (bo : ByteOrder) (G : List Nat) (o : Nat) (L : Layout) : DB :=
  L.map (fun nt =>
    (nt.1, ⟨(tableColumns nt.2).map (fun c => c.1), tableRowsC bo G o nt.2⟩))

/-- Pure (seek-free) restatement of the body of `parse_file` for one
table. -/
def parseTablePure (bo : ByteOrder) (off : Nat) (name : String) (t : TableLayout)
    (G : List Nat) (db : DB) : Except Err DB :=
  let columns := tableColumns t
  match createTable db name (columns.map (fun c => c.1)) with
  | .error e => .error e
  | .ok db1 =>
    match tableColumnNames columns with
    | .error e => .error e
    | .ok colnames =>
      match tableRowsE bo G off t with
      | .error e => .error e
      | .ok rows => insertRows db1 name colnames rows

/-- Pure restatement of `parse_file`. -/
def parseFilePure (bo : ByteOrder) (off : Nat) : Layout → List Nat → DB → Except Err DB
  | [], _, db => .ok db
  | (name, t) :: rest, G, db =>
    match parseTablePure bo off name t G db with
    | .error e => .error e
    | .ok db1 => parseFilePure bo off rest G db1

/-- The positional canonical buffer of one section occurrence over a
file `G`: position `x` of the buffer holds 0 on padding positions and
the byte of `G` under it otherwise. -/
def posBuf (G : List Nat) (fs : List Field) (p n : Nat) : List Nat :=
  (List.range (n * sectionWidth fs)).map (fun x =>
    if relPadding fs (x % sectionWidth fs) then 0 else byteAt G (p + x))

/-- Buffers of the write pass for the sections of one table, in order:
the (position, bytes) pairs `write_back` seeks to and writes. -/
def writeTableBufs (bo : ByteOrder) (off : Nat) (name : String) (db : DB) :
    List Section → Except Err (List (Nat × List Nat))
  | [] => .ok []
  | s :: ss =>
    match selectColumnNames s with
    | .error e => .error e
    | .ok cols =>
      match selectRows db name cols with
      | .error e => .error e
      | .ok data =>
        match encodeSection bo s.data data with
        | .error e => .error e
        | .ok buf =>
          match writeTableBufs bo off name db ss with
          | .error e => .error e
          | .ok ws => .ok ((s.offset + off, buf) :: ws)

/-- Buffers of the whole write pass, in write order. -/
def writeBufs (bo : ByteOrder) (off : Nat) (db : DB) :
    Layout → Except Err (List (Nat × List Nat))
  | [] => .ok []
  | (name, t) :: rest =>
    match writeTableBufs bo off name db t.sections with
    | .error e => .error e
    | .ok ws1 =>
      match writeBufs bo off db rest with
      | .error e => .error e
      | .ok ws2 => .ok (ws1 ++ ws2)

/-- Sequential application of (position, buffer) writes to a file. -/
def applyWrites (F : List Nat) : List (Nat × List Nat) → List Nat
  | [] => F
  | (p, b) :: ws => applyWrites (writeAt F p b) ws

/-! ### Claim C5: integer width boundary -/

/-- C5.  For every positive field length `L`, encoding `2^(8·L) - 1`
(the largest value representable in `L` bytes) succeeds, and encoding
`2^(8·L)` fails with the `OverflowError` of `int.to_bytes` — the
spec's `EncodingError`. -/
theorem int_width_boundary (bo : ByteOrder) (L : Nat) (hL : 0 < L) :
    (∃ bs, intToBytes bo (2 ^ (8 * L) - 1) L = .ok bs) ∧
      intToBytes bo (2 ^ (8 * L)) L = .error .overflow := by
  constructor
  · unfold intToBytes
    rw [if_pos (Nat.sub_lt (Nat.pos_pow_of_pos _ (by norm_num)) (by norm_num))]
    exact ⟨_, rfl⟩
  · unfold intToBytes
    rw [if_neg (lt_irrefl _)]

/-- Witness for `int_width_boundary` at `L = 2`, little byte order. -/
theorem int_width_boundary_witness :
    0 < 2 ∧
      ((∃ bs, intToBytes .little (2 ^ (8 * 2) - 1) 2 = .ok bs) ∧
        intToBytes .little (2 ^ (8 * 2)) 2 = .error .overflow) :=
  ⟨by decide, int_width_boundary .little 2 (by decide)⟩

/-! ### Claim C4: identical column order on the read and write passes -/

/-- Helper: filtering the padding names commutes with projecting the
field names. -/
theorem filter_padding_map_fst (l : List Field) :
    (l.map (fun c => c.1)).filter (fun c => c ≠ "padding") =
      (l.filter (fun c => c.1 ≠ "padding")).map (fun c => c.1) := by
  induction l with
  | nil => rfl
  | cons f fs ih =>
    by_cases hf : f.1 = "padding" <;> simp_all [List.filter_cons]

/-- Helper: the per-section column-name lists that `select_query`
produces, concatenated in section order, are exactly the flattened
column names that `parse_file` computes. -/
theorem selectColumnNamesCore_flatten (t : TableLayout) :
    (t.sections.map selectColumnNamesCore).flatten = (tableColumns t).map (fun c => c.1) := by
  unfold tableColumns selectColumnNamesCore
  induction t.sections with
  | nil => rfl
  | cons s ss ih =>
    simp only [List.map_cons, List.flatten_cons, List.filter_append, List.map_append, ih]
    congr 1
    exact filter_padding_map_fst s.data

/-- C4.  The column order of the read pass (the flattened non-padding
field names that `parse_file` both CREATEs and INSERTs with) is
deterministic — it is a function of the `Layout` alone — and identical
to the column order the write pass consumes: `write_back` SELECTs, for
the sections in declared order, exactly those names in the same order,
so a value read from a field position is written back to the same
position. -/
theorem column_order_read_eq_write (t : TableLayout) :
    (t.sections.map selectColumnNamesCore).flatten = (tableColumns t).map (fun c => c.1) ∧
      ∀ s ∈ t.sections, s.data ≠ [] → selectColumnNames s = .ok (selectColumnNamesCore s) := by
  refine ⟨selectColumnNamesCore_flatten t, ?_⟩
  intro s _ hs
  simp [selectColumnNames, hs]

/-- Witness for `column_order_read_eq_write` on the spec's §8 layout. -/
theorem column_order_read_eq_write_witness :
    ([⟨16, [("name", "str", 4), ("hp", "int", 4)]⟩].map selectColumnNamesCore).flatten =
        (tableColumns ⟨2, [⟨16, [("name", "str", 4), ("hp", "int", 4)]⟩]⟩).map
          (fun c => c.1) ∧
      selectColumnNames ⟨16, [("name", "str", 4), ("hp", "int", 4)]⟩ =
        .ok (selectColumnNamesCore ⟨16, [("name", "str", 4), ("hp", "int", 4)]⟩) :=
  ⟨(column_order_read_eq_write ⟨2, [⟨16, [("name", "str", 4), ("hp", "int", 4)]⟩]⟩).1,
    (column_order_read_eq_write ⟨2, [⟨16, [("name", "str", 4), ("hp", "int", 4)]⟩]⟩).2
      ⟨16, [("name", "str", 4), ("hp", "int", 4)]⟩ (by decide) (by decide)⟩

/-! ### Claim C3: over-long text values on write -/

/-- C3 (code bug exhibit).  Writing the 3-byte string `"abc"` into a
`str` field of declared length 2 does not fail: `write_back` emits all
3 bytes, shifting the following `int 1` field from offset 2 to offset
3 and growing the 3-byte file to 4 bytes.  The spec mandates a
`FieldTooLong` failure here and itself flags the source behaviour as
unchecked (§9). -/
theorem str_overflow_emits_excess :
    writeBack .little 0 [("t", ⟨1, [⟨0, [("s", "str", 2), ("y", "int", 1)]⟩]⟩)]
        [("t", ⟨["s", "y"], [[.vstr [97, 98, 99], .vint 5]]⟩)] [0, 0, 0] =
      .ok [97, 98, 99, 5] := by
  rfl

/-! ### Claim C2: stream truncation on read -/

/-- C2 (counterexample).  A 4-byte `int` field read from a 1-byte file
does not raise an I/O failure: Python's `f.read(4)` silently returns
the single available byte and `parse_file` decodes it, producing the
value 5 from the short span `[5]`. -/
theorem truncation_silent_cex :
    parseFile .little 0 [("t", ⟨1, [⟨0, [("x", "int", 4)]⟩]⟩)] [5] [] =
      .ok [("t", ⟨["x"], [[.vint 5]]⟩)] := by
  rfl

/-- C2 as amended.  Whenever the stream yields fewer bytes than a
field's declared length, `parse_file` does not fail and performs no
retry: it silently decodes the short byte span (here, for an `int`
field of declared length `l` at offset 0 of a file `F` shorter than
`l`, the produced value is `int.from_bytes` of all of `F`). -/
theorem truncation_silently_decodes (bo : ByteOrder) (l : Nat) (F : List Nat)
    (h : F.length < l) :
    parseFile bo 0 [("t", ⟨1, [⟨0, [("x", "int", l)]⟩]⟩)] F [] =
      .ok [("t", ⟨["x"], [[.vint (intFromBytes bo F)]]⟩)] := by
  have htake : F.take l = F := List.take_of_length_le (Nat.le_of_lt h)
  simp [parseFile, parseFileLoop, parseTable, createTable, dbLookup, tableColumns,
    tableColumnNames, readSections, fseek, readSectionRows, readFields, fread,
    decodeField, insertRows, htake]

/-- Witness for `truncation_silently_decodes`: file `[5]`, length 4. -/
theorem truncation_silently_decodes_witness :
    ([5] : List Nat).length < 4 ∧
      parseFile .little 0 [("t", ⟨1, [⟨0, [("x", "int", 4)]⟩]⟩)] [5] [] =
        .ok [("t", ⟨["x"], [[.vint (intFromBytes .little [5])]]⟩)] :=
  ⟨by decide, truncation_silently_decodes .little 4 [5] (by decide)⟩

/-! ### Claim C9: non-termination on an exhausted stream -/

/-- C9.  If the layout stream is exhausted (readline yields the empty
string from then on) while the parser is outside a begin/end block and
no `endfile` line has been read, `parse_layout` never terminates: no
amount of fuel makes the outer loop return — it consumes empty lines
forever.  In particular `parse_layout` diverges on the stream with no
lines at all. -/
theorem exhausted_stream_never_terminates :
    (∀ fuel lineno data, parseOuter fuel [] [] lineno data = none) ∧
      ∀ fuel, parseLayout fuel [] = none := by
  have key : ∀ fuel lineno data, parseOuter fuel [] [] lineno data = none := by
    intro fuel
    induction fuel with
    | zero => intro _ _; rfl
    | succ n ih =>
      intro lineno data
      show parseOuter (n + 1) [] [] lineno data = none
      rw [parseOuter, if_neg (by decide), if_neg (by decide)]
      exact ih _ _
  exact ⟨key, fun fuel => key fuel 0 []⟩

/-! ### Support lemmas on splitting, stripping, prefixes and digits -/

theorem splitSp_cons (c : Char) (r : Chars) :
    splitSp (c :: r) =
      match splitSp r with
      | [] => [[]]
      | g :: gs => if c = ' ' then [] :: g :: gs else (c :: g) :: gs := rfl

theorem splitSp_ne_nil (s : Chars) : splitSp s ≠ [] := by
  induction s with
  | nil => simp [splitSp]
  | cons c r ih =>
    rw [splitSp_cons]
    cases hr : splitSp r with
    | nil => simp
    | cons g gs => by_cases hc : c = ' ' <;> simp [hc]

theorem splitSp_no_space (a : Chars) (h : ∀ c ∈ a, c ≠ ' ') : splitSp a = [a] := by
  induction a with
  | nil => rfl
  | cons c r ih =>
    have hc : c ≠ ' ' := h c (by simp)
    have hr := ih (fun x hx => h x (by simp [hx]))
    rw [splitSp_cons, hr]
    simp [hc]

theorem splitSp_append_space (a b : Chars) (h : ∀ c ∈ a, c ≠ ' ') :
    splitSp (a ++ ' ' :: b) = a :: splitSp b := by
  induction a with
  | nil =>
    rw [List.nil_append, splitSp_cons]
    cases hb : splitSp b with
    | nil => exact absurd hb (splitSp_ne_nil b)
    | cons g gs => simp
  | cons c r ih =>
    have hc : c ≠ ' ' := h c (by simp)
    have hr := ih (fun x hx => h x (by simp [hx]))
    rw [List.cons_append, splitSp_cons, hr]
    simp [hc]

theorem stripChars_cons_concat (c d : Char) (mid : Chars)
    (hc : isPySpace c = false) (hd : isPySpace d = false) :
    stripChars (c :: (mid ++ [d])) = c :: (mid ++ [d]) := by
  unfold stripChars
  have h1 : List.dropWhile isPySpace (c :: (mid ++ [d])) = c :: (mid ++ [d]) := by
    rw [List.dropWhile_cons, hc]
    simp
  rw [h1]
  have h2 : (c :: (mid ++ [d])).reverse = d :: (mid.reverse ++ [c]) := by
    simp
  rw [h2, List.dropWhile_cons, hd]
  simp

theorem token_concat (s : Chars) (h : cleanTok s) :
    ∃ s1 d, s = s1 ++ [d] ∧ isPySpace d = false := by
  rcases List.eq_nil_or_concat s with rfl | ⟨s1, d, rfl⟩
  · exact absurd rfl h.1
  · exact ⟨s1, d, by simp, h.2 d (by simp)⟩

theorem ends_prepend (x rest : Chars)
    (h : ∃ r1 d, rest = r1 ++ [d] ∧ isPySpace d = false) :
    ∃ r1 d, x ++ rest = r1 ++ [d] ∧ isPySpace d = false := by
  obtain ⟨r1, d, rfl, hd⟩ := h
  exact ⟨x ++ r1, d, by simp, hd⟩

theorem stripChars_token_line (a rest : Chars) (ha : cleanTok a)
    (hr : ∃ r1 d, rest = r1 ++ [d] ∧ isPySpace d = false) :
    stripChars (a ++ rest) = a ++ rest := by
  obtain ⟨r1, d, rfl, hd⟩ := hr
  obtain ⟨c, a1, rfl⟩ := List.exists_cons_of_ne_nil ha.1
  have heq : (c :: a1) ++ (r1 ++ [d]) = c :: ((a1 ++ r1) ++ [d]) := by simp
  rw [heq, stripChars_cons_concat c d (a1 ++ r1) (ha.2 c (by simp)) hd]

theorem startsWithChars_self_append (p t : Chars) :
    startsWithChars p (p ++ t) = true := by
  induction p with
  | nil => rfl
  | cons c r ih => simpa [startsWithChars] using ih

theorem startsWithChars_append_space (p : Chars) :
    ∀ a b : Chars, (∀ c ∈ p, c ≠ ' ') → (∀ c ∈ a, c ≠ ' ') →
      startsWithChars p (a ++ ' ' :: b) = startsWithChars p a := by
  induction p with
  | nil => intro a b _ _; rfl
  | cons x p ih =>
    intro a b hp ha
    cases a with
    | nil =>
      have hx : x ≠ ' ' := hp x (by simp)
      simp [startsWithChars, hx]
    | cons d a2 =>
      simp only [List.cons_append, startsWithChars, List.append_eq]
      rw [ih a2 b (fun c hc => hp c (by simp [hc])) (fun c hc => ha c (by simp [hc]))]

theorem mem_of_space_ne (l m : Chars) (hin : ' ' ∈ l) (hout : ' ' ∉ m) : l ≠ m := by
  intro h
  exact hout (h ▸ hin)

theorem digit_not_space (c : Char) (d : Nat) (h : digitVal c = some d) :
    isPySpace c = false := by
  by_contra hc
  have hc2 : isPySpace c = true := by
    revert hc
    cases isPySpace c <;> simp
  unfold isPySpace at hc2
  simp only [Bool.or_eq_true, decide_eq_true_eq] at hc2
  rcases hc2 with ((((rfl | rfl) | rfl) | rfl) | rfl) | rfl
  · rw [(by decide : digitVal ' ' = none)] at h; cases h
  · rw [(by decide : digitVal '\t' = none)] at h; cases h
  · rw [(by decide : digitVal '\n' = none)] at h; cases h
  · rw [(by decide : digitVal '\r' = none)] at h; cases h
  · rw [(by decide : digitVal (Char.ofNat 11) = none)] at h; cases h
  · rw [(by decide : digitVal (Char.ofNat 12) = none)] at h; cases h

theorem hexDigit_not_space (c : Char) (d : Nat) (h : hexDigitVal c = some d) :
    isPySpace c = false := by
  by_contra hc
  have hc2 : isPySpace c = true := by
    revert hc
    cases isPySpace c <;> simp
  unfold isPySpace at hc2
  simp only [Bool.or_eq_true, decide_eq_true_eq] at hc2
  rcases hc2 with ((((rfl | rfl) | rfl) | rfl) | rfl) | rfl
  · rw [(by decide : hexDigitVal ' ' = none)] at h; cases h
  · rw [(by decide : hexDigitVal '\t' = none)] at h; cases h
  · rw [(by decide : hexDigitVal '\n' = none)] at h; cases h
  · rw [(by decide : hexDigitVal '\r' = none)] at h; cases h
  · rw [(by decide : hexDigitVal (Char.ofNat 11) = none)] at h; cases h
  · rw [(by decide : hexDigitVal (Char.ofNat 12) = none)] at h; cases h

theorem parseDigits_not_space (dv : Char → Option Nat) (base : Nat)
    (hdv : ∀ c d, dv c = some d → isPySpace c = false) :
    ∀ (s : Chars) (acc v : Nat), parseDigits dv base s acc = some v →
      ∀ c ∈ s, isPySpace c = false := by
  intro s
  induction s with
  | nil => intro _ _ _ c hc; cases hc
  | cons a r ih =>
    intro acc v h c hc
    unfold parseDigits at h
    cases hd : dv a with
    | none => rw [hd] at h; cases h
    | some d =>
      rw [hd] at h
      rcases List.mem_cons.mp hc with rfl | hc2
      · exact hdv _ _ hd
      · exact ih _ _ h _ hc2

theorem pyIntDec_clean (s : Chars) (v : Nat) (h : pyIntDec s = some v) : cleanTok s := by
  unfold pyIntDec at h
  by_cases hs : s = []
  · rw [if_pos hs] at h; cases h
  · rw [if_neg hs] at h
    exact ⟨hs, parseDigits_not_space digitVal 10 digit_not_space s 0 v h⟩

theorem pyIntBase0_clean (s : Chars) (v : Nat) (h : pyIntBase0 s = some v) :
    cleanTok s := by
  cases s with
  | nil => exact pyIntDec_clean _ _ h
  | cons c0 s1 =>
    cases s1 with
    | nil => exact pyIntDec_clean _ _ h
    | cons x r =>
      rw [show pyIntBase0 (c0 :: x :: r) =
          (if c0 = '0' ∧ (x = 'x' ∨ x = 'X') then
            if r = [] then none else parseDigits hexDigitVal 16 r 0
          else pyIntDec (c0 :: x :: r)) from rfl] at h
      by_cases hx : c0 = '0' ∧ (x = 'x' ∨ x = 'X')
      · rw [if_pos hx] at h
        by_cases hr : r = []
        · rw [if_pos hr] at h; cases h
        · rw [if_neg hr] at h
          refine ⟨by simp, ?_⟩
          intro c hc
          rcases List.mem_cons.mp hc with rfl | hc2
          · rw [hx.1]; decide
          rcases List.mem_cons.mp hc2 with rfl | hc3
          · rcases hx.2 with rfl | rfl <;> decide
          · exact parseDigits_not_space hexDigitVal 16 hexDigit_not_space r 0 v h _ hc3
      · rw [if_neg hx] at h
        exact pyIntDec_clean _ _ h

theorem cleanTok_no_space (s : Chars) (h : cleanTok s) : ∀ c ∈ s, c ≠ ' ' := by
  intro c hc heq
  subst heq
  have := h.2 _ hc
  simp [isPySpace] at this

theorem readline_cons (l : Chars) (ls : List Chars) : readline (l :: ls) = (l, ls) := rfl

theorem layoutFind_cons_self (tn : String) (t : TableLayout) (rest : Layout) :
    layoutFind ((tn, t) :: rest) tn = some t := by
  unfold layoutFind
  rw [if_pos rfl]

theorem layoutAppendSection_singleton (tn : String) (t : TableLayout) (s : Section) :
    layoutAppendSection [(tn, t)] tn s = [(tn, ⟨t.count, t.sections ++ [s]⟩)] := by
  unfold layoutAppendSection
  rw [List.map_cons, List.map_nil]
  rw [if_pos rfl]

/-! ### Behaviour of `parseFields` on rendered body lines -/

theorem renderBody_field_strip (n t l : Chars) (v : Nat) (hn : cleanTok n)
    (hl : cleanTok l) :
    stripChars (renderBody (.field n t l v)) = renderBody (.field n t l v) := by
  obtain ⟨l1, d, rfl, hd⟩ := token_concat l hl
  exact stripChars_token_line n (' ' :: (t ++ ' ' :: (l1 ++ [d]))) hn
    ⟨' ' :: (t ++ ' ' :: l1), d, by simp, hd⟩

theorem renderBody_pad_strip (n l : Chars) (v : Nat) (hn : cleanTok n)
    (hl : cleanTok l) :
    stripChars (renderBody (.pad n l v)) = renderBody (.pad n l v) := by
  obtain ⟨l1, d, rfl, hd⟩ := token_concat l hl
  exact stripChars_token_line n (' ' :: (l1 ++ [d])) hn ⟨' ' :: l1, d, by simp, hd⟩

theorem renderBody_ne_end (b : BodyLine) : renderBody b ≠ "end".toList := by
  cases b with
  | field n t l v => exact mem_of_space_ne _ _ (by simp [renderBody]) (by decide)
  | pad n l v => exact mem_of_space_ne _ _ (by simp [renderBody]) (by decide)

theorem parseFields_render (body : List BodyLine) :
    ∀ (fuel : Nat) (rest : List Chars) (lineno subtotal : Nat) (acc : List Field),
      body.length < fuel →
      (∀ b ∈ body, bodyLineOk b) →
      parseFields fuel
          (stripChars (readline (body.map renderBody ++ "end".toList :: rest)).1)
          (readline (body.map renderBody ++ "end".toList :: rest)).2
          lineno subtotal acc
        = some (.ok (acc ++ body.map bodyField,
            subtotal + (body.map bodyLen).sum, rest, lineno + body.length)) := by
  induction body with
  | nil =>
    intro fuel rest lineno subtotal acc hfuel _
    obtain ⟨f, rfl⟩ : ∃ f, fuel = f + 1 := ⟨fuel - 1, by omega⟩
    simp only [List.map_nil, List.nil_append, readline]
    rw [show stripChars "end".toList = "end".toList from by decide]
    rw [parseFields, if_pos rfl]
    simp
  | cons b body ih =>
    intro fuel rest lineno subtotal acc hfuel hok
    obtain ⟨f, rfl⟩ : ∃ f, fuel = f + 1 := ⟨fuel - 1, by omega⟩
    have hbody : ∀ x ∈ body, bodyLineOk x := fun x hx => hok x (by simp [hx])
    have hb : bodyLineOk b := hok b (by simp)
    have hfb : body.length < f := by simpa using Nat.lt_of_succ_lt_succ hfuel
    simp only [List.map_cons, List.cons_append, readline]
    cases b with
    | pad n l v =>
      obtain ⟨hn, hnp, hpy⟩ : cleanTok n ∧ startsWithChars "padding".toList n = true ∧
          pyIntDec l = some v := hb
      have hl : cleanTok l := pyIntDec_clean l v hpy
      rw [renderBody_pad_strip n l v hn hl]
      rw [parseFields, if_neg (renderBody_ne_end (.pad n l v))]
      rw [if_pos (show startsWithChars "padding".toList (renderBody (.pad n l v)) = true from by
        rw [show renderBody (.pad n l v) = n ++ ' ' :: l from rfl,
          startsWithChars_append_space _ _ _ (by decide) (cleanTok_no_space n hn), hnp])]
      rw [show splitSp (renderBody (.pad n l v)) = [n, l] from by
        rw [show renderBody (.pad n l v) = n ++ ' ' :: l from rfl,
          splitSp_append_space _ _ (cleanTok_no_space n hn),
          splitSp_no_space l (cleanTok_no_space l hl)]]
      simp only [hpy]
      have ihx := ih f rest (lineno + 1) (subtotal + v) (acc ++ [("padding", "int", v)])
        hfb hbody
      rw [ihx]
      simp only [Option.some.injEq, Except.ok.injEq, Prod.mk.injEq, List.map_cons,
        List.sum_cons, List.length_cons, List.append_assoc, List.singleton_append,
        bodyField, bodyLen, List.cons.injEq]
      refine ⟨by simp, by omega, trivial, by omega⟩
    | field n t l v =>
      obtain ⟨hn, ht, hnp, hpy⟩ : cleanTok n ∧ cleanTok t ∧
          startsWithChars "padding".toList n = false ∧ pyIntDec l = some v := hb
      have hl : cleanTok l := pyIntDec_clean l v hpy
      rw [renderBody_field_strip n t l v hn hl]
      rw [parseFields, if_neg (renderBody_ne_end (.field n t l v))]
      rw [if_neg (show ¬ startsWithChars "padding".toList (renderBody (.field n t l v))
          = true from by
        rw [show renderBody (.field n t l v) = n ++ ' ' :: (t ++ ' ' :: l) from rfl,
          startsWithChars_append_space _ _ _ (by decide) (cleanTok_no_space n hn), hnp]
        simp)]
      rw [show splitSp (renderBody (.field n t l v)) = [n, t, l] from by
        rw [show renderBody (.field n t l v) = n ++ ' ' :: (t ++ ' ' :: l) from rfl,
          splitSp_append_space _ _ (cleanTok_no_space n hn),
          splitSp_append_space _ _ (cleanTok_no_space t ht),
          splitSp_no_space l (cleanTok_no_space l hl)]]
      simp only [hpy]
      have ihx := ih f rest (lineno + 1) (subtotal + v)
        (acc ++ [(String.mk n, String.mk t, v)]) hfb hbody
      rw [ihx]
      simp only [Option.some.injEq, Except.ok.injEq, Prod.mk.injEq, List.map_cons,
        List.sum_cons, List.length_cons, List.append_assoc, List.singleton_append,
        bodyField, bodyLen, List.cons.injEq]
      refine ⟨by simp, by omega, trivial, by omega⟩

/-- Prefix form of `parseFields_render`: consuming `good` rendered
lines advances the loop without ending it, whatever the stream holds
next. -/
theorem parseFields_render_front (good : List BodyLine) :
    ∀ (f2 : Nat) (rest : List Chars) (lineno subtotal : Nat) (acc : List Field),
      (∀ b ∈ good, bodyLineOk b) →
      parseFields (f2 + good.length)
          (stripChars (readline (good.map renderBody ++ rest)).1)
          (readline (good.map renderBody ++ rest)).2 lineno subtotal acc
        = parseFields f2 (stripChars (readline rest).1) (readline rest).2
            (lineno + good.length) (subtotal + (good.map bodyLen).sum)
            (acc ++ good.map bodyField) := by
  induction good with
  | nil =>
    intro f2 rest ln sub acc _
    simp
  | cons b good ih =>
    intro f2 rest ln sub acc hok
    have hbody : ∀ x ∈ good, bodyLineOk x := fun x hx => hok x (by simp [hx])
    have hb : bodyLineOk b := hok b (by simp)
    rw [show f2 + (b :: good).length = (f2 + good.length) + 1 from by
      simp [Nat.add_assoc]]
    simp only [List.map_cons, List.cons_append, readline_cons, List.length_cons,
      List.sum_cons, bodyLen, bodyField]
    cases b with
    | pad n l v =>
      obtain ⟨hn, hnp, hpy⟩ : cleanTok n ∧ startsWithChars "padding".toList n = true ∧
          pyIntDec l = some v := hb
      have hl : cleanTok l := pyIntDec_clean l v hpy
      rw [renderBody_pad_strip n l v hn hl]
      rw [parseFields, if_neg (renderBody_ne_end (.pad n l v))]
      rw [if_pos (show startsWithChars "padding".toList (renderBody (.pad n l v)) = true from by
        rw [show renderBody (.pad n l v) = n ++ ' ' :: l from rfl,
          startsWithChars_append_space _ _ _ (by decide) (cleanTok_no_space n hn), hnp])]
      rw [show splitSp (renderBody (.pad n l v)) = [n, l] from by
        rw [show renderBody (.pad n l v) = n ++ ' ' :: l from rfl,
          splitSp_append_space _ _ (cleanTok_no_space n hn),
          splitSp_no_space l (cleanTok_no_space l hl)]]
      simp only [hpy]
      rw [show ln + (good.length + 1) = ln + 1 + good.length from by omega,
        show sub + (v + (good.map bodyLen).sum) = sub + v + (good.map bodyLen).sum from by
          omega,
        show acc ++ ("padding", "int", v) :: good.map bodyField
            = (acc ++ [(("padding" : String), ("int" : String), v)]) ++ good.map bodyField
          from by simp]
      exact ih f2 rest (ln + 1) (sub + v) _ hbody
    | field n t l v =>
      obtain ⟨hn, ht, hnp, hpy⟩ : cleanTok n ∧ cleanTok t ∧
          startsWithChars "padding".toList n = false ∧ pyIntDec l = some v := hb
      have hl : cleanTok l := pyIntDec_clean l v hpy
      rw [renderBody_field_strip n t l v hn hl]
      rw [parseFields, if_neg (renderBody_ne_end (.field n t l v))]
      rw [if_neg (show ¬ startsWithChars "padding".toList (renderBody (.field n t l v))
          = true from by
        rw [show renderBody (.field n t l v) = n ++ ' ' :: (t ++ ' ' :: l) from rfl,
          startsWithChars_append_space _ _ _ (by decide) (cleanTok_no_space n hn), hnp]
        simp)]
      rw [show splitSp (renderBody (.field n t l v)) = [n, t, l] from by
        rw [show renderBody (.field n t l v) = n ++ ' ' :: (t ++ ' ' :: l) from rfl,
          splitSp_append_space _ _ (cleanTok_no_space n hn),
          splitSp_append_space _ _ (cleanTok_no_space t ht),
          splitSp_no_space l (cleanTok_no_space l hl)]]
      simp only [hpy]
      rw [show ln + (good.length + 1) = ln + 1 + good.length from by omega,
        show sub + (v + (good.map bodyLen).sum) = sub + v + (good.map bodyLen).sum from by
          omega,
        show acc ++ (String.mk n, String.mk t, v) :: good.map bodyField
            = (acc ++ [(String.mk n, String.mk t, v)]) ++ good.map bodyField from by simp]
      exact ih f2 rest (ln + 1) (sub + v) _ hbody

/-! ### Behaviour of `parseOuter` on rendered blocks -/

theorem parseLayout_start (f : Nat) (l : Chars) (s : List Chars) :
    parseLayout (f + 1) (l :: s) = parseOuter f (stripChars l) s 1 [] := by
  unfold parseLayout
  rw [parseOuter, if_neg (by decide), if_neg (by decide)]
  simp only [readline_cons]

theorem renderHeader_strip (tnS offS totS cntS : Chars) (htn : cleanTok tnS)
    (hcnt : cleanTok cntS) :
    stripChars (renderHeader tnS offS totS cntS) = renderHeader tnS offS totS cntS := by
  obtain ⟨c1, d, rfl, hd⟩ := token_concat cntS hcnt
  exact stripChars_token_line tnS _ htn
    ⟨' ' :: (offS ++ (' ' :: (totS ++ (' ' :: c1)))), d, by simp, hd⟩

theorem renderHeader_split (tnS offS totS cntS : Chars)
    (htn : ∀ c ∈ tnS, c ≠ ' ') (hoff : ∀ c ∈ offS, c ≠ ' ')
    (htot : ∀ c ∈ totS, c ≠ ' ') (hcnt : ∀ c ∈ cntS, c ≠ ' ') :
    splitSp (renderHeader tnS offS totS cntS) = [tnS, offS, totS, cntS] := by
  unfold renderHeader
  rw [splitSp_append_space _ _ htn, splitSp_append_space _ _ hoff,
    splitSp_append_space _ _ htot, splitSp_no_space cntS hcnt]

/-- One full `begin` block: the outer loop at a `begin` line with a
rendered header and body reduces to the count check, then the subtotal
check, then the continuation on the remaining stream. -/
theorem parseOuter_block (f : Nat) (tnS offS totS cntS : Chars) (body : List BodyLine)
    (rest : List Chars) (ln : Nat) (data : Layout) (off tot cnt : Nat)
    (htn : cleanTok tnS)
    (hoff : pyIntBase0 offS = some off) (htot : pyIntDec totS = some tot)
    (hcnt : pyIntDec cntS = some cnt)
    (hok : ∀ b ∈ body, bodyLineOk b)
    (hfuel : body.length < f) :
    parseOuter (f + 1) "begin".toList
        (renderHeader tnS offS totS cntS :: (body.map renderBody ++ "end".toList :: rest))
        ln data
      = (if cnt ≠ ((layoutFind
              (if (layoutFind data (String.mk tnS)).isSome then data
               else data ++ [(String.mk tnS, ⟨cnt, []⟩)]) (String.mk tnS)).getD
              ⟨cnt, []⟩).count then
          some (.error (.invalidLayout ("Counts for table " ++ String.mk tnS
            ++ " must be equal for all sections of table " ++ String.mk tnS ++ ".")
            (ln + 1)))
        else if (body.map bodyLen).sum ≠ tot then
          some (.error (.invalidLayout ("lengths of section " ++ String.mk tnS
            ++ " do not add up to " ++ toString tot) (ln + 1)))
        else
          parseOuter f (stripChars (readline rest).1) (readline rest).2
            (ln + 1 + 1 + body.length + 1)
            (layoutAppendSection
              (if (layoutFind data (String.mk tnS)).isSome then data
               else data ++ [(String.mk tnS, ⟨cnt, []⟩)])
              (String.mk tnS) ⟨off, body.map bodyField⟩)) := by
  have hcc : cleanTok cntS := pyIntDec_clean _ _ hcnt
  rw [parseOuter, if_neg (by decide), if_pos (by decide)]
  simp only [readline_cons]
  rw [renderHeader_strip tnS offS totS cntS htn hcc]
  rw [renderHeader_split tnS offS totS cntS (cleanTok_no_space _ htn)
    (cleanTok_no_space _ (pyIntBase0_clean _ _ hoff))
    (cleanTok_no_space _ (pyIntDec_clean _ _ htot)) (cleanTok_no_space _ hcc)]
  simp only [hoff, htot, hcnt]
  rw [parseFields_render body f rest (ln + 1 + 1) 0 [] hfuel hok]
  simp only [List.nil_append, Nat.zero_add]

/-- Begin-block processing on a fresh `self.data`: after the header is
parsed and the (trivially passing) count check, the loop hands the rest
of the stream to `parseFields`. -/
theorem parseOuter_begin_fresh (f : Nat) (tnS offS totS cntS : Chars)
    (rest1 : List Chars) (ln : Nat) (off tot cnt : Nat)
    (htn : cleanTok tnS)
    (hoff : pyIntBase0 offS = some off) (htot : pyIntDec totS = some tot)
    (hcnt : pyIntDec cntS = some cnt) :
    parseOuter (f + 1) "begin".toList
        (renderHeader tnS offS totS cntS :: rest1) ln []
      = (match parseFields f (stripChars (readline rest1).1) (readline rest1).2
            (ln + 1 + 1) 0 [] with
        | none => none
        | some (.error e) => some (.error e)
        | some (.ok (secFields, subtotal, s3, endLineno)) =>
          if subtotal ≠ tot then
            some (.error (.invalidLayout ("lengths of section " ++ String.mk tnS
              ++ " do not add up to " ++ toString tot) (ln + 1)))
          else
            parseOuter f (stripChars (readline s3).1) (readline s3).2 (endLineno + 1)
              (layoutAppendSection [(String.mk tnS, ⟨cnt, []⟩)] (String.mk tnS)
                ⟨off, secFields⟩)) := by
  have hcc : cleanTok cntS := pyIntDec_clean _ _ hcnt
  rw [parseOuter, if_neg (by decide), if_pos (by decide)]
  simp only [readline_cons]
  rw [renderHeader_strip tnS offS totS cntS htn hcc]
  rw [renderHeader_split tnS offS totS cntS (cleanTok_no_space _ htn)
    (cleanTok_no_space _ (pyIntBase0_clean _ _ hoff))
    (cleanTok_no_space _ (pyIntDec_clean _ _ htot)) (cleanTok_no_space _ hcc)]
  simp only [hoff, htot, hcnt, layoutFind, Option.isSome_none, Bool.false_eq_true,
    if_false, List.nil_append, eq_self_iff_true, if_true, Option.getD_some]
  rw [if_neg (by simp)]

/-- Successful single-block parse: a rendered block whose subtotal
matches, followed by `endfile`, yields exactly the one-table layout. -/
theorem parseLayout_single_block_ok (fuel : Nat) (tnS offS totS cntS : Chars)
    (body : List BodyLine) (rest : List Chars) (off tot cnt : Nat)
    (htn : cleanTok tnS)
    (hoff : pyIntBase0 offS = some off) (htot : pyIntDec totS = some tot)
    (hcnt : pyIntDec cntS = some cnt)
    (hok : ∀ b ∈ body, bodyLineOk b)
    (hsum : (body.map bodyLen).sum = tot)
    (hfuel : body.length + 3 ≤ fuel) :
    parseLayout fuel (renderBlock tnS offS totS cntS body ++ "endfile".toList :: rest)
      = some (.ok [(String.mk tnS, ⟨cnt, [⟨off, body.map bodyField⟩]⟩)]) := by
  obtain ⟨f, rfl⟩ : ∃ f, fuel = f + 1 := ⟨fuel - 1, by omega⟩
  have hshape : renderBlock tnS offS totS cntS body ++ "endfile".toList :: rest
      = "begin".toList :: (renderHeader tnS offS totS cntS
          :: (body.map renderBody ++ "end".toList :: ("endfile".toList :: rest))) := by
    simp [renderBlock]
  rw [hshape, parseLayout_start]
  rw [show stripChars "begin".toList = "begin".toList from by decide]
  obtain ⟨f2, rfl⟩ : ∃ f2, f = f2 + 1 := ⟨f - 1, by omega⟩
  rw [parseOuter_block f2 tnS offS totS cntS body ("endfile".toList :: rest) 1 []
    off tot cnt htn hoff htot hcnt hok (by omega)]
  simp only [layoutFind, Option.isSome_none, Bool.false_eq_true, if_false,
    List.nil_append, eq_self_iff_true, if_true, Option.getD_some]
  rw [if_neg (by simp), if_neg (by simp [hsum])]
  simp only [readline_cons]
  rw [show stripChars "endfile".toList = "endfile".toList from by decide]
  obtain ⟨f3, rfl⟩ : ∃ f3, f2 = f3 + 1 := ⟨f2 - 1, by omega⟩
  rw [parseOuter, if_pos rfl, layoutAppendSection_singleton]
  simp

/-- Count-mismatch path of a `begin` block: when the table already
exists with a different count, the error is raised right after the
header line is read, before any body line is consumed (so the stream
past the header is arbitrary). -/
theorem parseOuter_begin_count_mismatch (f : Nat) (tnS offS totS cntS : Chars)
    (rest2 : List Chars) (ln : Nat) (data : Layout) (off tot cnt : Nat)
    (t0 : TableLayout)
    (htn : cleanTok tnS)
    (hoff : pyIntBase0 offS = some off) (htot : pyIntDec totS = some tot)
    (hcnt : pyIntDec cntS = some cnt)
    (hfound : layoutFind data (String.mk tnS) = some t0)
    (hne : cnt ≠ t0.count) :
    parseOuter (f + 1) "begin".toList
        (renderHeader tnS offS totS cntS :: rest2) ln data
      = some (.error (.invalidLayout ("Counts for table " ++ String.mk tnS
          ++ " must be equal for all sections of table " ++ String.mk tnS ++ ".")
          (ln + 1))) := by
  have hcc : cleanTok cntS := pyIntDec_clean _ _ hcnt
  rw [parseOuter, if_neg (by decide), if_pos (by decide)]
  simp only [readline_cons]
  rw [renderHeader_strip tnS offS totS cntS htn hcc]
  rw [renderHeader_split tnS offS totS cntS (cleanTok_no_space _ htn)
    (cleanTok_no_space _ (pyIntBase0_clean _ _ hoff))
    (cleanTok_no_space _ (pyIntDec_clean _ _ htot)) (cleanTok_no_space _ hcc)]
  simp only [hoff, htot, hcnt, hfound, Option.isSome_some, if_true, Option.getD_some]
  rw [if_pos hne]

/-! ### Claim C6: section length mismatch reported at the header line -/

/-- C6.  A `begin` block whose field lengths do not sum to the declared
total makes `parse_layout` raise `InvalidLayout` when the `end` line is
reached, and the reported line number is 2 — the section's header line
(`section_lineno` in the source), not the later `end` line (which is
line `body.length + 3`).  The input is quantified over all rendered
single-block layouts: any table name, any decimal or hexadecimal
offset, any mix of field and padding lines, anything after `end`. -/
theorem section_sum_mismatch_line (fuel : Nat) (tnS offS totS cntS : Chars)
    (body : List BodyLine) (rest : List Chars) (off tot cnt : Nat)
    (htn : cleanTok tnS)
    (hoff : pyIntBase0 offS = some off) (htot : pyIntDec totS = some tot)
    (hcnt : pyIntDec cntS = some cnt)
    (hok : ∀ b ∈ body, bodyLineOk b)
    (hsum : (body.map bodyLen).sum ≠ tot)
    (hfuel : body.length + 3 ≤ fuel) :
    parseLayout fuel (renderBlock tnS offS totS cntS body ++ rest)
      = some (.error (.invalidLayout ("lengths of section " ++ String.mk tnS
          ++ " do not add up to " ++ toString tot) 2)) := by
  obtain ⟨f, rfl⟩ : ∃ f, fuel = f + 1 := ⟨fuel - 1, by omega⟩
  have hshape : renderBlock tnS offS totS cntS body ++ rest
      = "begin".toList :: (renderHeader tnS offS totS cntS
          :: (body.map renderBody ++ "end".toList :: rest)) := by
    simp [renderBlock]
  rw [hshape, parseLayout_start]
  rw [show stripChars "begin".toList = "begin".toList from by decide]
  obtain ⟨f2, rfl⟩ : ∃ f2, f = f2 + 1 := ⟨f - 1, by omega⟩
  rw [parseOuter_block f2 tnS offS totS cntS body rest 1 [] off tot cnt htn hoff htot
    hcnt hok (by omega)]
  simp only [layoutFind, Option.isSome_none, Bool.false_eq_true, if_false,
    List.nil_append, eq_self_iff_true, if_true, Option.getD_some]
  rw [if_neg (by simp), if_pos hsum]

/-- Witness for `section_sum_mismatch_line`: the spec's §8 layout with
the declared total changed from 8 to 9. -/
theorem section_sum_mismatch_line_witness :
    (([BodyLine.field "name".toList "str".toList "4".toList 4,
        BodyLine.field "hp".toList "int".toList "4".toList 4].map bodyLen).sum ≠ 9) ∧
      parseLayout 5 (renderBlock "players".toList "0x10".toList "9".toList "2".toList
          [BodyLine.field "name".toList "str".toList "4".toList 4,
            BodyLine.field "hp".toList "int".toList "4".toList 4]
          ++ ["endfile".toList])
        = some (.error (.invalidLayout ("lengths of section "
            ++ String.mk "players".toList ++ " do not add up to " ++ toString 9) 2)) :=
  ⟨by decide,
    section_sum_mismatch_line 5 "players".toList "0x10".toList "9".toList "2".toList
      [BodyLine.field "name".toList "str".toList "4".toList 4,
        BodyLine.field "hp".toList "int".toList "4".toList 4]
      ["endfile".toList] 16 9 2 (by decide) (by decide) (by decide) (by decide)
      (by decide) (by decide) (by decide)⟩

/-! ### Claim C7: inconsistent record counts reported at the second header -/

/-- C7.  When a table name reappears in a second `begin` header with a
different record count, `parse_layout` raises `InvalidLayout`, and the
reported line number is the second section's header line: the first
block occupies lines 1 through `body1.length + 3`, the second `begin`
is line `body1.length + 4`, and the error is reported at line
`body1.length + 5` — the second header.  Nothing after the second
header line is read. -/
theorem count_mismatch_second_header (fuel : Nat)
    (tnS offS1 totS1 cntS1 offS2 totS2 cntS2 : Chars)
    (body1 : List BodyLine) (rest : List Chars)
    (off1 tot1 cnt1 off2 tot2 cnt2 : Nat)
    (htn : cleanTok tnS)
    (hoff1 : pyIntBase0 offS1 = some off1) (htot1 : pyIntDec totS1 = some tot1)
    (hcnt1 : pyIntDec cntS1 = some cnt1)
    (hok1 : ∀ b ∈ body1, bodyLineOk b)
    (hsum1 : (body1.map bodyLen).sum = tot1)
    (hoff2 : pyIntBase0 offS2 = some off2) (htot2 : pyIntDec totS2 = some tot2)
    (hcnt2 : pyIntDec cntS2 = some cnt2)
    (hne : cnt2 ≠ cnt1)
    (hfuel : body1.length + 3 ≤ fuel) :
    parseLayout fuel (renderBlock tnS offS1 totS1 cntS1 body1
        ++ "begin".toList :: renderHeader tnS offS2 totS2 cntS2 :: rest)
      = some (.error (.invalidLayout ("Counts for table " ++ String.mk tnS
          ++ " must be equal for all sections of table " ++ String.mk tnS ++ ".")
          (body1.length + 5))) := by
  obtain ⟨f, rfl⟩ : ∃ f, fuel = f + 1 := ⟨fuel - 1, by omega⟩
  have hshape : renderBlock tnS offS1 totS1 cntS1 body1
        ++ "begin".toList :: renderHeader tnS offS2 totS2 cntS2 :: rest
      = "begin".toList :: (renderHeader tnS offS1 totS1 cntS1
          :: (body1.map renderBody ++ "end".toList
            :: ("begin".toList :: renderHeader tnS offS2 totS2 cntS2 :: rest))) := by
    simp [renderBlock]
  rw [hshape, parseLayout_start]
  rw [show stripChars "begin".toList = "begin".toList from by decide]
  obtain ⟨f2, rfl⟩ : ∃ f2, f = f2 + 1 := ⟨f - 1, by omega⟩
  rw [parseOuter_block f2 tnS offS1 totS1 cntS1 body1
    ("begin".toList :: renderHeader tnS offS2 totS2 cntS2 :: rest) 1 [] off1 tot1 cnt1
    htn hoff1 htot1 hcnt1 hok1 (by omega)]
  simp only [layoutFind, Option.isSome_none, Bool.false_eq_true, if_false,
    List.nil_append, eq_self_iff_true, if_true, Option.getD_some]
  rw [if_neg (by simp), if_neg (by simp [hsum1])]
  simp only [readline_cons]
  rw [show stripChars "begin".toList = "begin".toList from by decide]
  obtain ⟨f3, rfl⟩ : ∃ f3, f2 = f3 + 1 := ⟨f2 - 1, by omega⟩
  rw [parseOuter_begin_count_mismatch f3 tnS offS2 totS2 cntS2 rest
    (1 + 1 + 1 + body1.length + 1) _ off2 tot2 cnt2
    ⟨cnt1, [⟨off1, body1.map bodyField⟩]⟩ htn hoff2 htot2 hcnt2
    (by rw [layoutAppendSection_singleton, layoutFind_cons_self]; simp) hne]
  have : 1 + 1 + 1 + body1.length + 1 + 1 = body1.length + 5 := by omega
  rw [this]

/-- Witness for `count_mismatch_second_header`: table `t` declared with
count 1, then again with count 3. -/
theorem count_mismatch_second_header_witness :
    (3 : Nat) ≠ 1 ∧
      parseLayout 5 (renderBlock "t".toList "0".toList "2".toList "1".toList
          [BodyLine.field "x".toList "int".toList "2".toList 2]
          ++ "begin".toList :: renderHeader "t".toList "4".toList "2".toList "3".toList
            :: ["endfile".toList])
        = some (.error (.invalidLayout ("Counts for table " ++ String.mk "t".toList
            ++ " must be equal for all sections of table " ++ String.mk "t".toList
            ++ ".") 6)) :=
  ⟨by decide,
    count_mismatch_second_header 5 "t".toList "0".toList "2".toList "1".toList
      "4".toList "2".toList "3".toList
      [BodyLine.field "x".toList "int".toList "2".toList 2] ["endfile".toList]
      0 2 1 4 2 3 (by decide) (by decide) (by decide) (by decide) (by decide)
      (by decide) (by decide) (by decide) (by decide) (by decide) (by decide)⟩

/-! ### Claim C10: every line starting with `padding` is a padding line -/

theorem startsWithChars_refl (p : Chars) : startsWithChars p p = true := by
  simpa using startsWithChars_self_append p []

/-- C10.  Inside a begin/end block, every line whose text starts with
`padding` is handled by the padding branch, so no column whose name
begins with `padding` can be declared.  Part 1: a three-token field
line whose name token starts with `padding` (such as `paddingx int 4`)
raises `InvalidLayout` with message `padding must have one argument` at
that line (line `good.length + 3`), instead of adding a named field.
Part 2: a two-token line whose first token starts with `padding` is
stored as the anonymous `('padding', 'int', length)` field, whatever
the first token was. -/
theorem padding_prefix_field_rejected :
    (∀ (fuel : Nat) (tnS offS totS cntS : Chars) (good : List BodyLine)
        (nameS tyS lenS : Chars) (after : List Chars) (off tot cnt : Nat),
      cleanTok tnS → pyIntBase0 offS = some off → pyIntDec totS = some tot →
      pyIntDec cntS = some cnt → (∀ b ∈ good, bodyLineOk b) →
      cleanTok nameS → startsWithChars "padding".toList nameS = true →
      cleanTok tyS → cleanTok lenS →
      good.length + 4 ≤ fuel →
      parseLayout fuel ("begin".toList :: renderHeader tnS offS totS cntS
          :: (good.map renderBody ++ renderBody (.field nameS tyS lenS 0) :: after))
        = some (.error (.invalidLayout "padding must have one argument"
            (good.length + 3)))) ∧
    (∀ (fuel : Nat) (tnS offS totS cntS : Chars) (padS padLenS : Chars)
        (padLen : Nat) (rest : List Chars) (off cnt : Nat),
      cleanTok tnS → pyIntBase0 offS = some off →
      pyIntDec totS = some padLen → pyIntDec cntS = some cnt →
      cleanTok padS → startsWithChars "padding".toList padS = true →
      pyIntDec padLenS = some padLen →
      4 ≤ fuel →
      parseLayout fuel (renderBlock tnS offS totS cntS [.pad padS padLenS padLen]
          ++ "endfile".toList :: rest)
        = some (.ok [(String.mk tnS, ⟨cnt, [⟨off, [("padding", "int", padLen)]⟩]⟩)])) := by
  constructor
  · intro fuel tnS offS totS cntS good nameS tyS lenS after off tot cnt
      htn hoff htot hcnt hgood hname hnp hty hlen hfuel
    obtain ⟨f, rfl⟩ : ∃ f, fuel = f + 1 := ⟨fuel - 1, by omega⟩
    rw [parseLayout_start]
    rw [show stripChars "begin".toList = "begin".toList from by decide]
    obtain ⟨f2, rfl⟩ : ∃ f2, f = f2 + 1 := ⟨f - 1, by omega⟩
    rw [parseOuter_begin_fresh f2 tnS offS totS cntS _ 1 off tot cnt htn hoff htot hcnt]
    obtain ⟨f3, rfl⟩ : ∃ f3, f2 = f3 + good.length := ⟨f2 - good.length, by omega⟩
    rw [parseFields_render_front good f3
      (renderBody (.field nameS tyS lenS 0) :: after) (1 + 1 + 1) 0 [] hgood]
    simp only [readline_cons]
    rw [renderBody_field_strip nameS tyS lenS 0 hname hlen]
    obtain ⟨f4, rfl⟩ : ∃ f4, f3 = f4 + 1 := ⟨f3 - 1, by omega⟩
    rw [parseFields, if_neg (renderBody_ne_end (.field nameS tyS lenS 0))]
    rw [if_pos (show startsWithChars "padding".toList
        (renderBody (.field nameS tyS lenS 0)) = true from by
      rw [show renderBody (.field nameS tyS lenS 0) = nameS ++ ' ' :: (tyS ++ ' ' :: lenS)
          from rfl,
        startsWithChars_append_space _ _ _ (by decide) (cleanTok_no_space nameS hname),
        hnp])]
    rw [show splitSp (renderBody (.field nameS tyS lenS 0)) = [nameS, tyS, lenS] from by
      rw [show renderBody (.field nameS tyS lenS 0) = nameS ++ ' ' :: (tyS ++ ' ' :: lenS)
          from rfl,
        splitSp_append_space _ _ (cleanTok_no_space nameS hname),
        splitSp_append_space _ _ (cleanTok_no_space tyS hty),
        splitSp_no_space lenS (cleanTok_no_space lenS hlen)]]
    simp only [Option.some.injEq, Except.error.injEq, Err.invalidLayout.injEq]
    exact ⟨trivial, by omega⟩
  · intro fuel tnS offS totS cntS padS padLenS padLen rest off cnt
      htn hoff htot hcnt hps hpp hpl hfuel
    rw [parseLayout_single_block_ok fuel tnS offS totS cntS [.pad padS padLenS padLen]
      rest off padLen cnt htn hoff htot hcnt
      (by intro b hb; rw [List.mem_singleton] at hb; subst hb; exact ⟨hps, hpp, hpl⟩)
      (by simp [bodyLen]) (by simpa using hfuel)]
    simp [bodyField]

/-- Witness for `padding_prefix_field_rejected`: the line
`paddingx int 4` rejected at line 3, and the line `paddingfoo 2`
stored as anonymous padding. -/
theorem padding_prefix_field_rejected_witness :
    startsWithChars "padding".toList "paddingx".toList = true ∧
      parseLayout 5 ("begin".toList :: renderHeader "t".toList "0".toList "4".toList
          "1".toList :: ([].map renderBody
            ++ renderBody (.field "paddingx".toList "int".toList "4".toList 0)
              :: ["end".toList, "endfile".toList]))
        = some (.error (.invalidLayout "padding must have one argument" 3)) ∧
      parseLayout 5 (renderBlock "t".toList "0".toList "2".toList "1".toList
          [.pad "paddingfoo".toList "2".toList 2] ++ ["endfile".toList])
        = some (.ok [(String.mk "t".toList, ⟨1, [⟨0, [("padding", "int", 2)]⟩]⟩)]) :=
  ⟨by decide,
    padding_prefix_field_rejected.1 5 "t".toList "0".toList "4".toList "1".toList []
      "paddingx".toList "int".toList "4".toList ["end".toList, "endfile".toList] 0 4 1
      (by decide) (by decide) (by decide) (by decide) (by decide) (by decide)
      (by decide) (by decide) (by decide) (by decide),
    padding_prefix_field_rejected.2 5 "t".toList "0".toList "2".toList "1".toList
      "paddingfoo".toList "2".toList 2 ["endfile".toList] 0 1
      (by decide) (by decide) (by decide) (by decide) (by decide) (by decide)
      (by decide) (by decide)⟩

/-! ### Claim C8: unknown field types pass the parser, fail the reader -/

/-- Helper for C8: reading a table whose first field has an unknown
type raises the bare `TypeError` (the spec's `UnsupportedType`) on the
first record, whatever the file contents. -/
theorem parseFile_first_field_unknown_type (bo : ByteOrder) (o : Nat) (F : List Nat)
    (tn name ty : String) (len cnt off : Nat) (fs : List Field)
    (hname : name ≠ "padding") (hint : ty ≠ "int") (hstr : ty ≠ "str")
    (hpos : 0 < cnt)
    (hnodup : ("id" :: (tableColumns ⟨cnt, [⟨off, (name, ty, len) :: fs⟩]⟩).map
        (fun c => c.1)).Nodup) :
    parseFile bo o [(tn, ⟨cnt, [⟨off, (name, ty, len) :: fs⟩]⟩)] F []
      = .error .typeError := by
  obtain ⟨c, rfl⟩ : ∃ c, cnt = c + 1 := ⟨cnt - 1, by omega⟩
  have hcol : tableColumns ⟨c + 1, [⟨off, (name, ty, len) :: fs⟩]⟩
      = (name, ty, len) :: fs.filter (fun x => x.1 ≠ "padding") := by
    simp [tableColumns, hname]
  have hnodup2 : (("id" : String) :: name
      :: ((fs.filter (fun x => x.1 ≠ "padding")).map (fun c => c.1))).Nodup := by
    rw [hcol] at hnodup
    simpa using hnodup
  simp only [parseFile, parseFileLoop, parseTable, hcol, createTable, dbLookup,
    tableColumnNames, readSections, List.replicate_succ, readSectionRows, readFields,
    fseek, fread, decodeField, hname, hint, hstr, if_false, List.map_cons]
  simp only [ne_eq] at hnodup2
  rw [if_pos hnodup2]
  simp

/-- C8.  A field line whose type token is neither `int` nor `str` is
accepted by `parse_layout` without error (no type whitelist at parse
time), and the resulting layout makes `parse_file` fail with the
decoder's `TypeError` (the spec's `UnsupportedType`) when the field is
first decoded — for any byte order, file offset and file contents
(here the unknown-typed field leads the section and the table has at
least one record, so it is the first field decoded). -/
theorem unknown_type_parse_then_read (fuel : Nat)
    (tnS offS totS cntS nameS tyS lenS : Chars) (v : Nat)
    (body2 : List BodyLine) (rest : List Chars) (off tot cnt : Nat)
    (htn : cleanTok tnS)
    (hoff : pyIntBase0 offS = some off) (htot : pyIntDec totS = some tot)
    (hcnt : pyIntDec cntS = some cnt)
    (hok : ∀ b ∈ BodyLine.field nameS tyS lenS v :: body2, bodyLineOk b)
    (hsum : ((BodyLine.field nameS tyS lenS v :: body2).map bodyLen).sum = tot)
    (hint : tyS ≠ "int".toList) (hstr : tyS ≠ "str".toList)
    (hpos : 0 < cnt)
    (hnodup : ("id" :: (tableColumns ⟨cnt, [⟨off,
        (BodyLine.field nameS tyS lenS v :: body2).map bodyField⟩]⟩).map
        (fun c => c.1)).Nodup)
    (hfuel : body2.length + 4 ≤ fuel) :
    parseLayout fuel (renderBlock tnS offS totS cntS
        (BodyLine.field nameS tyS lenS v :: body2) ++ "endfile".toList :: rest)
      = some (.ok [(String.mk tnS, ⟨cnt, [⟨off,
          (BodyLine.field nameS tyS lenS v :: body2).map bodyField⟩]⟩)])
    ∧ ∀ (bo : ByteOrder) (o : Nat) (F : List Nat),
        parseFile bo o [(String.mk tnS, ⟨cnt, [⟨off,
            (BodyLine.field nameS tyS lenS v :: body2).map bodyField⟩]⟩)] F []
          = .error .typeError := by
  have hbf : (BodyLine.field nameS tyS lenS v :: body2).map bodyField
      = (String.mk nameS, String.mk tyS, v) :: body2.map bodyField := by
    simp [bodyField]
  have hbl : bodyLineOk (.field nameS tyS lenS v) := hok _ (by simp)
  obtain ⟨-, -, hnp, -⟩ : cleanTok nameS ∧ cleanTok tyS ∧
      startsWithChars "padding".toList nameS = false ∧ pyIntDec lenS = some v := hbl
  have hname : String.mk nameS ≠ "padding" := by
    intro h
    have h2 : nameS = "padding".toList := congrArg String.data h
    rw [h2, startsWithChars_refl] at hnp
    cases hnp
  constructor
  · exact parseLayout_single_block_ok fuel tnS offS totS cntS _ rest off tot cnt
      htn hoff htot hcnt hok hsum (by simpa using hfuel)
  · intro bo o F
    rw [hbf]
    exact parseFile_first_field_unknown_type bo o F (String.mk tnS) (String.mk nameS)
      (String.mk tyS) v cnt off (body2.map bodyField) hname
      (by intro h; exact hint (congrArg String.data h))
      (by intro h; exact hstr (congrArg String.data h))
      hpos (by rw [hbf] at hnodup; exact hnodup)

/-! ### Byte-level codec lemmas -/

theorem fromBytesLE_lt (bs : List Nat) (h : ∀ b ∈ bs, b < 256) :
    fromBytesLE bs < 256 ^ bs.length := by
  induction bs with
  | nil => simp [fromBytesLE]
  | cons b r ih =>
    have hb : b < 256 := h b (by simp)
    have hr := ih (fun x hx => h x (by simp [hx]))
    simp only [fromBytesLE, List.length_cons]
    calc b + 256 * fromBytesLE r < 256 + 256 * fromBytesLE r := by omega
      _ = 256 * (fromBytesLE r + 1) := by ring
      _ ≤ 256 * 256 ^ r.length := Nat.mul_le_mul_left _ (by omega)
      _ = 256 ^ (r.length + 1) := by ring

theorem natToLE_zero (l : Nat) : natToLE l 0 = List.replicate l 0 := by
  induction l with
  | zero => rfl
  | succ n ih => simp [natToLE, ih, List.replicate_succ]

theorem natToLE_fromBytesLE (bs : List Nat) :
    ∀ l, (∀ b ∈ bs, b < 256) → bs.length ≤ l →
      natToLE l (fromBytesLE bs) = bs ++ List.replicate (l - bs.length) 0 := by
  induction bs with
  | nil => intro l _ _; simp [fromBytesLE, natToLE_zero]
  | cons b r ih =>
    intro l h hl
    simp only [List.length_cons] at hl
    obtain ⟨l2, rfl⟩ : ∃ l2, l = l2 + 1 := ⟨l - 1, by omega⟩
    have hb : b < 256 := h b (by simp)
    simp only [natToLE, fromBytesLE]
    have e1 : (b + 256 * fromBytesLE r) % 256 = b := by
      rw [Nat.add_mul_mod_self_left, Nat.mod_eq_of_lt hb]
    have e2 : (b + 256 * fromBytesLE r) / 256 = fromBytesLE r := by
      rw [Nat.add_mul_div_left _ _ (by norm_num), Nat.div_eq_of_lt hb]
      omega
    rw [e1, e2, ih l2 (fun x hx => h x (by simp [hx])) (by omega)]
    rw [List.cons_append, List.length_cons, Nat.succ_sub_succ]

theorem fromBytesLE_append_zeros (bs : List Nat) (k : Nat) :
    fromBytesLE (bs ++ List.replicate k 0) = fromBytesLE bs := by
  induction bs with
  | nil =>
    simp only [List.nil_append]
    induction k with
    | zero => rfl
    | succ n ih => simp [List.replicate_succ, fromBytesLE, ih]
  | cons b r ih => simp [fromBytesLE, ih]

theorem pow256_eq (n : Nat) : (256 : Nat) ^ n = 2 ^ (8 * n) := by
  rw [show (256 : Nat) = 2 ^ 8 from rfl, ← pow_mul]

theorem natToLE_mem_lt (l : Nat) : ∀ (v : Nat), ∀ b ∈ natToLE l v, b < 256 := by
  induction l with
  | zero => intro v b hb; cases hb
  | succ n ih =>
    intro v b hb
    simp only [natToLE, List.mem_cons] at hb
    rcases hb with rfl | hb
    · exact Nat.mod_lt _ (by norm_num)
    · exact ih _ b hb

/-! ### UTF-8 validity lemmas -/

theorem utf8Valid_cons (c : Nat) (r : List Nat) :
    utf8Valid (c :: r) =
      (if c ≤ 0x7F then utf8Valid r
      else if 0xC2 ≤ c ∧ c ≤ 0xDF then
        match r with
        | c1 :: r1 => isCont c1 && utf8Valid r1
        | [] => false
      else if c = 0xE0 then
        match r with
        | c1 :: c2 :: r2 =>
          (decide (0xA0 ≤ c1) && decide (c1 ≤ 0xBF)) && (isCont c2 && utf8Valid r2)
        | _ => false
      else if (0xE1 ≤ c ∧ c ≤ 0xEC) ∨ c = 0xEE ∨ c = 0xEF then
        match r with
        | c1 :: c2 :: r2 => isCont c1 && (isCont c2 && utf8Valid r2)
        | _ => false
      else if c = 0xED then
        match r with
        | c1 :: c2 :: r2 =>
          (decide (0x80 ≤ c1) && decide (c1 ≤ 0x9F)) && (isCont c2 && utf8Valid r2)
        | _ => false
      else if c = 0xF0 then
        match r with
        | c1 :: c2 :: c3 :: r3 =>
          (decide (0x90 ≤ c1) && decide (c1 ≤ 0xBF)) &&
            (isCont c2 && (isCont c3 && utf8Valid r3))
        | _ => false
      else if 0xF1 ≤ c ∧ c ≤ 0xF3 then
        match r with
        | c1 :: c2 :: c3 :: r3 => isCont c1 && (isCont c2 && (isCont c3 && utf8Valid r3))
        | _ => false
      else if c = 0xF4 then
        match r with
        | c1 :: c2 :: c3 :: r3 =>
          (decide (0x80 ≤ c1) && decide (c1 ≤ 0x8F)) &&
            (isCont c2 && (isCont c3 && utf8Valid r3))
        | _ => false
      else false) := by
  cases r with
  | nil => rfl
  | cons c1 r1 =>
    cases r1 with
    | nil => rfl
    | cons c2 r2 =>
      cases r2 with
      | nil => rfl
      | cons c3 r3 => rfl

theorem utf8Valid_replicate_zero (k : Nat) :
    utf8Valid (List.replicate k 0) = true := by
  induction k with
  | zero => rfl
  | succ n ih =>
    rw [List.replicate_succ, utf8Valid_cons, if_pos (by norm_num)]
    exact ih

theorem utf8Valid_append_zeros (k : Nat) :
    ∀ (n : Nat) (s : List Nat), s.length ≤ n → utf8Valid s = true →
      utf8Valid (s ++ List.replicate k 0) = true := by
  intro n
  induction n with
  | zero =>
    intro s hl _
    obtain rfl : s = [] := List.eq_nil_of_length_eq_zero (Nat.le_zero.mp hl)
    simpa using utf8Valid_replicate_zero k
  | succ n ih =>
    intro s hl hv
    cases s with
    | nil => simpa using utf8Valid_replicate_zero k
    | cons c r =>
      have hr : r.length ≤ n := by simp at hl; omega
      rw [List.cons_append]
      rw [utf8Valid_cons] at hv ⊢
      split_ifs at hv ⊢
      · exact ih r hr hv
      · cases r with
        | nil => simp at hv
        | cons c1 r1 =>
          simp only [List.cons_append]
          simp only [Bool.and_eq_true] at hv ⊢
          exact ⟨hv.1, ih r1 (by simp at hr; omega) hv.2⟩
      · cases r with
        | nil => simp at hv
        | cons c1 r1 =>
          cases r1 with
          | nil => simp at hv
          | cons c2 r2 =>
            simp only [List.cons_append]
            simp only [Bool.and_eq_true] at hv ⊢
            exact ⟨hv.1, hv.2.1, ih r2 (by simp at hr; omega) hv.2.2⟩
      · cases r with
        | nil => simp at hv
        | cons c1 r1 =>
          cases r1 with
          | nil => simp at hv
          | cons c2 r2 =>
            simp only [List.cons_append]
            simp only [Bool.and_eq_true] at hv ⊢
            exact ⟨hv.1, hv.2.1, ih r2 (by simp at hr; omega) hv.2.2⟩
      · cases r with
        | nil => simp at hv
        | cons c1 r1 =>
          cases r1 with
          | nil => simp at hv
          | cons c2 r2 =>
            simp only [List.cons_append]
            simp only [Bool.and_eq_true] at hv ⊢
            exact ⟨hv.1, hv.2.1, ih r2 (by simp at hr; omega) hv.2.2⟩
      · cases r with
        | nil => simp at hv
        | cons c1 r1 =>
          cases r1 with
          | nil => simp at hv
          | cons c2 r2 =>
            cases r2 with
            | nil => simp at hv
            | cons c3 r3 =>
              simp only [List.cons_append]
              simp only [Bool.and_eq_true] at hv ⊢
              exact ⟨hv.1, hv.2.1, hv.2.2.1, ih r3 (by simp at hr; omega) hv.2.2.2⟩
      · cases r with
        | nil => simp at hv
        | cons c1 r1 =>
          cases r1 with
          | nil => simp at hv
          | cons c2 r2 =>
            cases r2 with
            | nil => simp at hv
            | cons c3 r3 =>
              simp only [List.cons_append]
              simp only [Bool.and_eq_true] at hv ⊢
              exact ⟨hv.1, hv.2.1, hv.2.2.1, ih r3 (by simp at hr; omega) hv.2.2.2⟩
      · cases r with
        | nil => simp at hv
        | cons c1 r1 =>
          cases r1 with
          | nil => simp at hv
          | cons c2 r2 =>
            cases r2 with
            | nil => simp at hv
            | cons c3 r3 =>
              simp only [List.cons_append]
              simp only [Bool.and_eq_true] at hv ⊢
              exact ⟨hv.1, hv.2.1, hv.2.2.1, ih r3 (by simp at hr; omega) hv.2.2.2⟩

/-! ### Lemmas about `writeAt` and `byteAt` -/

theorem byteAt_writeAt_lt (F : List Nat) (p : Nat) (B : List Nat) (j : Nat)
    (h : j < p) :
    byteAt (writeAt F p B) j = byteAt F j := by
  unfold byteAt writeAt
  rw [List.getD_eq_getElem?_getD, List.getD_eq_getElem?_getD]
  have hTR : (F.take p ++ List.replicate (p - F.length) 0).length = p := by
    simp [List.length_take]
    omega
  by_cases hj : j < F.length
  · rw [List.getElem?_append_left (by simp [List.length_take]; omega),
      List.getElem?_append_left (by rw [hTR]; omega),
      List.getElem?_append_left (by simp [List.length_take]; omega),
      List.getElem?_take, if_pos h]
  · rw [List.getElem?_append_left (by simp [List.length_take]; omega),
      List.getElem?_append_left (by rw [hTR]; omega),
      List.getElem?_append_right (by simp [List.length_take]; omega),
      List.getElem?_replicate, if_pos (by simp [List.length_take]; omega)]
    rw [List.getElem?_eq_none (by omega)]
    rfl

theorem byteAt_writeAt_mid (F : List Nat) (p : Nat) (B : List Nat) (j : Nat)
    (h1 : p ≤ j) (h2 : j < p + B.length) :
    byteAt (writeAt F p B) j = B.getD (j - p) 0 := by
  unfold byteAt writeAt
  rw [List.getD_eq_getElem?_getD, List.getD_eq_getElem?_getD]
  rw [show F.take p ++ List.replicate (p - F.length) 0 ++ B ++ F.drop (p + B.length)
      = (F.take p ++ List.replicate (p - F.length) 0) ++ (B ++ F.drop (p + B.length))
    from by simp]
  have hTR : (F.take p ++ List.replicate (p - F.length) 0).length = p := by
    simp [List.length_take]
    omega
  rw [List.getElem?_append_right (by omega), hTR,
    List.getElem?_append_left (by omega)]

theorem byteAt_writeAt_ge (F : List Nat) (p : Nat) (B : List Nat) (j : Nat)
    (h : p + B.length ≤ j) :
    byteAt (writeAt F p B) j = byteAt F j := by
  unfold byteAt writeAt
  rw [List.getD_eq_getElem?_getD, List.getD_eq_getElem?_getD]
  have hTRB : (F.take p ++ List.replicate (p - F.length) 0 ++ B).length
      = p + B.length := by
    simp [List.length_take]
    omega
  rw [List.getElem?_append_right (by rw [hTRB]; omega), hTRB, List.getElem?_drop]
  congr 2
  omega

theorem writeAt_length (F : List Nat) (p : Nat) (B : List Nat) :
    (writeAt F p B).length = max (p + B.length) F.length := by
  unfold writeAt
  simp [List.length_take]
  omega

theorem writeAt_eq_self (F : List Nat) (p : Nat) (B : List Nat)
    (hlen : p + B.length ≤ F.length)
    (hsame : ∀ x, x < B.length → byteAt F (p + x) = B.getD x 0) :
    writeAt F p B = F := by
  apply List.ext_getElem
  · rw [writeAt_length]; omega
  · intro j hj hj2
    have hj3 : j < max (p + B.length) F.length := by rw [← writeAt_length]; exact hj
    have key : byteAt (writeAt F p B) j = byteAt F j := by
      by_cases hl : j < p
      · exact byteAt_writeAt_lt F p B j hl
      · by_cases hm : j < p + B.length
        · rw [byteAt_writeAt_mid F p B j (by omega) hm]
          rw [← hsame (j - p) (by omega)]
          congr 1
          omega
        · exact byteAt_writeAt_ge F p B j (by omega)
    unfold byteAt at key
    rw [List.getD_eq_getElem?_getD, List.getD_eq_getElem?_getD] at key
    rw [List.getElem?_eq_getElem hj, List.getElem?_eq_getElem hj2] at key
    simpa using key

theorem mem_writeAt (F : List Nat) (p : Nat) (B : List Nat) (b : Nat)
    (h : b ∈ writeAt F p B) : b ∈ F ∨ b = 0 ∨ b ∈ B := by
  unfold writeAt at h
  simp only [List.mem_append] at h
  rcases h with ((h | h) | h) | h
  · exact Or.inl (List.mem_of_mem_take h)
  · exact Or.inr (Or.inl (List.eq_of_mem_replicate h))
  · exact Or.inr (Or.inr h)
  · exact Or.inl (List.mem_of_mem_drop h)

/-- Witness for `unknown_type_parse_then_read`: a `float`-typed field. -/
theorem unknown_type_parse_then_read_witness :
    ("float".toList ≠ "int".toList) ∧
      parseLayout 4 (renderBlock "t".toList "0".toList "4".toList "1".toList
          [BodyLine.field "x".toList "float".toList "4".toList 4]
          ++ "endfile".toList :: [])
        = some (.ok [(String.mk "t".toList, ⟨1, [⟨0,
            [BodyLine.field "x".toList "float".toList "4".toList 4].map bodyField⟩]⟩)]) ∧
      parseFile .little 0 [(String.mk "t".toList, ⟨1, [⟨0,
          [BodyLine.field "x".toList "float".toList "4".toList 4].map bodyField⟩]⟩)]
          [9, 9] []
        = .error .typeError :=
  ⟨by decide,
    (unknown_type_parse_then_read 4 "t".toList "0".toList "4".toList "1".toList
      "x".toList "float".toList "4".toList 4 [] [] 0 4 1 (by decide) (by decide)
      (by decide) (by decide) (by decide) (by decide) (by decide) (by decide)
      (by decide) (by decide) (by decide)).1,
    (unknown_type_parse_then_read 4 "t".toList "0".toList "4".toList "1".toList
      "x".toList "float".toList "4".toList 4 [] [] 0 4 1 (by decide) (by decide)
      (by decide) (by decide) (by decide) (by decide) (by decide) (by decide)
      (by decide) (by decide) (by decide)).2 .little 0 [9, 9]⟩


/-! ### Round trip, phase D: the stateful reader equals the positional reader

Equation lemmas first (the definitions pattern-match on several
arguments, so we pin the cons cases explicitly), then the equivalence:
threading the file handle through `readFields`/`readSectionRows`/
`readSections` computes exactly the positional `rowVals`/`sectionVals`/
`tableVals`, with the final position `posEquiv`-related to the ideal
one. -/

theorem readFields_cons (bo : ByteOrder) (name ty : String) (len : Nat) (fs : List Field)
    (h : FileH) (row : List Value) :
    readFields bo ((name, ty, len) :: fs) h row
      = (if name = "padding" then readFields bo fs (fread h len).2 row
         else
           match decodeField bo ty (fread h len).1 with
           | .error e => .error e
           | .ok v => readFields bo fs (fread h len).2 (row ++ [v])) := rfl

theorem rowVals_cons (bo : ByteOrder) (G : List Nat) (name ty : String) (len : Nat)
    (fs : List Field) (pos : Nat) :
    rowVals bo G ((name, ty, len) :: fs) pos
      = (if name = "padding" then rowVals bo G fs (pos + len)
         else
           match decodeField bo ty ((G.drop pos).take len) with
           | .error e => .error e
           | .ok v =>
             match rowVals bo G fs (pos + len) with
             | .error e => .error e
             | .ok vs => .ok (v :: vs)) := rfl

theorem readSectionRows_cons (bo : ByteOrder) (row : List Value)
    (rest : List (List Value)) (fs : List Field) (h : FileH) :
    readSectionRows bo (row :: rest) fs h
      = (match readFields bo fs h row with
         | .error e => .error e
         | .ok (row1, h1) =>
           match readSectionRows bo rest fs h1 with
           | .error e => .error e
           | .ok (rest1, h2) => .ok (row1 :: rest1, h2)) := rfl

theorem sectionVals_cons (bo : ByteOrder) (G : List Nat) (fs : List Field)
    (row : List Value) (rest : List (List Value)) (pos : Nat) :
    sectionVals bo G fs (row :: rest) pos
      = (match rowVals bo G fs pos with
         | .error e => .error e
         | .ok vs =>
           match sectionVals bo G fs rest (pos + sectionWidth fs) with
           | .error e => .error e
           | .ok rs => .ok ((row ++ vs) :: rs)) := rfl

theorem readSections_cons (bo : ByteOrder) (off : Nat) (s : Section) (ss : List Section)
    (rows : List (List Value)) (h : FileH) :
    readSections bo off (s :: ss) rows h
      = (match readSectionRows bo rows s.data (fseek h (s.offset + off)) with
         | .error e => .error e
         | .ok (rows1, h1) => readSections bo off ss rows1 h1) := rfl

theorem tableVals_cons (bo : ByteOrder) (G : List Nat) (o : Nat) (s : Section)
    (ss : List Section) (rows : List (List Value)) :
    tableVals bo G o (s :: ss) rows
      = (match sectionVals bo G s.data rows (s.offset + o) with
         | .error e => .error e
         | .ok rows1 => tableVals bo G o ss rows1) := rfl

theorem fseek_mk (G : List Nat) (a p : Nat) : fseek ⟨G, a⟩ p = ⟨G, p⟩ := rfl

theorem fwrite_seek_mk (G : List Nat) (a p : Nat) (buf : List Nat) :
    fwrite (fseek ⟨G, a⟩ p) buf = ⟨writeAt G p buf, p + buf.length⟩ := rfl

theorem applyWrites_cons (G : List Nat) (p : Nat) (b : List Nat)
    (ws : List (Nat × List Nat)) :
    applyWrites G ((p, b) :: ws) = applyWrites (writeAt G p b) ws := rfl

theorem sectionWidth_cons (name ty : String) (len : Nat) (fs : List Field) :
    sectionWidth ((name, ty, len) :: fs) = len + sectionWidth fs := by
  simp [sectionWidth]

/-- A read of `n` bytes from a position `posEquiv`-related to the ideal
position `i` returns the span of the file at `i` and lands
`posEquiv`-related to `i + n`. -/
theorem fread_posEquiv (G : List Nat) (a i n : Nat) (h : posEquiv G a i) :
    (fread ⟨G, a⟩ n).1 = (G.drop i).take n ∧
      posEquiv G (fread ⟨G, a⟩ n).2.pos (i + n) := by
  rcases h with rfl | ⟨ha, hi⟩
  · refine ⟨rfl, ?_⟩
    show posEquiv G (a + ((G.drop a).take n).length) (a + n)
    unfold posEquiv
    simp only [List.length_take, List.length_drop]
    omega
  · constructor
    · show (G.drop a).take n = (G.drop i).take n
      rw [List.drop_eq_nil_of_le ha, List.drop_eq_nil_of_le hi]
    · show posEquiv G (a + ((G.drop a).take n).length) (i + n)
      rw [List.drop_eq_nil_of_le ha]
      exact Or.inr ⟨by simpa using ha, Nat.le_trans hi (Nat.le_add_right _ _)⟩

/-- `readFields` from a `posEquiv`-related position computes `rowVals`
at the ideal position, appends the decoded values to the accumulator
row, and ends `posEquiv`-related to `i + sectionWidth fs`. -/
theorem readFields_spec (bo : ByteOrder) (fs : List Field) :
    ∀ (G : List Nat) (a i : Nat) (row : List Value), posEquiv G a i →
      ∃ a2, posEquiv G a2 (i + sectionWidth fs) ∧
        readFields bo fs ⟨G, a⟩ row
          = (match rowVals bo G fs i with
             | .error e => .error e
             | .ok vs => .ok (row ++ vs, (⟨G, a2⟩ : FileH))) := by
  induction fs with
  | nil =>
    intro G a i row h
    refine ⟨a, ?_, ?_⟩
    · simpa [sectionWidth] using h
    · simp [readFields, rowVals]
  | cons f fs ih =>
    obtain ⟨name, ty, len⟩ := f
    intro G a i row h
    obtain ⟨hbs, hpos⟩ := fread_posEquiv G a i len h
    have hfh : (fread ⟨G, a⟩ len).2 = (⟨G, (fread ⟨G, a⟩ len).2.pos⟩ : FileH) := rfl
    rw [readFields_cons, rowVals_cons, sectionWidth_cons]
    by_cases hp : name = "padding"
    · rw [if_pos hp, if_pos hp]
      obtain ⟨a2, ha2, heq⟩ := ih G (fread ⟨G, a⟩ len).2.pos (i + len) row hpos
      refine ⟨a2, ?_, ?_⟩
      · rwa [← Nat.add_assoc]
      · rw [hfh]
        exact heq
    · rw [if_neg hp, if_neg hp, hbs]
      cases hdec : decodeField bo ty ((G.drop i).take len) with
      | error e =>
        exact ⟨i + (len + sectionWidth fs), Or.inl rfl, by simp only [hdec]⟩
      | ok v =>
        obtain ⟨a2, ha2, heq⟩ := ih G (fread ⟨G, a⟩ len).2.pos (i + len) (row ++ [v]) hpos
        refine ⟨a2, by rwa [← Nat.add_assoc], ?_⟩
        simp only [hdec]
        rw [hfh, heq]
        cases hrv : rowVals bo G fs (i + len) with
        | error e => simp only [hrv]
        | ok vs =>
          simp only [hrv]
          simp [List.append_assoc]

/-- `readSectionRows` from a `posEquiv`-related position computes
`sectionVals` at the ideal position. -/
theorem readSectionRows_spec (bo : ByteOrder) (fs : List Field) :
    ∀ (rows : List (List Value)) (G : List Nat) (a p : Nat), posEquiv G a p →
      ∃ a2, readSectionRows bo rows fs ⟨G, a⟩
          = (match sectionVals bo G fs rows p with
             | .error e => .error e
             | .ok rs => .ok (rs, (⟨G, a2⟩ : FileH))) := by
  intro rows
  induction rows with
  | nil => intro G a p _; exact ⟨a, rfl⟩
  | cons row rest ih =>
    intro G a p h
    obtain ⟨a1, ha1, heq1⟩ := readFields_spec bo fs G a p row h
    cases hrv : rowVals bo G fs p with
    | error e =>
      refine ⟨a1, ?_⟩
      rw [readSectionRows_cons, heq1, sectionVals_cons]
      simp only [hrv]
    | ok vs =>
      obtain ⟨a2, heq2⟩ := ih G a1 (p + sectionWidth fs) ha1
      refine ⟨a2, ?_⟩
      rw [readSectionRows_cons, heq1, sectionVals_cons]
      simp only [hrv]
      rw [heq2]
      cases hsv : sectionVals bo G fs rest (p + sectionWidth fs) with
      | error e => simp only [hsv]
      | ok rs => simp only [hsv]

/-- `readSections` computes `tableVals`: every section starts with an
absolute seek, so no `posEquiv` hypothesis is needed. -/
theorem readSections_spec (bo : ByteOrder) (off : Nat) (ss : List Section) :
    ∀ (rows : List (List Value)) (G : List Nat) (a : Nat),
      ∃ a2, readSections bo off ss rows ⟨G, a⟩
          = (match tableVals bo G off ss rows with
             | .error e => .error e
             | .ok rs => .ok (rs, (⟨G, a2⟩ : FileH))) := by
  induction ss with
  | nil => intro rows G a; exact ⟨a, rfl⟩
  | cons s ss ih =>
    intro rows G a
    obtain ⟨a1, heq1⟩ :=
      readSectionRows_spec bo s.data rows G (s.offset + off) (s.offset + off) (Or.inl rfl)
    cases hsv : sectionVals bo G s.data rows (s.offset + off) with
    | error e =>
      refine ⟨a1, ?_⟩
      rw [readSections_cons, fseek_mk, heq1, tableVals_cons]
      simp only [hsv]
    | ok rows1 =>
      obtain ⟨a2, heq2⟩ := ih rows1 G a1
      refine ⟨a2, ?_⟩
      rw [readSections_cons, fseek_mk, heq1, tableVals_cons]
      simp only [hsv]
      exact heq2

/-- `parseTable` computes `parseTablePure`. -/
theorem parseTable_spec (bo : ByteOrder) (off : Nat) (name : String) (t : TableLayout)
    (G : List Nat) (a : Nat) (db : DB) :
    ∃ a2, parseTable bo off name t ⟨G, a⟩ db
        = (match parseTablePure bo off name t G db with
           | .error e => .error e
           | .ok db2 => .ok ((⟨G, a2⟩ : FileH), db2)) := by
  simp only [parseTable, parseTablePure, tableRowsE]
  cases hc : createTable db name ((tableColumns t).map (fun c => c.1)) with
  | error e => exact ⟨a, by simp only [hc]⟩
  | ok db1 =>
    cases hn : tableColumnNames (tableColumns t) with
    | error e => exact ⟨a, by simp only [hc, hn]⟩
    | ok colnames =>
      obtain ⟨a2, heq⟩ := readSections_spec bo off t.sections (List.replicate t.count []) G a
      cases hr : tableVals bo G off t.sections (List.replicate t.count []) with
      | error e =>
        refine ⟨a, ?_⟩
        rw [heq]
        simp only [hc, hn, hr]
      | ok rows =>
        refine ⟨a2, ?_⟩
        rw [heq]
        simp only [hc, hn, hr]

theorem parseFileLoop_cons (bo : ByteOrder) (off : Nat) (name : String) (t : TableLayout)
    (rest : Layout) (h : FileH) (db : DB) :
    parseFileLoop bo off ((name, t) :: rest) h db
      = (match parseTable bo off name t h db with
         | .error e => .error e
         | .ok (h1, db1) => parseFileLoop bo off rest h1 db1) := rfl

theorem parseFilePure_cons (bo : ByteOrder) (off : Nat) (name : String) (t : TableLayout)
    (rest : Layout) (G : List Nat) (db : DB) :
    parseFilePure bo off ((name, t) :: rest) G db
      = (match parseTablePure bo off name t G db with
         | .error e => .error e
         | .ok db1 => parseFilePure bo off rest G db1) := rfl

theorem parseFileLoop_eq_pure (bo : ByteOrder) (off : Nat) (L : Layout) :
    ∀ (G : List Nat) (a : Nat) (db : DB),
      parseFileLoop bo off L ⟨G, a⟩ db = parseFilePure bo off L G db := by
  induction L with
  | nil => intro G a db; rfl
  | cons nt rest ih =>
    obtain ⟨name, t⟩ := nt
    intro G a db
    obtain ⟨a2, heq⟩ := parseTable_spec bo off name t G a db
    rw [parseFileLoop_cons, parseFilePure_cons, heq]
    cases hp : parseTablePure bo off name t G db with
    | error e => simp only [hp]
    | ok db1 =>
      simp only [hp]
      exact ih G a2 db1

/-- The reading pass is seek-free: `parse_file` equals its positional
restatement. -/
theorem parseFile_eq_pure (bo : ByteOrder) (off : Nat) (L : Layout) (F : List Nat)
    (db : DB) : parseFile bo off L F db = parseFilePure bo off L F db :=
  parseFileLoop_eq_pure bo off L F 0 db

theorem writeTable_cons (bo : ByteOrder) (off : Nat) (name : String) (s : Section)
    (ss : List Section) (db : DB) (h : FileH) :
    writeTable bo off name (s :: ss) db h
      = (match writeSection bo off name s db h with
         | .error e => .error e
         | .ok h1 => writeTable bo off name ss db h1) := rfl

theorem writeTableBufs_cons (bo : ByteOrder) (off : Nat) (name : String) (db : DB)
    (s : Section) (ss : List Section) :
    writeTableBufs bo off name db (s :: ss)
      = (match selectColumnNames s with
         | .error e => .error e
         | .ok cols =>
           match selectRows db name cols with
           | .error e => .error e
           | .ok data =>
             match encodeSection bo s.data data with
             | .error e => .error e
             | .ok buf =>
               match writeTableBufs bo off name db ss with
               | .error e => .error e
               | .ok ws => .ok ((s.offset + off, buf) :: ws)) := rfl

/-- `writeTable` applies exactly the buffers `writeTableBufs` lists. -/
theorem writeTable_spec (bo : ByteOrder) (off : Nat) (name : String) (db : DB) :
    ∀ (ss : List Section) (G : List Nat) (a : Nat),
      ∃ a2, writeTable bo off name ss db ⟨G, a⟩
          = (match writeTableBufs bo off name db ss with
             | .error e => .error e
             | .ok ws => .ok (⟨applyWrites G ws, a2⟩ : FileH)) := by
  intro ss
  induction ss with
  | nil => intro G a; exact ⟨a, rfl⟩
  | cons s ss ih =>
    intro G a
    rw [writeTable_cons, writeTableBufs_cons]
    simp only [writeSection]
    cases h1 : selectColumnNames s with
    | error e => exact ⟨a, by simp only [h1]⟩
    | ok cols =>
      cases h2 : selectRows db name cols with
      | error e => exact ⟨a, by simp only [h1, h2]⟩
      | ok data =>
        cases h3 : encodeSection bo s.data data with
        | error e => exact ⟨a, by simp only [h1, h2, h3]⟩
        | ok buf =>
          obtain ⟨a2, heq⟩ :=
            ih (writeAt G (s.offset + off) buf) (s.offset + off + buf.length)
          refine ⟨a2, ?_⟩
          simp only [h1, h2, h3]
          rw [fwrite_seek_mk, heq]
          cases hw : writeTableBufs bo off name db ss with
          | error e => simp only [hw]
          | ok ws =>
            simp only [hw]
            rw [applyWrites_cons]

theorem applyWrites_append (ws1 ws2 : List (Nat × List Nat)) :
    ∀ F, applyWrites F (ws1 ++ ws2) = applyWrites (applyWrites F ws1) ws2 := by
  induction ws1 with
  | nil => intro F; rfl
  | cons pb ws ih =>
    obtain ⟨p, b⟩ := pb
    intro F
    rw [List.cons_append, applyWrites_cons, applyWrites_cons]
    exact ih _

theorem writeBackLoop_cons (bo : ByteOrder) (off : Nat) (name : String) (t : TableLayout)
    (rest : Layout) (db : DB) (h : FileH) :
    writeBackLoop bo off ((name, t) :: rest) db h
      = (match writeTable bo off name t.sections db h with
         | .error e => .error e
         | .ok h1 => writeBackLoop bo off rest db h1) := rfl

theorem writeBufs_cons (bo : ByteOrder) (off : Nat) (db : DB) (name : String)
    (t : TableLayout) (rest : Layout) :
    writeBufs bo off db ((name, t) :: rest)
      = (match writeTableBufs bo off name db t.sections with
         | .error e => .error e
         | .ok ws1 =>
           match writeBufs bo off db rest with
           | .error e => .error e
           | .ok ws2 => .ok (ws1 ++ ws2)) := rfl

theorem writeBackLoop_spec (bo : ByteOrder) (off : Nat) (db : DB) :
    ∀ (L : Layout) (G : List Nat) (a : Nat),
      ∃ a2, writeBackLoop bo off L db ⟨G, a⟩
          = (match writeBufs bo off db L with
             | .error e => .error e
             | .ok ws => .ok (⟨applyWrites G ws, a2⟩ : FileH)) := by
  intro L
  induction L with
  | nil => intro G a; exact ⟨a, rfl⟩
  | cons nt rest ih =>
    obtain ⟨name, t⟩ := nt
    intro G a
    obtain ⟨a1, heq1⟩ := writeTable_spec bo off name db t.sections G a
    cases hw1 : writeTableBufs bo off name db t.sections with
    | error e =>
      refine ⟨a, ?_⟩
      rw [writeBackLoop_cons, heq1, writeBufs_cons]
      simp only [hw1]
    | ok ws1 =>
      obtain ⟨a2, heq2⟩ := ih (applyWrites G ws1) a1
      refine ⟨a2, ?_⟩
      rw [writeBackLoop_cons, heq1, writeBufs_cons]
      simp only [hw1]
      rw [heq2]
      cases hw2 : writeBufs bo off db rest with
      | error e => simp only [hw2]
      | ok ws2 =>
        simp only [hw2]
        rw [applyWrites_append]

/-- The writing pass is the application, in order, of the buffers
`writeBufs` lists. -/
theorem writeBack_eq (bo : ByteOrder) (off : Nat) (L : Layout) (db : DB) (F : List Nat) :
    writeBack bo off L db F
      = (match writeBufs bo off db L with
         | .error e => .error e
         | .ok ws => .ok (applyWrites F ws)) := by
  obtain ⟨a2, heq⟩ := writeBackLoop_spec bo off db L F 0
  unfold writeBack
  rw [heq]
  cases hw : writeBufs bo off db L <;> simp only [hw]


/-! ### Round trip, phase E: folds of `applyWrites` -/

theorem applyWrites_length_ge (ws : List (Nat × List Nat)) :
    ∀ F : List Nat, F.length ≤ (applyWrites F ws).length := by
  induction ws with
  | nil => intro F; exact Nat.le_refl _
  | cons pb ws ih =>
    obtain ⟨p, b⟩ := pb
    intro F
    rw [applyWrites_cons]
    exact Nat.le_trans (by rw [writeAt_length]; omega) (ih (writeAt F p b))

theorem applyWrites_covers (ws : List (Nat × List Nat)) :
    ∀ (F : List Nat) (p : Nat) (b : List Nat), (p, b) ∈ ws →
      p + b.length ≤ (applyWrites F ws).length := by
  induction ws with
  | nil => intro F p b h; cases h
  | cons qc ws ih =>
    obtain ⟨q, c⟩ := qc
    intro F p b h
    rw [applyWrites_cons]
    rcases List.mem_cons.mp h with heq | hmem
    · injection heq with e1 e2
      subst e1; subst e2
      refine Nat.le_trans ?_ (applyWrites_length_ge ws (writeAt F p b))
      rw [writeAt_length]
      omega
    · exact ih (writeAt F q c) p b hmem

/-- A position outside every written range keeps its original byte. -/
theorem applyWrites_out (ws : List (Nat × List Nat)) :
    ∀ (F : List Nat) (j : Nat),
      (∀ pb ∈ ws, j < pb.1 ∨ pb.1 + pb.2.length ≤ j) →
      byteAt (applyWrites F ws) j = byteAt F j := by
  induction ws with
  | nil => intro F j _; rfl
  | cons pb ws ih =>
    obtain ⟨p, b⟩ := pb
    intro F j h
    rw [applyWrites_cons, ih (writeAt F p b) j (fun x hx => h x (List.mem_cons_of_mem _ hx))]
    rcases h (p, b) (List.mem_cons_self _ _) with h1 | h1
    · exact byteAt_writeAt_lt F p b j h1
    · exact byteAt_writeAt_ge F p b j h1

/-- Under pairwise disjoint ranges, a position inside one written
buffer ends up holding that buffer's byte. -/
theorem applyWrites_in (ws : List (Nat × List Nat)) :
    ∀ (F : List Nat) (p : Nat) (b : List Nat) (j : Nat), (p, b) ∈ ws →
      (ws.map (fun pb => (pb.1, pb.2.length))).Pairwise rangesDisjoint →
      p ≤ j → j < p + b.length →
      byteAt (applyWrites F ws) j = b.getD (j - p) 0 := by
  induction ws with
  | nil => intro F p b j h; cases h
  | cons qc ws ih =>
    obtain ⟨q, c⟩ := qc
    intro F p b j hmem hdis h1 h2
    rw [applyWrites_cons]
    rw [List.map_cons] at hdis
    rcases List.mem_cons.mp hmem with heq | hmem2
    · injection heq with e1 e2
      subst e1; subst e2
      rw [applyWrites_out ws (writeAt F p b) j ?_]
      · exact byteAt_writeAt_mid F p b j h1 h2
      · intro pb hpb
        have hd2 := (List.pairwise_cons.mp hdis).1 (pb.1, pb.2.length)
          (List.mem_map_of_mem _ hpb)
        unfold rangesDisjoint at hd2
        simp only at hd2
        omega
    · exact ih (writeAt F q c) p b j hmem2 (List.pairwise_cons.mp hdis).2 h1 h2

/-- Writing buffers that are already present in the file, each inside
its bounds, leaves the file unchanged. -/
theorem applyWrites_self (ws : List (Nat × List Nat)) :
    ∀ G : List Nat,
      (∀ pb ∈ ws, pb.1 + pb.2.length ≤ G.length ∧
        ∀ x, x < pb.2.length → byteAt G (pb.1 + x) = pb.2.getD x 0) →
      applyWrites G ws = G := by
  induction ws with
  | nil => intro G _; rfl
  | cons pb ws ih =>
    obtain ⟨p, b⟩ := pb
    intro G h
    obtain ⟨hl, hs⟩ := h (p, b) (List.mem_cons_self _ _)
    rw [applyWrites_cons, writeAt_eq_self G p b hl hs]
    exact ih G (fun x hx => h x (List.mem_cons_of_mem _ hx))

/-- Every byte of the written file comes from the original file, is a
zero fill, or comes from one of the buffers. -/
theorem applyWrites_mem (ws : List (Nat × List Nat)) :
    ∀ (F : List Nat) (x : Nat), x ∈ applyWrites F ws →
      x ∈ F ∨ x = 0 ∨ ∃ pb ∈ ws, x ∈ pb.2 := by
  induction ws with
  | nil => intro F x h; exact Or.inl h
  | cons pb ws ih =>
    obtain ⟨p, b⟩ := pb
    intro F x h
    rw [applyWrites_cons] at h
    rcases ih (writeAt F p b) x h with h1 | h1 | h1
    · rcases mem_writeAt F p b x h1 with h2 | h2 | h2
      · exact Or.inl h2
      · exact Or.inr (Or.inl h2)
      · exact Or.inr (Or.inr ⟨(p, b), List.mem_cons_self _ _, h2⟩)
    · exact Or.inr (Or.inl h1)
    · obtain ⟨qc, hqc, hx⟩ := h1
      exact Or.inr (Or.inr ⟨qc, List.mem_cons_of_mem _ hqc, hx⟩)


/-! ### Round trip, phase F: byte spans, padding geometry and codecs -/

theorem fromBytesLE_natToLE (l : Nat) : ∀ v : Nat, v < 256 ^ l →
    fromBytesLE (natToLE l v) = v := by
  induction l with
  | zero =>
    intro v hv
    rw [pow_zero] at hv
    simp only [natToLE, fromBytesLE]
    omega
  | succ n ih =>
    intro v hv
    simp only [natToLE, fromBytesLE]
    rw [ih (v / 256) (Nat.div_lt_of_lt_mul (by rw [pow_succ] at hv; omega))]
    omega

theorem relPadding_cons (name ty : String) (len : Nat) (fs : List Field) (q : Nat) :
    relPadding ((name, ty, len) :: fs) q
      = if q < len then decide (name = "padding") else relPadding fs (q - len) := rfl

theorem relPadding_cons_add (name ty : String) (len : Nat) (fs : List Field) (q : Nat) :
    relPadding ((name, ty, len) :: fs) (len + q) = relPadding fs q := by
  rw [relPadding_cons, if_neg (by omega)]
  congr 1
  omega

theorem range_map_width_split {α : Type} (len W : Nat) (g : Nat → α) :
    (List.range (len + W)).map g
      = (List.range len).map g ++ (List.range W).map (fun q => g (len + q)) := by
  rw [List.range_add len W, List.map_append, List.map_map]
  rfl

theorem list_getD_range_map {α : Type} (d : α) (l : List α) :
    (List.range l.length).map (fun k => l.getD k d) = l := by
  apply List.ext_getElem
  · simp
  · intro j h1 h2
    simp only [List.getElem_map, List.getElem_range, List.getD_eq_getElem?_getD,
      List.getElem?_eq_getElem h2, Option.getD_some]

theorem range_map_getD {α : Type} (d : α) (n : Nat) (f : Nat → α) (k : Nat) (h : k < n) :
    ((List.range n).map f).getD k d = f k := by
  rw [List.getD_eq_getElem?_getD, List.getElem?_map, List.getElem?_range h]
  rfl

/-- The span a short read returns, zero-padded to the declared length,
is pointwise `byteAt` of the file. -/
theorem span_pad_eq_map (G : List Nat) (i len : Nat) :
    (G.drop i).take len ++ List.replicate (len - ((G.drop i).take len).length) 0
      = (List.range len).map (fun q => byteAt G (i + q)) := by
  have hsl : ((G.drop i).take len).length = min len (G.length - i) := by
    simp [List.length_take]
  apply List.ext_getElem?
  intro j
  rw [List.getElem?_map]
  by_cases hj : j < len
  · rw [List.getElem?_range hj]
    by_cases hs : j < ((G.drop i).take len).length
    · rw [List.getElem?_append_left hs, List.getElem?_take, if_pos hj, List.getElem?_drop,
        List.getElem?_eq_getElem (show i + j < G.length by omega)]
      show some (G.get ⟨i + j, by omega⟩) = some (byteAt G (i + j))
      unfold byteAt
      rw [List.getD_eq_getElem?_getD, List.getElem?_eq_getElem (show i + j < G.length by omega)]
      rfl
    · rw [List.getElem?_append_right (by omega), List.getElem?_replicate, if_pos (by omega)]
      show some 0 = some (byteAt G (i + j))
      unfold byteAt
      rw [List.getD_eq_getElem?_getD, List.getElem?_eq_none (show G.length ≤ i + j by omega)]
      rfl
  · rw [List.getElem?_eq_none (l := List.range len) (by simp; omega),
      List.getElem?_eq_none (by simp only [List.length_append, List.length_replicate]; omega)]
    rfl

theorem posBuf_length (G : List Nat) (fs : List Field) (p n : Nat) :
    (posBuf G fs p n).length = n * sectionWidth fs := by
  simp [posBuf]

theorem posBuf_getD (G : List Nat) (fs : List Field) (p n x : Nat)
    (h : x < n * sectionWidth fs) :
    (posBuf G fs p n).getD x 0
      = if relPadding fs (x % sectionWidth fs) then 0 else byteAt G (p + x) := by
  unfold posBuf
  exact range_map_getD 0 _ _ x h

/-- One record's worth of the canonical section buffer peels off the
front. -/
theorem posBuf_succ (G : List Nat) (fs : List Field) (p n : Nat) :
    posBuf G fs p (n + 1)
      = (List.range (sectionWidth fs)).map
          (fun q => if relPadding fs q then 0 else byteAt G (p + q))
        ++ posBuf G fs (p + sectionWidth fs) n := by
  unfold posBuf
  rw [show (n + 1) * sectionWidth fs = sectionWidth fs + n * sectionWidth fs by ring]
  rw [range_map_width_split]
  congr 1
  · apply List.map_congr_left
    intro q hq
    rw [List.mem_range] at hq
    rw [Nat.mod_eq_of_lt hq]
  · apply List.map_congr_left
    intro x _
    rw [Nat.add_mod_left, show p + (sectionWidth fs + x) = p + sectionWidth fs + x by ring]

theorem encodeRowFields_cons (bo : ByteOrder) (name ty : String) (len : Nat)
    (fs : List Field) (entry : List Value) (idx : Nat) :
    encodeRowFields bo ((name, ty, len) :: fs) entry idx
      = (if name = "padding" then
           match encodeRowFields bo fs entry idx with
           | .error e => .error e
           | .ok rest => .ok (List.replicate len 0 ++ rest)
         else
           match entry.get? idx with
           | none => .error .indexError
           | some v =>
             match encodeField bo ty v len with
             | .error e => .error e
             | .ok bs =>
               match encodeRowFields bo fs entry (idx + 1) with
               | .error e => .error e
               | .ok rest => .ok (bs ++ rest)) := rfl

theorem encodeSection_cons (bo : ByteOrder) (fields : List Field) (entry : List Value)
    (rest : List (List Value)) :
    encodeSection bo fields (entry :: rest)
      = (match encodeRowFields bo fields entry 0 with
         | .error e => .error e
         | .ok bs =>
           match encodeSection bo fields rest with
           | .error e => .error e
           | .ok rest1 => .ok (bs ++ rest1)) := rfl

theorem encodeField_int (bo : ByteOrder) (n len : Nat) :
    encodeField bo "int" (.vint n) len = intToBytes bo n len := by
  simp [encodeField]

theorem encodeField_str (bo : ByteOrder) (s : List Nat) (len : Nat) :
    encodeField bo "str" (.vstr s) len = .ok (encodeText s len) := by
  simp [encodeField]

/-- A successful record read yields exactly one value per non-padding
field. -/
theorem rowVals_length (bo : ByteOrder) (G : List Nat) :
    ∀ (fs : List Field) (i : Nat) (vs : List Value), rowVals bo G fs i = .ok vs →
      vs.length = (fs.filter (fun c => c.1 ≠ "padding")).length := by
  intro fs
  induction fs with
  | nil =>
    intro i vs h
    simp only [rowVals] at h
    injection h with h2
    subst h2
    rfl
  | cons f fs ih =>
    obtain ⟨name, ty, len⟩ := f
    intro i vs h
    rw [rowVals_cons] at h
    by_cases hp : name = "padding"
    · rw [if_pos hp] at h
      have := ih (i + len) vs h
      simp [List.filter_cons, hp, this]
    · rw [if_neg hp] at h
      cases hdec : decodeField bo ty ((G.drop i).take len) with
      | error e =>
        simp only [hdec] at h
        exact (Except.noConfusion h)
      | ok v =>
        simp only [hdec] at h
        cases hrv : rowVals bo G fs (i + len) with
        | error e =>
          simp only [hrv] at h
          exact (Except.noConfusion h)
        | ok vs2 =>
          simp only [hrv] at h
          injection h with h2
          subst h2
          have := ih (i + len) vs2 hrv
          simp [List.filter_cons, hp, this]


/-! ### Round trip, phase G: the write pass reproduces the canonical buffer

Encoding a row that was decoded from the file emits, field by field,
exactly the file's own bytes (zero-extended where the read was short,
which only happens at EOF where `byteAt` is 0 anyway) with zeros over
padding fields. -/

theorem encodeRow_of_rowVals (G : List Nat) (hG : ∀ b ∈ G, b < 256) :
    ∀ (fs : List Field) (i idx : Nat) (vs : List Value) (entry : List Value),
      rowVals .little G fs i = .ok vs →
      entry.drop idx = vs →
      encodeRowFields .little fs entry idx
        = .ok ((List.range (sectionWidth fs)).map (fun q =>
            if relPadding fs q then 0 else byteAt G (i + q))) := by
  intro fs
  induction fs with
  | nil =>
    intro i idx vs entry _ _
    simp [encodeRowFields, sectionWidth]
  | cons f fs ih =>
    obtain ⟨name, ty, len⟩ := f
    intro i idx vs entry hrv hdrop
    rw [rowVals_cons] at hrv
    have hsplit : (List.range (sectionWidth ((name, ty, len) :: fs))).map (fun q =>
          if relPadding ((name, ty, len) :: fs) q then 0 else byteAt G (i + q))
        = ((List.range len).map (fun q =>
            if (name = "padding" : Bool) then 0 else byteAt G (i + q)))
          ++ ((List.range (sectionWidth fs)).map (fun q =>
            if relPadding fs q then 0 else byteAt G (i + len + q))) := by
      rw [sectionWidth_cons, range_map_width_split]
      congr 1
      · apply List.map_congr_left
        intro q hq
        rw [List.mem_range] at hq
        rw [relPadding_cons, if_pos hq]
      · apply List.map_congr_left
        intro q _
        rw [relPadding_cons_add, show i + (len + q) = i + len + q by ring]
    rw [encodeRowFields_cons, hsplit]
    by_cases hp : name = "padding"
    · rw [if_pos hp] at hrv ⊢
      rw [ih (i + len) idx vs entry hrv hdrop]
      have hzero : (List.range len).map (fun q =>
            if (name = "padding" : Bool) then 0 else byteAt G (i + q))
          = List.replicate len 0 := by
        rw [show (fun q => if (name = "padding" : Bool) then 0 else byteAt G (i + q))
            = (fun _ => (0 : Nat)) from by funext q; simp [hp]]
        rw [List.map_const', List.length_range]
      rw [hzero]
    · rw [if_neg hp] at hrv ⊢
      cases hdec : decodeField .little ty ((G.drop i).take len) with
      | error e =>
        simp only [hdec] at hrv
        exact (Except.noConfusion hrv)
      | ok v =>
        simp only [hdec] at hrv
        cases hrv2 : rowVals .little G fs (i + len) with
        | error e =>
          simp only [hrv2] at hrv
          exact (Except.noConfusion hrv)
        | ok vs2 =>
          simp only [hrv2] at hrv
          injection hrv with hvs
          subst hvs
          have hget : entry.get? idx = some v := by
            have h0 : (entry.drop idx)[0]? = some v := by
              rw [hdrop, List.getElem?_cons_zero]
            rw [List.getElem?_drop, Nat.add_zero] at h0
            rw [List.get?_eq_getElem?]
            exact h0
          have hdrop2 : entry.drop (idx + 1) = vs2 := by
            rw [← List.drop_drop, hdrop]
            rfl
          simp only [hget]
          have hspanb : ∀ b ∈ (G.drop i).take len, b < 256 :=
            fun b hb => hG b (List.mem_of_mem_drop (List.mem_of_mem_take hb))
          have hspanlen : ((G.drop i).take len).length ≤ len := by
            simp only [List.length_take]
            omega
          have hchunk : (List.range len).map (fun q =>
                if (name = "padding" : Bool) then 0 else byteAt G (i + q))
              = (List.range len).map (fun q => byteAt G (i + q)) := by
            apply List.map_congr_left
            intro q _
            simp [hp]
          rw [hchunk]
          by_cases hty : ty = "int"
          · subst hty
            rw [decodeField, if_pos rfl] at hdec
            injection hdec with hv
            subst hv
            have hlt : fromBytesLE ((G.drop i).take len) < 2 ^ (8 * len) := by
              calc fromBytesLE ((G.drop i).take len)
                  < 256 ^ ((G.drop i).take len).length := fromBytesLE_lt _ hspanb
                _ ≤ 256 ^ len := Nat.pow_le_pow_right (by norm_num) hspanlen
                _ = 2 ^ (8 * len) := pow256_eq len
            rw [encodeField_int]
            simp only [intFromBytes]
            rw [intToBytes, if_pos hlt]
            rw [ih (i + len) (idx + 1) vs2 entry hrv2 hdrop2]
            rw [natToLE_fromBytesLE _ len hspanb hspanlen, span_pad_eq_map]
          · by_cases hty2 : ty = "str"
            · subst hty2
              rw [decodeField, if_neg (by decide), if_pos rfl] at hdec
              cases hut : utf8Valid ((G.drop i).take len) with
              | false => simp [decodeText, hut] at hdec
              | true =>
                simp only [decodeText, hut, if_true] at hdec
                injection hdec with hv
                subst hv
                rw [encodeField_str]
                rw [ih (i + len) (idx + 1) vs2 entry hrv2 hdrop2]
                rw [show encodeText ((G.drop i).take len) len
                    = (G.drop i).take len
                      ++ List.replicate (len - ((G.drop i).take len).length) 0 from rfl,
                  span_pad_eq_map]
            · rw [decodeField, if_neg hty, if_neg hty2] at hdec
              exact (Except.noConfusion hdec)

/-- Encoding every fetched row of a section reproduces the canonical
positional buffer of the whole section occurrence. -/
theorem encodeSection_of_rowVals (G : List Nat) (hG : ∀ b ∈ G, b < 256) (fs : List Field) :
    ∀ (entries : List (List Value)) (p : Nat),
      (∀ k, k < entries.length → ∃ vs,
        rowVals .little G fs (p + k * sectionWidth fs) = .ok vs ∧
          entries.get? k = some vs) →
      encodeSection .little fs entries = .ok (posBuf G fs p entries.length) := by
  intro entries
  induction entries with
  | nil =>
    intro p _
    simp [encodeSection, posBuf]
  | cons entry rest ih =>
    intro p h
    obtain ⟨vs0, hrv0, hget0⟩ := h 0 (by simp)
    have hentry : entry = vs0 := by
      rw [show (entry :: rest).get? 0 = some entry from rfl] at hget0
      injection hget0
    rw [encodeSection_cons]
    rw [encodeRow_of_rowVals G hG fs (p + 0 * sectionWidth fs) 0 vs0 entry hrv0
      (by rw [List.drop_zero]; exact hentry)]
    have hrest : ∀ k, k < rest.length → ∃ vs,
        rowVals .little G fs (p + sectionWidth fs + k * sectionWidth fs) = .ok vs ∧
          rest.get? k = some vs := by
      intro k hk
      obtain ⟨vs, hrv, hget⟩ := h (k + 1) (by simp; omega)
      refine ⟨vs, ?_, ?_⟩
      · rw [show p + sectionWidth fs + k * sectionWidth fs
            = p + (k + 1) * sectionWidth fs by ring]
        exact hrv
      · rw [show (entry :: rest).get? (k + 1) = rest.get? k from rfl] at hget
        exact hget
    rw [ih (p + sectionWidth fs) hrest]
    rw [show (entry :: rest).length = rest.length + 1 from rfl, posBuf_succ]
    rw [show p + 0 * sectionWidth fs = p by ring]


/-! ### Round trip, phase H: structure of a successful read pass -/

/-- A successful section read appends, to each accumulator row, the
values of the record at its slot's position; and every record's read
succeeded. -/
theorem sectionVals_ok (bo : ByteOrder) (G : List Nat) (fs : List Field) :
    ∀ (rows : List (List Value)) (p : Nat) (rs : List (List Value)),
      sectionVals bo G fs rows p = .ok rs →
      rs = (List.range rows.length).map (fun k =>
          rows.getD k [] ++ rowValsD bo G fs (p + k * sectionWidth fs)) ∧
      ∀ k, k < rows.length → ∃ vs, rowVals bo G fs (p + k * sectionWidth fs) = .ok vs := by
  intro rows
  induction rows with
  | nil =>
    intro p rs h
    simp only [sectionVals] at h
    injection h with h2
    subst h2
    exact ⟨rfl, by intro k hk; cases hk⟩
  | cons row rest ih =>
    intro p rs h
    rw [sectionVals_cons] at h
    cases hrv : rowVals bo G fs p with
    | error e =>
      simp only [hrv] at h
      exact (Except.noConfusion h)
    | ok vs =>
      simp only [hrv] at h
      cases hsv : sectionVals bo G fs rest (p + sectionWidth fs) with
      | error e =>
        simp only [hsv] at h
        exact (Except.noConfusion h)
      | ok rs2 =>
        simp only [hsv] at h
        injection h with h2
        subst h2
        obtain ⟨hshape, hok⟩ := ih (p + sectionWidth fs) rs2 hsv
        constructor
        · rw [hshape]
          rw [show (row :: rest).length = rest.length + 1 from rfl,
            List.range_succ_eq_map, List.map_cons, List.map_map]
          congr 1
          · rw [show (row :: rest).getD 0 [] = row from rfl]
            rw [show p + 0 * sectionWidth fs = p by ring]
            rw [show rowValsD bo G fs p = vs from by rw [rowValsD, hrv]]
          · apply List.map_congr_left
            intro k _
            show rest.getD k [] ++ rowValsD bo G fs (p + sectionWidth fs + k * sectionWidth fs)
              = (row :: rest).getD (k + 1) []
                ++ rowValsD bo G fs (p + (k + 1) * sectionWidth fs)
            rw [show (row :: rest).getD (k + 1) [] = rest.getD k [] from rfl,
              show p + (k + 1) * sectionWidth fs
                = p + sectionWidth fs + k * sectionWidth fs by ring]
        · intro k hk
          cases k with
          | zero => exact ⟨vs, by rw [show p + 0 * sectionWidth fs = p by ring]; exact hrv⟩
          | succ k2 =>
            obtain ⟨vs2, hvs2⟩ := hok k2 (by simp at hk; omega)
            exact ⟨vs2, by rw [show p + (k2 + 1) * sectionWidth fs
              = p + sectionWidth fs + k2 * sectionWidth fs by ring]; exact hvs2⟩

/-- Conversely, a section read succeeds as soon as every record's read
succeeds. -/
theorem sectionVals_ok_of (bo : ByteOrder) (G : List Nat) (fs : List Field) :
    ∀ (rows : List (List Value)) (p : Nat),
      (∀ k, k < rows.length → ∃ vs, rowVals bo G fs (p + k * sectionWidth fs) = .ok vs) →
      ∃ rs, sectionVals bo G fs rows p = .ok rs := by
  intro rows
  induction rows with
  | nil => intro p _; exact ⟨[], rfl⟩
  | cons row rest ih =>
    intro p h
    obtain ⟨vs, hvs⟩ := h 0 (by simp)
    rw [show p + 0 * sectionWidth fs = p by ring] at hvs
    have hrest : ∀ k, k < rest.length →
        ∃ vs2, rowVals bo G fs (p + sectionWidth fs + k * sectionWidth fs) = .ok vs2 := by
      intro k hk
      obtain ⟨vs2, hvs2⟩ := h (k + 1) (by simp; omega)
      exact ⟨vs2, by rw [show p + sectionWidth fs + k * sectionWidth fs
        = p + (k + 1) * sectionWidth fs by ring]; exact hvs2⟩
    obtain ⟨rs2, hrs2⟩ := ih (p + sectionWidth fs) hrest
    refine ⟨(row ++ vs) :: rs2, ?_⟩
    rw [sectionVals_cons]
    simp only [hvs, hrs2]

/-- A successful table read produces, for each record slot, the
concatenation over the sections of that record's values; and every
section record read succeeded. -/
theorem tableVals_ok (bo : ByteOrder) (G : List Nat) (o : Nat) :
    ∀ (ss : List Section) (rows rs : List (List Value)),
      tableVals bo G o ss rows = .ok rs →
      rs = (List.range rows.length).map (fun k =>
          rows.getD k []
            ++ (ss.map (fun s => rowValsD bo G s.data (recordStart s o k))).flatten) ∧
      ∀ s ∈ ss, ∀ k, k < rows.length →
        ∃ vs, rowVals bo G s.data (recordStart s o k) = .ok vs := by
  intro ss
  induction ss with
  | nil =>
    intro rows rs h
    simp only [tableVals] at h
    injection h with h2
    subst h2
    constructor
    · rw [show (fun k => rows.getD k []
            ++ ((List.map (fun s => rowValsD bo G s.data (recordStart s o k))
              ([] : List Section)).flatten))
          = (fun k => rows.getD k []) from by funext k; simp]
      exact (list_getD_range_map [] rows).symm
    · intro s hs
      cases hs
  | cons s ss ih =>
    intro rows rs h
    rw [tableVals_cons] at h
    cases hsv : sectionVals bo G s.data rows (s.offset + o) with
    | error e =>
      simp only [hsv] at h
      exact (Except.noConfusion h)
    | ok rows1 =>
      simp only [hsv] at h
      obtain ⟨hshape1, hok1⟩ := sectionVals_ok bo G s.data rows (s.offset + o) rows1 hsv
      obtain ⟨hshape2, hok2⟩ := ih rows1 rs h
      have hlen1 : rows1.length = rows.length := by
        rw [hshape1]
        simp
      constructor
      · rw [hshape2, hlen1]
        apply List.map_congr_left
        intro k hk
        rw [List.mem_range] at hk
        have hr1 : rows1.getD k []
            = rows.getD k [] ++ rowValsD bo G s.data (s.offset + o + k * sectionWidth s.data) := by
          rw [hshape1]
          exact range_map_getD [] rows.length _ k hk
        rw [hr1, List.map_cons, List.flatten_cons, List.append_assoc]
        rfl
      · intro s2 hs2 k hk
        rcases List.mem_cons.mp hs2 with rfl | hs2b
        · obtain ⟨vs, hvs⟩ := hok1 k hk
          exact ⟨vs, hvs⟩
        · exact hok2 s2 hs2b k (by rw [hlen1]; exact hk)

/-- Conversely, a table read succeeds as soon as every record read of
every section succeeds. -/
theorem tableVals_ok_of (bo : ByteOrder) (G : List Nat) (o : Nat) :
    ∀ (ss : List Section) (rows : List (List Value)),
      (∀ s ∈ ss, ∀ k, k < rows.length →
        ∃ vs, rowVals bo G s.data (recordStart s o k) = .ok vs) →
      ∃ rs, tableVals bo G o ss rows = .ok rs := by
  intro ss
  induction ss with
  | nil => intro rows _; exact ⟨rows, rfl⟩
  | cons s ss ih =>
    intro rows h
    obtain ⟨rows1, hrows1⟩ := sectionVals_ok_of bo G s.data rows (s.offset + o)
      (fun k hk => h s (List.mem_cons_self _ _) k hk)
    have hlen1 : rows1.length = rows.length := by
      rw [(sectionVals_ok bo G s.data rows (s.offset + o) rows1 hrows1).1]
      simp
    obtain ⟨rs, hrs⟩ := ih rows1 (fun s2 hs2 k hk =>
      h s2 (List.mem_cons_of_mem _ hs2) k (by rw [hlen1] at hk; exact hk))
    refine ⟨rs, ?_⟩
    rw [tableVals_cons]
    simp only [hrows1]
    exact hrs


/-- A successful full table read yields the canonical rows. -/
theorem tableRowsE_ok (bo : ByteOrder) (G : List Nat) (off : Nat) (t : TableLayout)
    (rows : List (List Value)) (h : tableRowsE bo G off t = .ok rows) :
    rows = tableRowsC bo G off t ∧
    ∀ s ∈ t.sections, ∀ k, k < t.count →
      ∃ vs, rowVals bo G s.data (recordStart s off k) = .ok vs := by
  obtain ⟨hshape, hok⟩ := tableVals_ok bo G off t.sections (List.replicate t.count []) rows h
  constructor
  · rw [hshape, tableRowsC]
    rw [List.length_replicate]
    apply List.map_congr_left
    intro k hk
    rw [List.mem_range] at hk
    rw [List.getD_eq_getElem?_getD, List.getElem?_replicate, if_pos hk]
    rfl
  · intro s hs k hk
    exact hok s hs k (by rw [List.length_replicate]; exact hk)

/-- Conversely, the full table read succeeds (with the canonical rows)
as soon as every record read succeeds. -/
theorem tableRowsE_ok_of (bo : ByteOrder) (G : List Nat) (off : Nat) (t : TableLayout)
    (h : ∀ s ∈ t.sections, ∀ k, k < t.count →
      ∃ vs, rowVals bo G s.data (recordStart s off k) = .ok vs) :
    tableRowsE bo G off t = .ok (tableRowsC bo G off t) := by
  obtain ⟨rs, hrs⟩ := tableVals_ok_of bo G off t.sections (List.replicate t.count [])
    (fun s hs k hk => h s hs k (by rw [List.length_replicate] at hk; exact hk))
  have h2 := (tableRowsE_ok bo G off t rs hrs).1
  unfold tableRowsE
  rw [hrs, h2]

/-! ### Round trip, phase I: the store across the two passes -/

theorem dbLookup_append_singleton (name n2 : String) (T : DTable) :
    ∀ db : DB, dbLookup (db ++ [(name, T)]) n2
      = (match dbLookup db n2 with
         | some t => some t
         | none => if name = n2 then some T else none) := by
  intro db
  induction db with
  | nil => rfl
  | cons p rest ih =>
    obtain ⟨n, t⟩ := p
    show (if n = n2 then some t else dbLookup (rest ++ [(name, T)]) n2) = _
    by_cases hn : n = n2
    · rw [if_pos hn]
      show _ = (match (if n = n2 then some t else dbLookup rest n2) with
        | some t => some t | none => if name = n2 then some T else none)
      rw [if_pos hn]
    · rw [if_neg hn, ih]
      show _ = (match (if n = n2 then some t else dbLookup rest n2) with
        | some t => some t | none => if name = n2 then some T else none)
      rw [if_neg hn]

/-- Inserting into a freshly created table appends its rows. -/
theorem insertRows_append_fresh (name : String) (T : DTable) (rows : List (List Value)) :
    ∀ db : DB, dbLookup db name = none →
      insertRows (db ++ [(name, T)]) name T.cols rows
        = .ok (db ++ [(name, ⟨T.cols, T.rows ++ rows⟩)]) := by
  intro db
  induction db with
  | nil =>
    intro _
    show insertRows [(name, T)] name T.cols rows = _
    rw [insertRows]
    rw [if_pos rfl, if_pos rfl]
    rfl
  | cons p rest ih =>
    obtain ⟨n, t⟩ := p
    intro hnone
    rw [show dbLookup ((n, t) :: rest) name
        = (if n = name then some t else dbLookup rest name) from rfl] at hnone
    by_cases hn : n = name
    · rw [if_pos hn] at hnone
      exact (Option.noConfusion hnone)
    · rw [if_neg hn] at hnone
      show insertRows ((n, t) :: (rest ++ [(name, T)])) name T.cols rows = _
      rw [insertRows]
      rw [if_neg hn, ih hnone]
      rfl

/-- Looking a table up in the canonical store. -/
theorem dbLookup_dbC (bo : ByteOrder) (G : List Nat) (off : Nat) :
    ∀ (L : Layout) (name : String) (t : TableLayout),
      (L.map Prod.fst).Nodup → (name, t) ∈ L →
      dbLookup (dbC bo G off L) name
        = some ⟨(tableColumns t).map (fun c => c.1), tableRowsC bo G off t⟩ := by
  intro L
  induction L with
  | nil => intro name t _ h; cases h
  | cons nt rest ih =>
    obtain ⟨n2, t2⟩ := nt
    intro name t hnodup hmem
    rw [List.map_cons] at hnodup
    obtain ⟨hnotin, hnodup2⟩ := List.nodup_cons.mp hnodup
    show (if n2 = name then some _ else dbLookup (dbC bo G off rest) name) = _
    rcases List.mem_cons.mp hmem with heq | hmem2
    · injection heq with e1 e2
      subst e1
      subst e2
      rw [if_pos rfl]
    · by_cases hn : n2 = name
      · exfalso
        apply hnotin
        rw [hn]
        exact List.mem_map.mpr ⟨(name, t), hmem2, rfl⟩
      · rw [if_neg hn]
        exact ih name t hnodup2 hmem2

/-- Side conditions a successful per-table read pass guarantees. -/
theorem parseTablePure_facts (bo : ByteOrder) (off : Nat) (name : String)
    (t : TableLayout) (G : List Nat) (db db2 : DB)
    (h : parseTablePure bo off name t G db = .ok db2)
    (hnone : dbLookup db name = none) :
    tableColumns t ≠ [] ∧
    ("id" :: (tableColumns t).map (fun c => c.1)).Nodup ∧
    ∀ s ∈ t.sections, ∀ k, k < t.count →
      ∃ vs, rowVals bo G s.data (recordStart s off k) = .ok vs := by
  rw [parseTablePure] at h
  simp only [createTable, hnone] at h
  by_cases hne : (tableColumns t).map (fun c => c.1) = []
  · rw [if_pos hne] at h
    exact (Except.noConfusion h)
  · rw [if_neg hne] at h
    by_cases hnd : ("id" :: (tableColumns t).map (fun c => c.1)).Nodup
    · rw [if_pos hnd] at h
      refine ⟨fun hc => hne (by rw [hc]; rfl), hnd, ?_⟩
      cases hr : tableRowsE bo G off t with
      | error e =>
        rw [tableColumnNames] at h
        rw [if_neg (fun hc => hne (by rw [hc]; rfl))] at h
        simp only [hr] at h
        exact (Except.noConfusion h)
      | ok rows => exact (tableRowsE_ok bo G off t rows hr).2
    · rw [if_neg hnd] at h
      exact (Except.noConfusion h)

/-- Value of a successful per-table read pass. -/
theorem parseTablePure_eval (bo : ByteOrder) (off : Nat) (name : String)
    (t : TableLayout) (G : List Nat) (db : DB)
    (hnone : dbLookup db name = none)
    (hne : tableColumns t ≠ [])
    (hnd : ("id" :: (tableColumns t).map (fun c => c.1)).Nodup)
    (hok : ∀ s ∈ t.sections, ∀ k, k < t.count →
      ∃ vs, rowVals bo G s.data (recordStart s off k) = .ok vs) :
    parseTablePure bo off name t G db
      = .ok (db ++ [(name, ⟨(tableColumns t).map (fun c => c.1), tableRowsC bo G off t⟩)]) := by
  have hmapne : (tableColumns t).map (fun c => c.1) ≠ [] :=
    fun hc => hne (List.map_eq_nil_iff.mp hc)
  have hct : createTable db name ((tableColumns t).map (fun c => c.1))
      = .ok (db ++ [(name, ⟨(tableColumns t).map (fun c => c.1), []⟩)]) := by
    simp only [createTable, hnone]
    rw [if_neg hmapne, if_pos hnd]
  have hcn : tableColumnNames (tableColumns t)
      = .ok ((tableColumns t).map (fun c => c.1)) := by
    rw [tableColumnNames, if_neg hne]
  have h2 : insertRows (db ++ [(name, ⟨(tableColumns t).map (fun c => c.1), []⟩)]) name
      ((tableColumns t).map (fun c => c.1)) (tableRowsC bo G off t)
      = .ok (db ++ [(name, ⟨(tableColumns t).map (fun c => c.1),
          [] ++ tableRowsC bo G off t⟩)]) :=
    insertRows_append_fresh name ⟨(tableColumns t).map (fun c => c.1), []⟩
      (tableRowsC bo G off t) db hnone
  rw [parseTablePure]
  simp only [hct, hcn, tableRowsE_ok_of bo G off t hok]
  rw [h2, List.nil_append]

/-- Side conditions a successful whole read pass guarantees, for every
table. -/
theorem parseFilePure_facts (bo : ByteOrder) (off : Nat) :
    ∀ (L : Layout) (pre db2 : DB) (G : List Nat),
      parseFilePure bo off L G pre = .ok db2 →
      (∀ nt ∈ L, dbLookup pre nt.1 = none) →
      (L.map Prod.fst).Nodup →
      ∀ nt ∈ L, tableColumns nt.2 ≠ [] ∧
        ("id" :: (tableColumns nt.2).map (fun c => c.1)).Nodup ∧
        ∀ s ∈ nt.2.sections, ∀ k, k < nt.2.count →
          ∃ vs, rowVals bo G s.data (recordStart s off k) = .ok vs := by
  intro L
  induction L with
  | nil => intro pre db2 G _ _ _ nt hnt; cases hnt
  | cons nt0 rest ih =>
    obtain ⟨name, t⟩ := nt0
    intro pre db2 G h hnone hnodup
    rw [parseFilePure_cons] at h
    cases hp : parseTablePure bo off name t G pre with
    | error e =>
      simp only [hp] at h
      exact (Except.noConfusion h)
    | ok db1 =>
      simp only [hp] at h
      have hnone0 : dbLookup pre name = none := hnone (name, t) (List.mem_cons_self _ _)
      have hfacts := parseTablePure_facts bo off name t G pre db1 hp hnone0
      rw [List.map_cons] at hnodup
      obtain ⟨hnotin, hnodup2⟩ := List.nodup_cons.mp hnodup
      have hdb1 : db1 = pre
          ++ [(name, ⟨(tableColumns t).map (fun c => c.1), tableRowsC bo G off t⟩)] := by
        have := parseTablePure_eval bo off name t G pre hnone0 hfacts.1 hfacts.2.1 hfacts.2.2
        rw [this] at hp
        injection hp with h2
        exact h2.symm
      have hnone1 : ∀ nt ∈ rest, dbLookup db1 nt.1 = none := by
        intro nt hnt
        rw [hdb1, dbLookup_append_singleton]
        rw [hnone nt (List.mem_cons_of_mem _ hnt)]
        rw [if_neg ?_]
        intro hc
        apply hnotin
        rw [hc]
        exact List.mem_map.mpr ⟨nt, hnt, rfl⟩
      intro nt hnt
      rcases List.mem_cons.mp hnt with heq | hmem2
      · subst heq
        exact hfacts
      · exact ih db1 db2 G h hnone1 hnodup2 nt hmem2

/-- Value of a successful whole read pass: the canonical store. -/
theorem parseFilePure_eval (bo : ByteOrder) (off : Nat) :
    ∀ (L : Layout) (pre : DB) (G : List Nat),
      (∀ nt ∈ L, dbLookup pre nt.1 = none) →
      (L.map Prod.fst).Nodup →
      (∀ nt ∈ L, tableColumns nt.2 ≠ [] ∧
        ("id" :: (tableColumns nt.2).map (fun c => c.1)).Nodup ∧
        ∀ s ∈ nt.2.sections, ∀ k, k < nt.2.count →
          ∃ vs, rowVals bo G s.data (recordStart s off k) = .ok vs) →
      parseFilePure bo off L G pre = .ok (pre ++ dbC bo G off L) := by
  intro L
  induction L with
  | nil =>
    intro pre G _ _ _
    show Except.ok pre = _
    rw [show dbC bo G off [] = [] from rfl, List.append_nil]
  | cons nt0 rest ih =>
    obtain ⟨name, t⟩ := nt0
    intro pre G hnone hnodup hfacts
    rw [parseFilePure_cons]
    have hnone0 : dbLookup pre name = none := hnone (name, t) (List.mem_cons_self _ _)
    obtain ⟨hne, hnd, hok⟩ := hfacts (name, t) (List.mem_cons_self _ _)
    simp only [parseTablePure_eval bo off name t G pre hnone0 hne hnd hok]
    rw [List.map_cons] at hnodup
    obtain ⟨hnotin, hnodup2⟩ := List.nodup_cons.mp hnodup
    have hnone1 : ∀ nt ∈ rest, dbLookup (pre
        ++ [(name, ⟨(tableColumns t).map (fun c => c.1), tableRowsC bo G off t⟩)]) nt.1
          = none := by
      intro nt hnt
      rw [dbLookup_append_singleton, hnone nt (List.mem_cons_of_mem _ hnt)]
      rw [if_neg ?_]
      intro hc
      apply hnotin
      rw [hc]
      exact List.mem_map.mpr ⟨nt, hnt, rfl⟩
    rw [ih _ G hnone1 hnodup2 (fun nt hnt => hfacts nt (List.mem_cons_of_mem _ hnt))]
    rw [show dbC bo G off ((name, t) :: rest)
        = (name, ⟨(tableColumns t).map (fun c => c.1), tableRowsC bo G off t⟩)
          :: dbC bo G off rest from rfl]
    rw [List.append_assoc]
    rfl


/-! ### Round trip, phase J: resolution of a section's SELECT

The column list of a table is the concatenation of its sections' column
blocks; with distinct names, `findIdx?` resolves a block to the
consecutive indices starting at the length of the preceding blocks, and
the projection of a row through those indices is the row's middle
slice. -/

theorem findIdx_shift (p : String → Bool) : ∀ (pre l : List String),
    (∀ x ∈ pre, p x = false) →
    (pre ++ l).findIdx? p = (l.findIdx? p).map (fun i => pre.length + i) := by
  intro pre
  induction pre with
  | nil =>
    intro l _
    show l.findIdx? p = _
    cases h : l.findIdx? p with
    | none => rfl
    | some i =>
      show some i = some (0 + i)
      rw [Nat.zero_add]
  | cons x pre ih =>
    intro l h
    have hx : p x = false := h x (List.mem_cons_self _ _)
    rw [List.cons_append, List.findIdx?_cons, hx, if_neg (by simp)]
    rw [List.findIdx?_succ, ih l (fun y hy => h y (List.mem_cons_of_mem _ hy))]
    cases hl : l.findIdx? p with
    | none => rfl
    | some i =>
      show some (pre.length + i + 1) = some ((x :: pre).length + i)
      rw [List.length_cons]
      congr 1
      omega

theorem mapM_findIdx_block : ∀ (block pre post : List String),
    (pre ++ block ++ post).Nodup →
    block.mapM (fun c => (pre ++ block ++ post).findIdx? (· = c))
      = some ((List.range block.length).map (fun m => pre.length + m)) := by
  intro block
  induction block with
  | nil => intro pre post _; rfl
  | cons c block ih =>
    intro pre post hnodup
    have hassoc : pre ++ (c :: block) ++ post = pre ++ ((c :: block) ++ post) :=
      List.append_assoc pre (c :: block) post
    have hdisj : ∀ x ∈ pre, x ∉ (c :: block) ++ post := by
      intro x hx
      have hd := List.disjoint_of_nodup_append (by rw [← hassoc]; exact hnodup)
      exact fun hc => hd hx hc
    have hfind : (pre ++ (c :: block) ++ post).findIdx? (· = c) = some pre.length := by
      rw [hassoc, findIdx_shift _ pre ((c :: block) ++ post) ?_]
      · rw [List.cons_append, List.findIdx?_cons, if_pos (by simp)]
        show some (pre.length + 0) = some pre.length
        rw [Nat.add_zero]
      · intro x hx
        exact decide_eq_false (fun hc => hdisj x hx
          (by rw [hc]; exact List.mem_append_left _ (List.mem_cons_self _ _)))
    have hlist : (pre ++ [c]) ++ block ++ post = pre ++ (c :: block) ++ post := by
      simp
    have ih2 := ih (pre ++ [c]) post (by rw [hlist]; exact hnodup)
    rw [hlist] at ih2
    rw [List.mapM_cons, hfind, ih2]
    show some (pre.length :: (List.range block.length).map (fun m => (pre ++ [c]).length + m))
      = some ((List.range (block.length + 1)).map (fun m => pre.length + m))
    rw [List.range_succ_eq_map, List.map_cons, List.map_map]
    congr 2
    apply List.map_congr_left
    intro m _
    show (pre ++ [c]).length + m = pre.length + (m + 1)
    simp only [List.length_append, List.length_cons, List.length_nil]
    omega

theorem getD_append_middle {α : Type} (d : α) (pre vals post : List α) (m : Nat)
    (h : m < vals.length) :
    (pre ++ vals ++ post).getD (pre.length + m) d = vals.getD m d := by
  rw [List.getD_eq_getElem?_getD, List.getD_eq_getElem?_getD]
  rw [List.append_assoc, List.getElem?_append_right (Nat.le_add_right pre.length m),
    Nat.add_sub_cancel_left, List.getElem?_append_left h]

theorem get?_range_map {α : Type} (f : Nat → α) (n k : Nat) (h : k < n) :
    ((List.range n).map f).get? k = some (f k) := by
  rw [List.get?_eq_getElem?, List.getElem?_map, List.getElem?_range h]
  rfl

theorem flatten_map_length {α β γ : Type} (base : List α) (f : α → List β) (g : α → List γ)
    (h : ∀ x ∈ base, (f x).length = (g x).length) :
    ((base.map f).flatten).length = ((base.map g).flatten).length := by
  rw [List.length_flatten, List.length_flatten, List.map_map, List.map_map]
  congr 1
  apply List.map_congr_left
  intro x hx
  exact h x hx

/-- `select_query` + `fetchall` on a table whose column list decomposes
as `pre ++ block ++ post` projects every row through the consecutive
indices of the block. -/
theorem selectRows_section (db : DB) (name : String) (T : DTable)
    (hfind : dbLookup db name = some T)
    (block pre post : List String)
    (hcols : T.cols = pre ++ block ++ post)
    (hnodup : T.cols.Nodup) :
    selectRows db name block
      = .ok (T.rows.map (fun r =>
          ((List.range block.length).map (fun m => pre.length + m)).map
            (fun i => r.getD i (.vint 0)))) := by
  rw [hcols] at hnodup
  simp only [selectRows, hfind]
  rw [hcols, mapM_findIdx_block block pre post hnodup]


/-- Projecting a canonical row through a section's SELECT indices
recovers exactly that section's decoded values for the record. -/
theorem select_entries_canon (off : Nat) (G : List Nat) (t : TableLayout)
    (hok : ∀ s ∈ t.sections, ∀ k, k < t.count →
      ∃ vs, rowVals .little G s.data (recordStart s off k) = .ok vs) :
    ∀ (ss1 : List Section) (s : Section) (ss : List Section),
      t.sections = ss1 ++ s :: ss →
      ∀ j, j < t.count →
        ((List.range (selectColumnNamesCore s).length).map
            (fun m => ((ss1.map selectColumnNamesCore).flatten).length + m)).map
          (fun i => ((t.sections.map (fun s2 =>
              rowValsD .little G s2.data (recordStart s2 off j))).flatten).getD i (.vint 0))
        = rowValsD .little G s.data (recordStart s off j) := by
  intro ss1 s ss hsplit j hj
  have hlen_core : ∀ s2 ∈ t.sections,
      (rowValsD .little G s2.data (recordStart s2 off j)).length
        = (selectColumnNamesCore s2).length := by
    intro s2 hs2
    obtain ⟨vs, hvs⟩ := hok s2 hs2 j hj
    rw [show rowValsD .little G s2.data (recordStart s2 off j) = vs from by
      rw [rowValsD, hvs]]
    rw [rowVals_length .little G s2.data _ vs hvs]
    rw [show selectColumnNamesCore s2
        = (s2.data.map (fun c => c.1)).filter (fun c => c ≠ "padding") from rfl]
    rw [filter_padding_map_fst, List.length_map]
  have hrow : (t.sections.map (fun s2 =>
        rowValsD .little G s2.data (recordStart s2 off j))).flatten
      = (ss1.map (fun s2 => rowValsD .little G s2.data (recordStart s2 off j))).flatten
        ++ rowValsD .little G s.data (recordStart s off j)
        ++ (ss.map (fun s2 => rowValsD .little G s2.data (recordStart s2 off j))).flatten := by
    rw [hsplit]
    simp [List.map_append, List.map_cons, List.flatten_append, List.flatten_cons,
      List.append_assoc]
  have hprelen : ((ss1.map selectColumnNamesCore).flatten).length
      = ((ss1.map (fun s2 =>
          rowValsD .little G s2.data (recordStart s2 off j))).flatten).length := by
    apply flatten_map_length ss1 _ _
    intro s2 hs2
    exact (hlen_core s2 (by rw [hsplit]; exact List.mem_append_left _ hs2)).symm
  have hblocklen : (selectColumnNamesCore s).length
      = (rowValsD .little G s.data (recordStart s off j)).length :=
    (hlen_core s (by
      rw [hsplit]; exact List.mem_append_right _ (List.mem_cons_self _ _))).symm
  rw [hrow, hprelen, hblocklen, List.map_map]
  refine Eq.trans (List.map_congr_left ?_) (list_getD_range_map (.vint 0) _)
  intro m hm
  rw [List.mem_range] at hm
  exact getD_append_middle (.vint 0) _ _ _ m hm

/-- The per-table write pass over the canonical store computes, for
every section, the canonical positional buffer. -/
theorem writeTableBufs_canon (off : Nat) (name : String) (db : DB) (t : TableLayout)
    (G : List Nat) (hG : ∀ b ∈ G, b < 256) (T : DTable)
    (hfind : dbLookup db name = some T)
    (hTcols : T.cols = (tableColumns t).map (fun c => c.1))
    (hTrows : T.rows = tableRowsC .little G off t)
    (hnodup : T.cols.Nodup)
    (hok : ∀ s ∈ t.sections, ∀ k, k < t.count →
      ∃ vs, rowVals .little G s.data (recordStart s off k) = .ok vs)
    (hne : ∀ s ∈ t.sections, s.data ≠ []) :
    ∀ (ss2 ss1 : List Section), t.sections = ss1 ++ ss2 →
      writeTableBufs .little off name db ss2
        = .ok (ss2.map (fun s =>
            (s.offset + off, posBuf G s.data (s.offset + off) t.count))) := by
  intro ss2
  induction ss2 with
  | nil => intro ss1 _; rfl
  | cons s ss ih =>
    intro ss1 hsplit
    have hs_mem : s ∈ t.sections := by
      rw [hsplit]
      exact List.mem_append_right _ (List.mem_cons_self _ _)
    have hsel : selectColumnNames s = .ok (selectColumnNamesCore s) := by
      rw [selectColumnNames, if_neg (hne s hs_mem)]
    have hdecomp : T.cols = (ss1.map selectColumnNamesCore).flatten
        ++ selectColumnNamesCore s ++ (ss.map selectColumnNamesCore).flatten := by
      rw [hTcols, ← selectColumnNamesCore_flatten, hsplit]
      simp [List.map_append, List.map_cons, List.flatten_append, List.flatten_cons,
        List.append_assoc]
    have hrows := selectRows_section db name T hfind (selectColumnNamesCore s)
      ((ss1.map selectColumnNamesCore).flatten)
      ((ss.map selectColumnNamesCore).flatten) hdecomp hnodup
    have hentries : T.rows.map (fun r =>
          ((List.range (selectColumnNamesCore s).length).map
            (fun m => ((ss1.map selectColumnNamesCore).flatten).length + m)).map
            (fun i => r.getD i (.vint 0)))
        = (List.range t.count).map
            (fun j => rowValsD .little G s.data (recordStart s off j)) := by
      rw [hTrows, tableRowsC, List.map_map]
      apply List.map_congr_left
      intro j hj
      rw [List.mem_range] at hj
      exact select_entries_canon off G t hok ss1 s ss hsplit j hj
    have hargs : ∀ k, k < ((List.range t.count).map
          (fun j => rowValsD .little G s.data (recordStart s off j))).length →
        ∃ vs, rowVals .little G s.data ((s.offset + off) + k * sectionWidth s.data)
            = .ok vs ∧
          ((List.range t.count).map
            (fun j => rowValsD .little G s.data (recordStart s off j))).get? k
              = some vs := by
      intro k hk
      rw [List.length_map, List.length_range] at hk
      obtain ⟨vs, hvs⟩ := hok s hs_mem k hk
      refine ⟨vs, hvs, ?_⟩
      rw [get?_range_map _ t.count k hk]
      rw [show rowValsD .little G s.data (recordStart s off k) = vs from by
        rw [rowValsD, hvs]]
    have henc := encodeSection_of_rowVals G hG s.data
      ((List.range t.count).map (fun j => rowValsD .little G s.data (recordStart s off j)))
      (s.offset + off) hargs
    rw [List.length_map, List.length_range] at henc
    rw [writeTableBufs_cons]
    simp only [hsel, hrows, hentries, henc]
    rw [ih (ss1 ++ [s]) (by rw [hsplit]; simp)]
    rfl

/-- The whole write pass over the canonical store computes the
canonical buffer of every section occurrence, in order. -/
theorem writeBufs_canon (off : Nat) (G : List Nat) (hG : ∀ b ∈ G, b < 256) :
    ∀ (L : Layout) (db : DB),
      (L.map Prod.fst).Nodup →
      (∀ nt ∈ L, dbLookup db nt.1
        = some ⟨(tableColumns nt.2).map (fun c => c.1), tableRowsC .little G off nt.2⟩) →
      (∀ nt ∈ L, ((tableColumns nt.2).map (fun c => c.1)).Nodup) →
      (∀ nt ∈ L, ∀ s ∈ nt.2.sections, s.data ≠ []) →
      (∀ nt ∈ L, ∀ s ∈ nt.2.sections, ∀ k, k < nt.2.count →
        ∃ vs, rowVals .little G s.data (recordStart s off k) = .ok vs) →
      writeBufs .little off db L
        = .ok ((occList L off).map (fun e => (e.1, posBuf G e.2.2 e.1 e.2.1))) := by
  intro L
  induction L with
  | nil => intro db _ _ _ _ _; rfl
  | cons nt rest ih =>
    obtain ⟨name, t⟩ := nt
    intro db hnodup hfind hcnd hne hok
    rw [List.map_cons] at hnodup
    have hnodup2 := (List.nodup_cons.mp hnodup).2
    rw [writeBufs_cons]
    have h1 := writeTableBufs_canon off name db t G hG
      ⟨(tableColumns t).map (fun c => c.1), tableRowsC .little G off t⟩
      (hfind (name, t) (List.mem_cons_self _ _)) rfl rfl
      (hcnd (name, t) (List.mem_cons_self _ _))
      (hok (name, t) (List.mem_cons_self _ _))
      (hne (name, t) (List.mem_cons_self _ _))
      t.sections [] rfl
    simp only [h1]
    rw [ih db hnodup2 (fun nt2 h => hfind nt2 (List.mem_cons_of_mem _ h))
      (fun nt2 h => hcnd nt2 (List.mem_cons_of_mem _ h))
      (fun nt2 h => hne nt2 (List.mem_cons_of_mem _ h))
      (fun nt2 h => hok nt2 (List.mem_cons_of_mem _ h))]
    rw [show occList ((name, t) :: rest) off
        = t.sections.map (fun s => (s.offset + off, t.count, s.data)) ++ occList rest off
      from rfl]
    rw [List.map_append, List.map_map]
    rw [show t.sections.map ((fun e => (e.1, posBuf G e.2.2 e.1 e.2.1))
          ∘ (fun s => (s.offset + off, t.count, s.data)))
        = t.sections.map (fun s =>
            (s.offset + off, posBuf G s.data (s.offset + off) t.count)) from
      List.map_congr_left (fun s _ => rfl)]


/-! ### Round trip, phase K: geometry of disjoint occurrences and the
second pass -/

/-- Under disjointness, whether a position inside one occurrence's
range is a padding byte is decided by that occurrence alone. -/
theorem paddingPos_resolve (L : Layout) (o : Nat) (hd : layoutDisjoint L o)
    (e : Nat × Nat × List Field) (he : e ∈ occList L o) (j : Nat)
    (h1 : e.1 ≤ j) (h2 : j < e.1 + occLen e) :
    (paddingPos L o j ↔ relPadding e.2.2 ((j - e.1) % sectionWidth e.2.2) = true) := by
  constructor
  · intro hp
    obtain ⟨e2, he2, h1b, h2b, hpb⟩ := hp
    by_cases heq : e2 = e
    · subst heq
      exact hpb
    · exfalso
      have hsym : Symmetric (fun a b : Nat × Nat × List Field =>
          rangesDisjoint (a.1, occLen a) (b.1, occLen b)) := by
        intro a b hab
        rcases hab with h | h
        · exact Or.inr h
        · exact Or.inl h
      have hpw : (occList L o).Pairwise (fun a b =>
          rangesDisjoint (a.1, occLen a) (b.1, occLen b)) := by
        have := List.pairwise_map.mp hd
        exact this
      have hdis := List.Pairwise.forall hsym hpw he2 he heq
      rcases hdis with hc | hc
      · simp only at hc
        omega
      · simp only at hc
        omega
  · intro hp
    exact ⟨e, he, h1, h2, hp⟩

theorem writeTableBufs_sections_ne (bo : ByteOrder) (off : Nat) (name : String) (db : DB) :
    ∀ (ss : List Section) (ws : List (Nat × List Nat)),
      writeTableBufs bo off name db ss = .ok ws → ∀ s ∈ ss, s.data ≠ [] := by
  intro ss
  induction ss with
  | nil => intro ws _ s hs; cases hs
  | cons s0 ss ih =>
    intro ws h s hs
    rw [writeTableBufs_cons] at h
    cases h1 : selectColumnNames s0 with
    | error e =>
      simp only [h1] at h
      exact (Except.noConfusion h)
    | ok cols =>
      simp only [h1] at h
      have hs0 : s0.data ≠ [] := by
        intro hc
        rw [selectColumnNames, if_pos hc] at h1
        exact (Except.noConfusion h1)
      rcases List.mem_cons.mp hs with rfl | hs2
      · exact hs0
      · cases h2 : selectRows db name cols with
        | error e =>
          simp only [h2] at h
          exact (Except.noConfusion h)
        | ok data =>
          simp only [h2] at h
          cases h3 : encodeSection bo s0.data data with
          | error e =>
            simp only [h3] at h
            exact (Except.noConfusion h)
          | ok buf =>
            simp only [h3] at h
            cases h4 : writeTableBufs bo off name db ss with
            | error e =>
              simp only [h4] at h
              exact (Except.noConfusion h)
            | ok ws2 => exact ih ws2 h4 s hs2

theorem writeBufs_sections_ne (bo : ByteOrder) (off : Nat) :
    ∀ (L : Layout) (db : DB) (ws : List (Nat × List Nat)),
      writeBufs bo off db L = .ok ws →
      ∀ nt ∈ L, ∀ s ∈ nt.2.sections, s.data ≠ [] := by
  intro L
  induction L with
  | nil => intro db ws _ nt hnt; cases hnt
  | cons nt0 rest ih =>
    obtain ⟨name, t⟩ := nt0
    intro db ws h nt hnt
    rw [writeBufs_cons] at h
    cases h1 : writeTableBufs bo off name db t.sections with
    | error e =>
      simp only [h1] at h
      exact (Except.noConfusion h)
    | ok ws1 =>
      simp only [h1] at h
      rcases List.mem_cons.mp hnt with rfl | hnt2
      · exact writeTableBufs_sections_ne bo off name db t.sections ws1 h1
      · cases h2 : writeBufs bo off db rest with
        | error e =>
          simp only [h2] at h
          exact (Except.noConfusion h)
        | ok ws2 => exact ih db ws2 h2 nt hnt2

/-- Every byte of a canonical section buffer is zero or a byte of the
source file. -/
theorem posBuf_mem (G : List Nat) (fs : List Field) (p n : Nat) (b : Nat)
    (h : b ∈ posBuf G fs p n) : b = 0 ∨ b ∈ G := by
  unfold posBuf at h
  rw [List.mem_map] at h
  obtain ⟨x, _, hx⟩ := h
  by_cases hr : relPadding fs (x % sectionWidth fs) = true
  · rw [if_pos hr] at hx
    exact Or.inl hx.symm
  · rw [if_neg hr] at hx
    unfold byteAt at hx
    rw [List.getD_eq_getElem?_getD] at hx
    cases hg : G[p + x]? with
    | none =>
      rw [hg] at hx
      exact Or.inl hx.symm
    | some y =>
      rw [hg] at hx
      refine Or.inr ?_
      rw [← hx]
      exact List.getElem?_mem hg

/-- A record that read successfully from the first file reads
successfully from any file that is long enough and agrees with the
first on the record's non-padding bytes (the zero-extension of a short
span decodes: an `int` reads a value, a `str` stays valid UTF-8). -/
theorem rowVals_ok_pass2 (F F2 : List Nat) :
    ∀ (fs : List Field) (pos : Nat) (vs : List Value),
      rowVals .little F fs pos = .ok vs →
      (∀ u, u < sectionWidth fs → relPadding fs u = false →
        byteAt F2 (pos + u) = byteAt F (pos + u)) →
      pos + sectionWidth fs ≤ F2.length →
      ∃ vs2, rowVals .little F2 fs pos = .ok vs2 := by
  intro fs
  induction fs with
  | nil => intro pos vs _ _ _; exact ⟨[], rfl⟩
  | cons f fs ih =>
    obtain ⟨name, ty, len⟩ := f
    intro pos vs hrv hbyte hlenb
    rw [sectionWidth_cons] at hlenb
    have htail : ∀ u, u < sectionWidth fs → relPadding fs u = false →
        byteAt F2 (pos + len + u) = byteAt F (pos + len + u) := by
      intro u hu hpad
      have := hbyte (len + u) (by rw [sectionWidth_cons]; omega)
        (by rw [relPadding_cons_add]; exact hpad)
      rw [show pos + (len + u) = pos + len + u by ring] at this
      exact this
    have hlen2 : pos + len + sectionWidth fs ≤ F2.length := by omega
    rw [rowVals_cons] at hrv ⊢
    by_cases hp : name = "padding"
    · rw [if_pos hp] at hrv ⊢
      exact ih (pos + len) vs hrv htail hlen2
    · rw [if_neg hp] at hrv ⊢
      have hspan2 : (F2.drop pos).take len = (F.drop pos).take len
          ++ List.replicate (len - ((F.drop pos).take len).length) 0 := by
        rw [span_pad_eq_map F pos len]
        have hfull : (F2.drop pos).take len
            = (List.range len).map (fun q => byteAt F2 (pos + q)) := by
          have h0 := span_pad_eq_map F2 pos len
          rw [show len - ((F2.drop pos).take len).length = 0 from by
            simp only [List.length_take, List.length_drop]
            omega] at h0
          rw [show (List.replicate 0 0 : List Nat) = [] from rfl, List.append_nil] at h0
          exact h0
        rw [hfull]
        apply List.map_congr_left
        intro q hq
        rw [List.mem_range] at hq
        exact hbyte q (by rw [sectionWidth_cons]; omega)
          (by rw [relPadding_cons, if_pos hq]; exact decide_eq_false hp)
      cases hdec : decodeField .little ty ((F.drop pos).take len) with
      | error e =>
        simp only [hdec] at hrv
        exact (Except.noConfusion hrv)
      | ok v =>
        simp only [hdec] at hrv
        cases hrv2 : rowVals .little F fs (pos + len) with
        | error e =>
          simp only [hrv2] at hrv
          exact (Except.noConfusion hrv)
        | ok vsT =>
          obtain ⟨vs2T, hvs2T⟩ := ih (pos + len) vsT hrv2 htail hlen2
          have hdec2 : ∃ v2, decodeField .little ty ((F2.drop pos).take len) = .ok v2 := by
            rw [hspan2]
            by_cases hty : ty = "int"
            · subst hty
              exact ⟨_, by rw [decodeField, if_pos rfl]⟩
            · by_cases hty2 : ty = "str"
              · subst hty2
                rw [decodeField, if_neg (by decide), if_pos rfl] at hdec
                cases hut : utf8Valid ((F.drop pos).take len) with
                | false => simp [decodeText, hut] at hdec
                | true =>
                  have hut2 : utf8Valid ((F.drop pos).take len
                      ++ List.replicate (len - ((F.drop pos).take len).length) 0)
                        = true :=
                    utf8Valid_append_zeros _ ((F.drop pos).take len).length _
                      (Nat.le_refl _) hut
                  refine ⟨.vstr ((F.drop pos).take len
                    ++ List.replicate (len - ((F.drop pos).take len).length) 0), ?_⟩
                  rw [decodeField, if_neg (by decide), if_pos rfl]
                  rw [decodeText, if_pos hut2]
              · rw [decodeField, if_neg hty, if_neg hty2] at hdec
                exact (Except.noConfusion hdec)
          obtain ⟨v2, hv2⟩ := hdec2
          refine ⟨v2 :: vs2T, ?_⟩
          simp only [hv2, hvs2T]


/-- C1 (amended).  For a layout with pairwise-disjoint section byte
ranges and distinct table names (a parsed layout's table dict has
distinct keys), under the default `little` byte order and a fresh
store: a read pass (`parse_file`) followed by a write pass
(`write_back`) leaves every non-padding byte of the file unchanged,
zeroes every padding byte, and the combined pass is idempotent — the
written file parses again and writing that parse back reproduces the
file exactly. -/
theorem roundTrip_disjoint (o : Nat) (L : Layout) (F : List Nat) (db : DB) (F2 : List Nat)
    (hnames : (L.map Prod.fst).Nodup)
    (hbytes : ∀ b ∈ F, b < 256)
    (hdisj : layoutDisjoint L o)
    (hparse : parseFile .little o L F [] = .ok db)
    (hwrite : writeBack .little o L db F = .ok F2) :
    (∀ j, ¬ paddingPos L o j → byteAt F2 j = byteAt F j) ∧
    (∀ j, paddingPos L o j → byteAt F2 j = 0) ∧
    (∃ db2, parseFile .little o L F2 [] = .ok db2 ∧
      writeBack .little o L db2 F2 = .ok F2) := by
  rw [parseFile_eq_pure] at hparse
  have hnone : ∀ nt ∈ L, dbLookup ([] : DB) nt.1 = none := fun nt _ => rfl
  have hfacts := parseFilePure_facts .little o L [] db F hparse hnone hnames
  have hdbeq : db = dbC .little F o L := by
    have he := parseFilePure_eval .little o L [] F hnone hnames hfacts
    rw [he] at hparse
    injection hparse with h2
    rw [← h2, List.nil_append]
  rw [writeBack_eq] at hwrite
  cases hwb : writeBufs .little o db L with
  | error e =>
    simp only [hwb] at hwrite
    exact (Except.noConfusion hwrite)
  | ok ws =>
    simp only [hwb] at hwrite
    injection hwrite with hF2
    have hne := writeBufs_sections_ne .little o L db ws hwb
    have hfind : ∀ nt ∈ L, dbLookup db nt.1
        = some ⟨(tableColumns nt.2).map (fun c => c.1), tableRowsC .little F o nt.2⟩ := by
      intro nt hnt
      rw [hdbeq]
      exact dbLookup_dbC .little F o L nt.1 nt.2 hnames hnt
    have hcnd : ∀ nt ∈ L, ((tableColumns nt.2).map (fun c => c.1)).Nodup :=
      fun nt hnt => ((hfacts nt hnt).2.1).of_cons
    have hokF : ∀ nt ∈ L, ∀ s ∈ nt.2.sections, ∀ k, k < nt.2.count →
        ∃ vs, rowVals .little F s.data (recordStart s o k) = .ok vs :=
      fun nt hnt => (hfacts nt hnt).2.2
    have hcanon := writeBufs_canon o F hbytes L db hnames hfind hcnd hne hokF
    rw [hwb] at hcanon
    injection hcanon with hws
    subst hws
    have hpair : (((occList L o).map (fun e => (e.1, posBuf F e.2.2 e.1 e.2.1))).map
        (fun pb => (pb.1, pb.2.length))).Pairwise rangesDisjoint := by
      rw [List.map_map,
        show ((fun pb : Nat × List Nat => (pb.1, pb.2.length))
            ∘ (fun e : Nat × Nat × List Field => (e.1, posBuf F e.2.2 e.1 e.2.1)))
          = (fun e => (e.1, occLen e)) from by
        funext e
        show (e.1, (posBuf F e.2.2 e.1 e.2.1).length) = (e.1, occLen e)
        rw [posBuf_length]
        rfl]
      exact hdisj
    have hc1 : ∀ j, ¬ paddingPos L o j → byteAt F2 j = byteAt F j := by
      intro j hnp
      rw [← hF2]
      by_cases hin : ∃ e ∈ occList L o, e.1 ≤ j ∧ j < e.1 + occLen e
      · obtain ⟨e, he, h1, h2⟩ := hin
        have h2b : j < e.1 + e.2.1 * sectionWidth e.2.2 := h2
        rw [applyWrites_in _ F e.1 (posBuf F e.2.2 e.1 e.2.1) j
          (List.mem_map_of_mem (fun e => (e.1, posBuf F e.2.2 e.1 e.2.1)) he)
          hpair h1 (by rw [posBuf_length]; exact h2b)]
        rw [posBuf_getD F e.2.2 e.1 e.2.1 (j - e.1) (by omega)]
        rw [if_neg (fun hpad => hnp ⟨e, he, h1, h2, hpad⟩)]
        rw [show e.1 + (j - e.1) = j by omega]
      · rw [applyWrites_out]
        intro pb hpb
        rw [List.mem_map] at hpb
        obtain ⟨e, he, rfl⟩ := hpb
        show j < e.1 ∨ e.1 + (posBuf F e.2.2 e.1 e.2.1).length ≤ j
        rw [posBuf_length]
        by_contra hcon
        push_neg at hcon
        refine hin ⟨e, he, by omega, ?_⟩
        show j < e.1 + occLen e
        have hol : occLen e = e.2.1 * sectionWidth e.2.2 := rfl
        omega
    have hc2 : ∀ j, paddingPos L o j → byteAt F2 j = 0 := by
      intro j hp
      obtain ⟨e, he, h1, h2, hpad⟩ := hp
      have h2b : j < e.1 + e.2.1 * sectionWidth e.2.2 := h2
      rw [← hF2]
      rw [applyWrites_in _ F e.1 (posBuf F e.2.2 e.1 e.2.1) j
        (List.mem_map_of_mem (fun e => (e.1, posBuf F e.2.2 e.1 e.2.1)) he)
        hpair h1 (by rw [posBuf_length]; exact h2b)]
      rw [posBuf_getD F e.2.2 e.1 e.2.1 (j - e.1) (by omega)]
      rw [if_pos hpad]
    refine ⟨hc1, hc2, ?_⟩
    have hlenF2 : ∀ e ∈ occList L o, e.1 + e.2.1 * sectionWidth e.2.2 ≤ F2.length := by
      intro e he
      have hc := applyWrites_covers ((occList L o).map
          (fun e => (e.1, posBuf F e.2.2 e.1 e.2.1))) F e.1 (posBuf F e.2.2 e.1 e.2.1)
        (List.mem_map_of_mem (fun e => (e.1, posBuf F e.2.2 e.1 e.2.1)) he)
      rw [posBuf_length, hF2] at hc
      exact hc
    have hok2 : ∀ nt ∈ L, ∀ s ∈ nt.2.sections, ∀ k, k < nt.2.count →
        ∃ vs, rowVals .little F2 s.data (recordStart s o k) = .ok vs := by
      intro nt hnt s hs k hk
      have he : ((s.offset + o, nt.2.count, s.data) : Nat × Nat × List Field)
          ∈ occList L o := by
        rw [occList, List.mem_flatMap]
        exact ⟨nt, hnt,
          List.mem_map_of_mem (fun s => (s.offset + o, nt.2.count, s.data)) hs⟩
      obtain ⟨vs, hvs⟩ := hokF nt hnt s hs k hk
      have hW : (k + 1) * sectionWidth s.data ≤ nt.2.count * sectionWidth s.data :=
        Nat.mul_le_mul_right _ hk
      have hsucc : (k + 1) * sectionWidth s.data
          = k * sectionWidth s.data + sectionWidth s.data := by ring
      apply rowVals_ok_pass2 F F2 s.data (recordStart s o k) vs hvs
      · intro u hu hpad
        have hju : recordStart s o k + u
            = s.offset + o + (k * sectionWidth s.data + u) := by
          show s.offset + o + k * sectionWidth s.data + u = _
          ring
        have hmod : (k * sectionWidth s.data + u) % sectionWidth s.data = u := by
          rw [Nat.mul_comm k (sectionWidth s.data), Nat.mul_add_mod]
          exact Nat.mod_eq_of_lt hu
        have hnp : ¬ paddingPos L o (recordStart s o k + u) := by
          intro hpp
          have hres := (paddingPos_resolve L o hdisj (s.offset + o, nt.2.count, s.data)
            he (recordStart s o k + u) (by rw [hju]; omega)
            (by
              rw [hju]
              show s.offset + o + (k * sectionWidth s.data + u)
                < s.offset + o + nt.2.count * sectionWidth s.data
              omega)).mp hpp
          rw [hju] at hres
          rw [show s.offset + o + (k * sectionWidth s.data + u) - (s.offset + o)
              = k * sectionWidth s.data + u by omega] at hres
          rw [hmod, hpad] at hres
          exact Bool.noConfusion hres
        exact hc1 (recordStart s o k + u) hnp
      · have hcov : s.offset + o + nt.2.count * sectionWidth s.data ≤ F2.length :=
          hlenF2 (s.offset + o, nt.2.count, s.data) he
        show s.offset + o + k * sectionWidth s.data + sectionWidth s.data ≤ F2.length
        omega
    have hfacts2 : ∀ nt ∈ L, tableColumns nt.2 ≠ [] ∧
        ("id" :: (tableColumns nt.2).map (fun c => c.1)).Nodup ∧
        ∀ s ∈ nt.2.sections, ∀ k, k < nt.2.count →
          ∃ vs, rowVals .little F2 s.data (recordStart s o k) = .ok vs :=
      fun nt hnt => ⟨(hfacts nt hnt).1, (hfacts nt hnt).2.1, hok2 nt hnt⟩
    refine ⟨dbC .little F2 o L, ?_, ?_⟩
    · rw [parseFile_eq_pure]
      have he2 := parseFilePure_eval .little o L [] F2 hnone hnames hfacts2
      rw [he2, List.nil_append]
    · have hbytes2 : ∀ b ∈ F2, b < 256 := by
        intro b hb
        rw [← hF2] at hb
        rcases applyWrites_mem _ F b hb with h | h | ⟨pb, hpb, hbuf⟩
        · exact hbytes b h
        · omega
        · rw [List.mem_map] at hpb
          obtain ⟨e, _, rfl⟩ := hpb
          rcases posBuf_mem F e.2.2 e.1 e.2.1 b hbuf with h0 | hmF
          · omega
          · exact hbytes b hmF
      have hfind2 : ∀ nt ∈ L, dbLookup (dbC .little F2 o L) nt.1
          = some ⟨(tableColumns nt.2).map (fun c => c.1),
              tableRowsC .little F2 o nt.2⟩ :=
        fun nt hnt => dbLookup_dbC .little F2 o L nt.1 nt.2 hnames hnt
      have hcanon2 := writeBufs_canon o F2 hbytes2 L (dbC .little F2 o L) hnames hfind2
        hcnd hne hok2
      rw [writeBack_eq]
      simp only [hcanon2]
      rw [applyWrites_self]
      intro pb hpb
      rw [List.mem_map] at hpb
      obtain ⟨e, he, rfl⟩ := hpb
      constructor
      · rw [posBuf_length]
        exact hlenF2 e he
      · intro x hx
        rw [posBuf_length] at hx
        rw [posBuf_getD F2 e.2.2 e.1 e.2.1 x hx]
        by_cases hpad : relPadding e.2.2 (x % sectionWidth e.2.2) = true
        · rw [if_pos hpad]
          apply hc2
          refine ⟨e, he, Nat.le_add_right _ _, ?_, ?_⟩
          · show e.1 + x < e.1 + occLen e
            have hol : occLen e = e.2.1 * sectionWidth e.2.2 := rfl
            omega
          · rw [show e.1 + x - e.1 = x by omega]
            exact hpad
        · rw [if_neg hpad]


/-- C1 (counterexample to the unrestricted claim).  Two parsed tables
whose sections overlap at offset 0: table `b` (listed first) declares
byte 0 as padding, table `a` declares it as the data field `y`.  On the
file `[5, 7]` the write pass first zeroes byte 0 for `b`, then `a`'s
write restores `y = 5` over it — the final file `[5, 0]` has the
padding byte 0 holding 5, not zero, so "sets every padding byte to
zero" fails without a disjointness restriction.  The layout text is
parsed by `parse_layout` itself, so the counterexample is a "parsed
LayoutSpec" in the claim's sense. -/
theorem roundTrip_overlap_padding_cex :
    parseLayout 20 ["begin".toList, "b 0 2 1".toList, "padding 1".toList,
        "x int 1".toList, "end".toList, "begin".toList, "a 0 2 1".toList,
        "y int 1".toList, "padding 1".toList, "end".toList, "endfile".toList]
      = some (.ok [("b", ⟨1, [⟨0, [("padding", "int", 1), ("x", "int", 1)]⟩]⟩),
          ("a", ⟨1, [⟨0, [("y", "int", 1), ("padding", "int", 1)]⟩]⟩)]) ∧
    parseFile .little 0
        [("b", ⟨1, [⟨0, [("padding", "int", 1), ("x", "int", 1)]⟩]⟩),
         ("a", ⟨1, [⟨0, [("y", "int", 1), ("padding", "int", 1)]⟩]⟩)] [5, 7] []
      = .ok [("b", ⟨["x"], [[.vint 7]]⟩), ("a", ⟨["y"], [[.vint 5]]⟩)] ∧
    writeBack .little 0
        [("b", ⟨1, [⟨0, [("padding", "int", 1), ("x", "int", 1)]⟩]⟩),
         ("a", ⟨1, [⟨0, [("y", "int", 1), ("padding", "int", 1)]⟩]⟩)]
        [("b", ⟨["x"], [[.vint 7]]⟩), ("a", ⟨["y"], [[.vint 5]]⟩)] [5, 7]
      = .ok [5, 0] ∧
    paddingPos [("b", ⟨1, [⟨0, [("padding", "int", 1), ("x", "int", 1)]⟩]⟩),
        ("a", ⟨1, [⟨0, [("y", "int", 1), ("padding", "int", 1)]⟩]⟩)] 0 0 ∧
    byteAt [5, 0] 0 ≠ 0 := by
  decide

/-- Witness for `roundTrip_disjoint` on the spec's §8 scenario: the
`players` table, two 8-byte records at offset 0x10 over a 32-byte
file; the write pass reproduces the file exactly and the pass is
idempotent. -/
theorem roundTrip_disjoint_witness :
    (∀ j, ¬ paddingPos
          [("players", ⟨2, [⟨16, [("name", "str", 4), ("hp", "int", 4)]⟩]⟩)] 0 j →
        byteAt (List.replicate 16 0 ++ [65, 108, 0, 0, 100, 0, 0, 0, 66, 111, 0, 0, 50, 0, 0, 0]) j
          = byteAt (List.replicate 16 0
              ++ [65, 108, 0, 0, 100, 0, 0, 0, 66, 111, 0, 0, 50, 0, 0, 0]) j) ∧
    (∀ j, paddingPos
          [("players", ⟨2, [⟨16, [("name", "str", 4), ("hp", "int", 4)]⟩]⟩)] 0 j →
        byteAt (List.replicate 16 0
          ++ [65, 108, 0, 0, 100, 0, 0, 0, 66, 111, 0, 0, 50, 0, 0, 0]) j = 0) ∧
    (∃ db2, parseFile .little 0
          [("players", ⟨2, [⟨16, [("name", "str", 4), ("hp", "int", 4)]⟩]⟩)]
          (List.replicate 16 0 ++ [65, 108, 0, 0, 100, 0, 0, 0, 66, 111, 0, 0, 50, 0, 0, 0]) []
        = .ok db2 ∧
      writeBack .little 0
          [("players", ⟨2, [⟨16, [("name", "str", 4), ("hp", "int", 4)]⟩]⟩)] db2
          (List.replicate 16 0 ++ [65, 108, 0, 0, 100, 0, 0, 0, 66, 111, 0, 0, 50, 0, 0, 0])
        = .ok (List.replicate 16 0
            ++ [65, 108, 0, 0, 100, 0, 0, 0, 66, 111, 0, 0, 50, 0, 0, 0])) :=
  roundTrip_disjoint 0
    [("players", ⟨2, [⟨16, [("name", "str", 4), ("hp", "int", 4)]⟩]⟩)]
    (List.replicate 16 0 ++ [65, 108, 0, 0, 100, 0, 0, 0, 66, 111, 0, 0, 50, 0, 0, 0])
    [("players", ⟨["name", "hp"],
      [[.vstr [65, 108, 0, 0], .vint 100], [.vstr [66, 111, 0, 0], .vint 50]]⟩)]
    (List.replicate 16 0 ++ [65, 108, 0, 0, 100, 0, 0, 0, 66, 111, 0, 0, 50, 0, 0, 0])
    (by decide) (by decide) (by decide) (by decide) (by decide)

end BinaryParser
